import Mathlib

/-!
# Skyline rectangle packer (Nuclex `CygonRectanglePacker`) and atlas size search

Shallow embedding of

* `SpriteFonts/RectanglePacker.h` (`Pack`),
* `SpriteFonts/CygonRectanglePacker.{h,cpp}` (`TryPack`, `tryFindBestPlacement`,
  `integrateRectangle`, `SliceStartComparer`),
* `SpriteFonts/NuclexSpriteFontDescriptionProcessor.cpp` (`determineOptimalTextureSize`, and
  of `Process` the packing of the characters and the regions their bitmaps are copied to;
  a character has a bitmap when its measured box has positive width and height, see
  `FreeTypeFontRasterizer::Rasterize` and `FreeTypeFontProcessor::MeasureCharacter`).

Conventions of the embedding.

* `int` values are integers (`Int`), and the arithmetic of the packer on coordinates and
  sizes is the unchecked 32-bit arithmetic of the program: the product of line 77, the sums
  of lines 62, 102, 119 and 178 of `CygonRectanglePacker.cpp` and the difference in
  `SliceStartComparer::Compare` are followed by `wrap`, which brings the exact result into
  `[-2^31, 2^31)`. Index arithmetic (`leftSliceIndex + 1`, `~index`, the midpoint of the
  bisection) is exact: an index lies between `-Count - 1` and `Count + 1`, and a
  `List<Point>` has far fewer than `2^31` elements. The sums `Width + 1` and `Height + 1` of
  the font processor are exact too: the boxes are the sizes of FreeType bitmaps, which
  `Rasterize` allocates.
* A `List<Point>` is a `List Point`, indexed by `Int` exactly as the source indexes it, and
  every indexed access is checked: an index outside the list raises
  `Exn.ArgumentOutOfRange`, as the .NET collection does.
* A method that mutates the packer returns the new packer next to its result.
* `while`/`for` loops are recursive functions over a fuel counter. The counter is an upper
  bound on the number of iterations; running out of it while the loop condition still holds
  raises `Exn.FuelExhausted`, which no source path raises, so every theorem that shows an
  `.ok` result also shows that the loop ended by itself.
* `List<T>.BinarySearch` is the bisection loop of the .NET base class library.

Every claim is stated about these definitions. The namespace `Exact` holds the same
functions over the integers, without `wrap`; the lemma base reasons about them, and the bridge
results named `..._exact` carry them over to the program on surfaces where no 32-bit operation
overflows (`SmallSurface`).
-/

namespace Nuclex

/-- Exceptions: `ArgumentOutOfRange` stands for the argument exceptions of the .NET list
(an index or range outside the list), `OutOfSpace` for `OutOfSpaceException`, and
`FuelExhausted` marks an exhausted loop counter of the embedding. -/
inductive Exn where
  | ArgumentOutOfRange
  | OutOfSpace
  | FuelExhausted
deriving DecidableEq, Repr

/-- The XNA `Point`: a height slice starts at column `X` and has height `Y`. -/
structure Point where
  X : Int
  Y : Int
deriving DecidableEq, Repr

/-- The constant `Point::Zero`. -/
def Point.Zero : Point := ⟨0, 0⟩

/-- Bitwise complement of an `int`: `~i = -i - 1`. -/
def bnot (i : Int) : Int := -i - 1

/-- Property `List<Point>::Count`. -/
def Count (l : List Point) : Int := (l.length : Int)

/-- Indexer read `list[i]`; raises when `i` is outside `[0, Count)`. -/
def getItem (l : List Point) (i : Int) : Except Exn Point :=
  if i < 0 then .error Exn.ArgumentOutOfRange
  else match l.get? i.toNat with
    | some p => .ok p
    | none => .error Exn.ArgumentOutOfRange

/-- Indexer write `list[i] = p`; raises when `i` is outside `[0, Count)`. -/
def setItem (l : List Point) (i : Int) (p : Point) : Except Exn (List Point) :=
  if i < 0 ∨ Count l ≤ i then .error Exn.ArgumentOutOfRange
  else .ok (l.set i.toNat p)

/-- Method `List<Point>::Add`. -/
def Add (l : List Point) (p : Point) : List Point := l ++ [p]

/-- Method `List<Point>::Insert(index, item)`; raises when `index` is outside `[0, Count]`. -/
def Insert (l : List Point) (index : Int) (p : Point) : Except Exn (List Point) :=
  if index < 0 ∨ Count l < index then .error Exn.ArgumentOutOfRange
  else .ok (l.take index.toNat ++ p :: l.drop index.toNat)

/-- Method `List<Point>::RemoveRange(index, count)`; raises on a negative argument or when the
range does not lie inside the list. -/
def RemoveRange (l : List Point) (index count : Int) : Except Exn (List Point) :=
  if index < 0 ∨ count < 0 ∨ Count l - index < count then .error Exn.ArgumentOutOfRange
  else .ok (l.take index.toNat ++ l.drop (index.toNat + count.toNat))

/-- The value a 32-bit `int` holds after an operation whose exact result is `x`: the number
in `[-2^31, 2^31)` that differs from `x` by a multiple of `2^32`. The operations of the
source on coordinates and sizes are unchecked, so this is what they compute. -/
def wrap (x : Int) : Int := (x + 2147483648) % 4294967296 - 2147483648

/-- Method `SliceStartComparer::Compare`: `left.X - right.X`, a 32-bit subtraction. -/
def SliceStartComparer.Compare (left right : Point) : Int := wrap (left.X - right.X)

/-- The bisection loop of `Array.BinarySearch`:
`while (lo <= hi) { i = lo + ((hi - lo) >> 1); order = Compare(array[i], value); ... }`,
returning `~lo` when the interval is empty. `hi - lo` is not negative where it is halved. -/
def BinarySearchLoop (l : List Point) (value : Point) : Nat → Int → Int → Except Exn Int
  | 0, lo, hi => if lo ≤ hi then .error Exn.FuelExhausted else .ok (bnot lo)
  | fuel + 1, lo, hi =>
    if lo ≤ hi then do
      let i := lo + (hi - lo) / 2
      let a ← getItem l i
      let order := SliceStartComparer.Compare a value
      if order = 0 then pure i
      else if order < 0 then BinarySearchLoop l value fuel (i + 1) hi
      else BinarySearchLoop l value fuel lo (i - 1)
    else .ok (bnot lo)

/-- Method `List<Point>::BinarySearch(index, count, item, SliceStartComparer::Default)`;
raises on a negative argument or when the range does not lie inside the list. -/
def BinarySearchRange (l : List Point) (index count : Int) (item : Point) : Except Exn Int :=
  if index < 0 ∨ count < 0 ∨ Count l - index < count then .error Exn.ArgumentOutOfRange
  else BinarySearchLoop l item count.toNat index (index + count - 1)

/-- Method `List<Point>::BinarySearch(item, SliceStartComparer::Default)`: the whole list. -/
def BinarySearch (l : List Point) (item : Point) : Except Exn Int :=
  BinarySearchRange l 0 (Count l) item

/-- The packer: the two fields of `RectanglePacker` and the silhouette `heightSlices`. -/
structure CygonRectanglePacker where
  PackingAreaWidth : Int
  PackingAreaHeight : Int
  heightSlices : List Point
deriving DecidableEq, Repr

/-- The constructor `CygonRectanglePacker(packingAreaWidth, packingAreaHeight)`: a single
slice of height 0. -/
def CygonRectanglePacker.create (packingAreaWidth packingAreaHeight : Int) :
    CygonRectanglePacker :=
  ⟨packingAreaWidth, packingAreaHeight, Add [] ⟨0, 0⟩⟩

/-- Lines 96-99 of `tryFindBestPlacement`:
`for(index = ...; index < rightSliceIndex; ++index) if(slices[index].Y > highest) highest = ...`. -/
def highestLoop (l : List Point) (rightSliceIndex : Int) : Nat → Int → Int → Except Exn Int
  | 0, index, highest =>
    if index < rightSliceIndex then .error Exn.FuelExhausted else .ok highest
  | fuel + 1, index, highest =>
    if index < rightSliceIndex then do
      let s ← getItem l index
      highestLoop l rightSliceIndex fuel (index + 1) (if s.Y > highest then s.Y else highest)
    else .ok highest

/-- Lines 120-130 of `tryFindBestPlacement`: advance `rightSliceIndex` until the slice it
names starts after `rightRectangleEnd`; the index `Count` stands for the right border. -/
def advanceRight (l : List Point) (PackingAreaWidth rightRectangleEnd : Int) :
    Nat → Int → Except Exn Int
  | 0, rightSliceIndex =>
    if rightSliceIndex ≤ Count l then .error Exn.FuelExhausted else .ok rightSliceIndex
  | fuel + 1, rightSliceIndex =>
    if rightSliceIndex ≤ Count l then do
      let rightSliceStart ←
        if rightSliceIndex = Count l then pure PackingAreaWidth
        else (do let s ← getItem l rightSliceIndex; pure s.X)
      if rightSliceStart > rightRectangleEnd then pure rightSliceIndex
      else advanceRight l PackingAreaWidth rightRectangleEnd fuel (rightSliceIndex + 1)
    else .ok rightSliceIndex

/-- The local variables of `tryFindBestPlacement` that live across iterations. -/
structure SearchState where
  bestSliceIndex : Int
  bestSliceY : Int
  bestScore : Int
  leftSliceIndex : Int
  rightSliceIndex : Int
deriving DecidableEq, Repr

/-- The `while(rightSliceIndex <= Count)` loop of `tryFindBestPlacement` (lines 91-137). -/
def searchLoop (p : CygonRectanglePacker) (rectangleWidth rectangleHeight : Int) :
    Nat → SearchState → Except Exn SearchState
  | 0, s =>
    if s.rightSliceIndex ≤ Count p.heightSlices then .error Exn.FuelExhausted else .ok s
  | fuel + 1, s =>
    if s.rightSliceIndex ≤ Count p.heightSlices then do
      let first ← getItem p.heightSlices s.leftSliceIndex
      let highest ← highestLoop p.heightSlices s.rightSliceIndex
        (s.rightSliceIndex - (s.leftSliceIndex + 1)).toNat (s.leftSliceIndex + 1) first.Y
      let best : Int × Int × Int :=
        if wrap (highest + rectangleHeight) < p.PackingAreaHeight then
          if highest < s.bestScore then (s.leftSliceIndex, highest, highest)
          else (s.bestSliceIndex, s.bestSliceY, s.bestScore)
        else (s.bestSliceIndex, s.bestSliceY, s.bestScore)
      let leftSliceIndex := s.leftSliceIndex + 1
      if leftSliceIndex ≥ Count p.heightSlices then
        pure ⟨best.1, best.2.1, best.2.2, leftSliceIndex, s.rightSliceIndex⟩
      else do
        let left ← getItem p.heightSlices leftSliceIndex
        let rightRectangleEnd := wrap (left.X + rectangleWidth)
        let rightSliceIndex ← advanceRight p.heightSlices p.PackingAreaWidth rightRectangleEnd
          (Count p.heightSlices + 1 - s.rightSliceIndex).toNat s.rightSliceIndex
        if rightSliceIndex > Count p.heightSlices then
          pure ⟨best.1, best.2.1, best.2.2, leftSliceIndex, rightSliceIndex⟩
        else
          searchLoop p rectangleWidth rectangleHeight fuel
            ⟨best.1, best.2.1, best.2.2, leftSliceIndex, rightSliceIndex⟩
    else .ok s

/-- Method `CygonRectanglePacker::tryFindBestPlacement`: the result and the `placement` out
parameter. The `while` loop raises `leftSliceIndex` by one per iteration and goes on only
while it is below `Count`, hence the fuel `Count + 1`. -/
def tryFindBestPlacement (p : CygonRectanglePacker) (rectangleWidth rectangleHeight : Int) :
    Except Exn (Bool × Point) := do
  let found ← BinarySearch p.heightSlices ⟨rectangleWidth, 0⟩
  let rightSliceIndex := if found < 0 then bnot found else found
  let s ← searchLoop p rectangleWidth rectangleHeight (p.heightSlices.length + 1)
    ⟨-1, 0, wrap (p.PackingAreaWidth * p.PackingAreaHeight), 0, rightSliceIndex⟩
  if s.bestSliceIndex = -1 then pure (false, Point.Zero)
  else do
    let slice ← getItem p.heightSlices s.bestSliceIndex
    pure (true, ⟨slice.X, s.bestSliceY⟩)

/-- Lines 156-176 of `integrateRectangle`: find or create the slice that starts at `left`;
the results are `startSlice`, `firstSliceOriginalHeight` and the updated list. -/
def integrateStart (slices : List Point) (left bottom : Int) :
    Except Exn (Int × Int × List Point) := do
  let startSlice ← BinarySearch slices ⟨left, 0⟩
  if startSlice ≥ 0 then do
    let old ← getItem slices startSlice
    let slices ← setItem slices startSlice ⟨left, bottom⟩
    pure (startSlice, old.Y, slices)
  else do
    let startSlice := bnot startSlice
    let before ← getItem slices (startSlice - 1)
    let slices ← Insert slices startSlice ⟨left, bottom⟩
    pure (startSlice, before.Y, slices)

/-- Lines 185-226 of `integrateRectangle`: drop the slices the rectangle covers and return to
the old height at its right end. -/
def integrateEnd (PackingAreaWidth : Int) (slices : List Point)
    (startSlice firstSliceOriginalHeight right : Int) : Except Exn (List Point) :=
  if startSlice ≥ Count slices then
    if right < PackingAreaWidth then pure (Add slices ⟨right, firstSliceOriginalHeight⟩)
    else pure slices
  else do
    let endSlice ← BinarySearchRange slices startSlice (Count slices - startSlice) ⟨right, 0⟩
    if endSlice > 0 then
      RemoveRange slices startSlice (endSlice - startSlice)
    else do
      let endSlice := bnot endSlice
      let returnHeight ←
        if endSlice = startSlice then pure firstSliceOriginalHeight
        else (do let s ← getItem slices (endSlice - 1); pure s.Y)
      let slices ← RemoveRange slices startSlice (endSlice - startSlice)
      if right < PackingAreaWidth then Insert slices startSlice ⟨right, returnHeight⟩
      else pure slices

/-- Method `CygonRectanglePacker::integrateRectangle(left, width, bottom)`, returning the new
`heightSlices`. -/
def integrateRectangle (p : CygonRectanglePacker) (left width bottom : Int) :
    Except Exn (List Point) := do
  let (startSlice, firstSliceOriginalHeight, slices) ← integrateStart p.heightSlices left bottom
  let right := wrap (left + width)
  let startSlice := startSlice + 1
  integrateEnd p.PackingAreaWidth slices startSlice firstSliceOriginalHeight right

/-- Method `CygonRectanglePacker::TryPack`: the result, the `placement` out parameter and the
packer after the call. -/
def TryPack (p : CygonRectanglePacker) (rectangleWidth rectangleHeight : Int) :
    Except Exn (Bool × Point × CygonRectanglePacker) :=
  if rectangleWidth > p.PackingAreaWidth ∨ rectangleHeight > p.PackingAreaHeight then
    pure (false, Point.Zero, p)
  else do
    let (fits, placement) ← tryFindBestPlacement p rectangleWidth rectangleHeight
    if fits then do
      let slices ← integrateRectangle p placement.X rectangleWidth
        (wrap (placement.Y + rectangleHeight))
      pure (true, placement, ⟨p.PackingAreaWidth, p.PackingAreaHeight, slices⟩)
    else pure (false, placement, p)

/-- Method `RectanglePacker::Pack`: the placement and the packer after the call, or the
out-of-space exception when `TryPack` returns false. -/
def Pack (p : CygonRectanglePacker) (rectangleWidth rectangleHeight : Int) :
    Except Exn (Point × CygonRectanglePacker) := do
  let (ok, point, p') ← TryPack p rectangleWidth rectangleHeight
  if !ok then throw Exn.OutOfSpace
  pure (point, p')

/-! ### Vocabulary of the statements -/

/-- The slice at index `i`, for statements about indices that are in range. -/
def nth (l : List Point) (i : Int) : Point := l.getD i.toNat Point.Zero

/-- Slice starts are strictly increasing along the list. -/
def SortedX (l : List Point) : Prop := l.Pairwise (fun a b => a.X < b.X)

/-- Silhouette height at column `c`, as the data model reads the silhouette: the height of
the last breakpoint whose `X` is at most `c` (0 when there is none). -/
def heightAt (l : List Point) (c : Int) : Int :=
  l.foldl (fun acc s => if s.X ≤ c then s.Y else acc) 0

/-- What `BinarySearch` over the index range `[lo, hi]` returns on a sorted list: the index of
the slice starting at `x`, or the complement of the index of the first slice starting after
`x` (`hi + 1` when there is none). -/
def BSResult (l : List Point) (x lo hi r : Int) : Prop :=
  (lo ≤ r ∧ r ≤ hi ∧ (nth l r).X = x) ∨
  (∃ k, r = bnot k ∧ lo ≤ k ∧ k ≤ hi + 1 ∧
    (∀ j, lo ≤ j → j < k → (nth l j).X < x) ∧ (∀ j, k ≤ j → j ≤ hi → x < (nth l j).X))

/-- Well-formed packer state: the silhouette is strictly increasing in `X`, is not empty and
starts at column 0, no slice starts at or beyond the right border, no height is negative. -/
structure WellFormed (p : CygonRectanglePacker) : Prop where
  sorted : SortedX p.heightSlices
  nonempty : 0 < Count p.heightSlices
  first : (nth p.heightSlices 0).X = 0
  xlt : 0 < p.PackingAreaWidth → ∀ s ∈ p.heightSlices, s.X < p.PackingAreaWidth
  ynn : ∀ s ∈ p.heightSlices, 0 ≤ s.Y

/-- The candidate at slice index `b` with top edge `y` is sound for a `w` by `h` rectangle: it
stays inside the packing area and `y` is at or above the silhouette over its columns. -/
def GoodCandidate (p : CygonRectanglePacker) (w h b y : Int) : Prop :=
  0 ≤ b ∧ b < Count p.heightSlices ∧
  (nth p.heightSlices b).X + w ≤ p.PackingAreaWidth ∧
  y + h < p.PackingAreaHeight ∧ 0 ≤ y ∧
  ∀ c, (nth p.heightSlices b).X ≤ c → c < (nth p.heightSlices b).X + w →
    heightAt p.heightSlices c ≤ y

/-- A placed rectangle `[X, X + Width) x [Y, Y + Height)` (the XNA `Rectangle`). -/
structure Rectangle where
  X : Int
  Y : Int
  Width : Int
  Height : Int
deriving DecidableEq, Repr

/-- Two rectangles overlap when some cell `(cx, cy)` lies in both. -/
def Rectangle.Overlaps (a b : Rectangle) : Prop :=
  ∃ cx cy : Int,
    (a.X ≤ cx ∧ cx < a.X + a.Width ∧ a.Y ≤ cy ∧ cy < a.Y + a.Height) ∧
    (b.X ≤ cx ∧ cx < b.X + b.Width ∧ b.Y ≤ cy ∧ cy < b.Y + b.Height)

/-- The rectangle lies inside the `W` by `H` surface. -/
def Rectangle.InBounds (W H : Int) (r : Rectangle) : Prop :=
  0 ≤ r.X ∧ 0 ≤ r.Y ∧ r.X + r.Width ≤ W ∧ r.Y + r.Height ≤ H

/-- A sequence of `TryPack` calls on one packer, one per requested `(width, height)`: the
result of each call with the rectangle it names, and the packer after the last call. -/
def packSequence (p : CygonRectanglePacker) :
    List (Int × Int) → Except Exn (List (Bool × Rectangle) × CygonRectanglePacker)
  | [] => pure ([], p)
  | (w, h) :: rest => do
    let (fits, placement, p1) ← TryPack p w h
    let (results, p2) ← packSequence p1 rest
    pure ((fits, ⟨placement.X, placement.Y, w, h⟩) :: results, p2)

/-- The rectangles of the calls that returned true. -/
def accepted (results : List (Bool × Rectangle)) : List Rectangle :=
  (results.filter (fun r => r.1)).map (fun r => r.2)

/-- Packer states that arise from a fresh packer by `TryPack` calls with positive width and
height (the contract of `TryPack`). -/
inductive Reachable : CygonRectanglePacker → Prop
  | fresh (W H : Int) : Reachable (CygonRectanglePacker.create W H)
  | step {p p1 : CygonRectanglePacker} {w h : Int} {fits : Bool} {placement : Point} :
      Reachable p → 0 < w → 0 < h → TryPack p w h = .ok (fits, placement, p1) → Reachable p1

/-- Every placed rectangle has positive sides, lies inside the packing area and is at or
below the silhouette over its columns. -/
def Covered (p : CygonRectanglePacker) (placed : List Rectangle) : Prop :=
  ∀ r ∈ placed, 0 < r.Width ∧ 0 < r.Height ∧
    r.InBounds p.PackingAreaWidth p.PackingAreaHeight ∧
    ∀ c, r.X ≤ c → c < r.X + r.Width → r.Y + r.Height ≤ heightAt p.heightSlices c

/-- Lines 156-167 of `determineOptimalTextureSize`: `TryPack` every character rectangle,
one unit wider and higher, and stop at the first that does not fit; the result is `failed`. -/
def tryPackAll (packer : CygonRectanglePacker) : List Rectangle → Except Exn Bool
  | [] => pure false
  | characterRectangle :: rest => do
    let (result, _, packer1) ←
      TryPack packer (characterRectangle.Width + 1) (characterRectangle.Height + 1)
    if !result then pure true
    else tryPackAll packer1 rest

/-- Lines 146-180 of `determineOptimalTextureSize`: the loop over the remaining values of
`power`, `textureSize = 1 << power`, and the exception after the last one. -/
def sizeLoop (characterRectangles : List Rectangle) : List Nat → Except Exn Int
  | [] => throw Exn.OutOfSpace
  | power :: rest => do
    let textureSize : Int := 2 ^ power
    let packer := CygonRectanglePacker.create textureSize textureSize
    let failed ← tryPackAll packer characterRectangles
    if !failed then pure textureSize
    else sizeLoop characterRectangles rest

/-- Method `NuclexSpriteFontDescriptionProcessor::determineOptimalTextureSize`, on the
bounding boxes that `MeasureCharacter` gives for the characters of the font description, in
order: the boxes with positive width and height are kept and `power` runs from 6 to 11. -/
def determineOptimalTextureSize (measured : List Rectangle) : Except Exn Int :=
  let characterRectangles := measured.filter (fun b => b.Width > 0 ∧ b.Height > 0)
  sizeLoop characterRectangles [6, 7, 8, 9, 10, 11]

/-- The `TryPack` requests of the size search: the kept boxes, one unit wider and higher. -/
def paddedRequests (measured : List Rectangle) : List (Int × Int) :=
  (measured.filter (fun b => b.Width > 0 ∧ b.Height > 0)).map
    (fun b => (b.Width + 1, b.Height + 1))

/-- The candidate texture sizes, in the order the search tries them. -/
def candidateSizes : List Int := [64, 128, 256, 512, 1024, 2048]

/-- Every request of the sequence is accepted on a fresh `size` by `size` packer. -/
def AllFit (size : Int) (reqs : List (Int × Int)) : Prop :=
  ∃ results p', packSequence (CygonRectanglePacker.create size size) reqs = .ok (results, p') ∧
    ∀ r ∈ results, r.1 = true

/-- Some request of the sequence is refused on a fresh `size` by `size` packer. -/
def SomeFails (size : Int) (reqs : List (Int × Int)) : Prop :=
  ∃ results p', packSequence (CygonRectanglePacker.create size size) reqs = .ok (results, p') ∧
    ∃ r ∈ results, r.1 = false

/-- The brute-force notion of packability: some arrangement of rectangles of the requested
sizes lies inside the `size` by `size` square without overlap. -/
def Packable (size : Int) (reqs : List (Int × Int)) : Prop :=
  ∃ arrangement : List Rectangle,
    arrangement.map (fun r => (r.Width, r.Height)) = reqs ∧
    (∀ r ∈ arrangement, r.InBounds size size) ∧
    arrangement.Pairwise (fun a b => ¬ a.Overlaps b)

/-- Maximum silhouette height over the columns `[x, x + w)`, for `w > 0`. -/
def spanHeight (l : List Point) (x w : Int) : Int :=
  ((List.range w.toNat).map (fun i => heightAt l (x + (i : Int)))).foldl max (heightAt l x)

/-- The `Pack` calls of `Process` (line 98) on one packer, one per requested
`(width, height)` and in order: the placements and the packer after the last call. A `Pack`
that raises ends the loop with its exception. -/
def packAll (packer : CygonRectanglePacker) :
    List (Int × Int) → Except Exn (List Point × CygonRectanglePacker)
  | [] => pure ([], packer)
  | (w, h) :: rest => do
    let (placement, packer1) ← Pack packer w h
    let (placements, packer2) ← packAll packer1 rest
    pure (placement :: placements, packer2)

/-- The results the claim on stacking gives for full-width requests of heights `hs` on a
surface of width `W` whose only slice has height `S`: each is accepted at `(0, S)` with `S`
the sum of the heights before it. -/
def stackedResults (W S : Int) : List Int → List (Bool × Rectangle)
  | [] => []
  | h :: hs => (true, ⟨0, S, W, h⟩) :: stackedResults W (S + h) hs

/-- The results the claim on a single column gives for requests of width `w` and heights
`hs` on a surface of height `H`, with `S` the sum of the heights accepted so far: a request
is accepted at `(0, S)` when `S + h < H` and refused otherwise. -/
def columnResults (H w S : Int) : List Int → List (Bool × Rectangle)
  | [] => []
  | h :: hs =>
    if S + h < H then (true, ⟨0, S, w, h⟩) :: columnResults H w (S + h) hs
    else (false, ⟨0, 0, w, h⟩) :: columnResults H w S hs

/-- The `while` loop of `tryFindBestPlacement` once more, with a record of what it
evaluates: the state is the one of `searchLoop`, and each iteration appends its candidate
`(leftSliceIndex, highest)` to the record. -/
def searchLoopTrace (p : CygonRectanglePacker) (rectangleWidth rectangleHeight : Int) :
    Nat → SearchState → List (Int × Int) → Except Exn (SearchState × List (Int × Int))
  | 0, s, record =>
    if s.rightSliceIndex ≤ Count p.heightSlices then .error Exn.FuelExhausted
    else .ok (s, record)
  | fuel + 1, s, record =>
    if s.rightSliceIndex ≤ Count p.heightSlices then do
      let first ← getItem p.heightSlices s.leftSliceIndex
      let highest ← highestLoop p.heightSlices s.rightSliceIndex
        (s.rightSliceIndex - (s.leftSliceIndex + 1)).toNat (s.leftSliceIndex + 1) first.Y
      let record := record ++ [(s.leftSliceIndex, highest)]
      let best : Int × Int × Int :=
        if wrap (highest + rectangleHeight) < p.PackingAreaHeight then
          if highest < s.bestScore then (s.leftSliceIndex, highest, highest)
          else (s.bestSliceIndex, s.bestSliceY, s.bestScore)
        else (s.bestSliceIndex, s.bestSliceY, s.bestScore)
      let leftSliceIndex := s.leftSliceIndex + 1
      if leftSliceIndex ≥ Count p.heightSlices then
        pure (⟨best.1, best.2.1, best.2.2, leftSliceIndex, s.rightSliceIndex⟩, record)
      else do
        let left ← getItem p.heightSlices leftSliceIndex
        let rightRectangleEnd := wrap (left.X + rectangleWidth)
        let rightSliceIndex ← advanceRight p.heightSlices p.PackingAreaWidth rightRectangleEnd
          (Count p.heightSlices + 1 - s.rightSliceIndex).toNat s.rightSliceIndex
        if rightSliceIndex > Count p.heightSlices then
          pure (⟨best.1, best.2.1, best.2.2, leftSliceIndex, rightSliceIndex⟩, record)
        else
          searchLoopTrace p rectangleWidth rectangleHeight fuel
            ⟨best.1, best.2.1, best.2.2, leftSliceIndex, rightSliceIndex⟩ record
    else .ok (s, record)

/-- The candidates `(slice index, highest)` that `tryFindBestPlacement` evaluates for a
rectangle of the given size, in the order of evaluation. -/
def searchTrace (p : CygonRectanglePacker) (rectangleWidth rectangleHeight : Int) :
    Except Exn (List (Int × Int)) := do
  let found ← BinarySearch p.heightSlices ⟨rectangleWidth, 0⟩
  let rightSliceIndex := if found < 0 then bnot found else found
  let (_, record) ← searchLoopTrace p rectangleWidth rectangleHeight
    (p.heightSlices.length + 1)
    ⟨-1, 0, wrap (p.PackingAreaWidth * p.PackingAreaHeight), 0, rightSliceIndex⟩ []
  pure record

/-- What the search state knows about the candidates evaluated so far: every recorded
candidate is a slice index below `leftSliceIndex`; the best candidate, when there is one,
is recorded with its score; no recorded candidate that fits the height has a score below
the best score, and none left of the best candidate has a score equal to it. -/
def TraceInv (p : CygonRectanglePacker) (rectangleHeight : Int) (s : SearchState)
    (record : List (Int × Int)) : Prop :=
  0 ≤ s.leftSliceIndex ∧
  (∀ c ∈ record, 0 ≤ c.1 ∧ c.1 < s.leftSliceIndex ∧ c.1 < Count p.heightSlices) ∧
  (s.bestSliceIndex ≠ -1 → s.bestSliceY = s.bestScore ∧
    s.bestSliceY + rectangleHeight < p.PackingAreaHeight ∧
    (s.bestSliceIndex, s.bestSliceY) ∈ record) ∧
  (∀ c ∈ record, c.2 + rectangleHeight < p.PackingAreaHeight →
    s.bestScore ≤ c.2 ∧ (s.bestSliceIndex ≠ -1 → c.1 < s.bestSliceIndex → s.bestScore < c.2))

/-- Lines 83-119 of `Process`, the part that fills the texture: a character has a bitmap
when its bounding box has positive width and height (`Rasterize`, line 56, tests the same
`bitmap.width` and `bitmap.rows` that `MeasureCharacter` returns), the bitmap has the size of
the bounding box, the box is packed one unit wider and higher, the placement is moved by
`(1, 1)` and `copyCharacterBitmap` copies the bitmap to the region that starts there. The
result lists the destination regions of the copies, in order. -/
def processCharacters (packer : CygonRectanglePacker) :
    List Rectangle → Except Exn (List Rectangle)
  | [] => pure []
  | characterBoundingBox :: rest =>
    if characterBoundingBox.Width > 0 ∧ characterBoundingBox.Height > 0 then do
      let (placement, packer1) ←
        Pack packer (characterBoundingBox.Width + 1) (characterBoundingBox.Height + 1)
      let placement : Point := ⟨placement.X + 1, placement.Y + 1⟩
      let destinationRegion : Rectangle :=
        ⟨placement.X, placement.Y, characterBoundingBox.Width, characterBoundingBox.Height⟩
      let regions ← processCharacters packer1 rest
      pure (destinationRegion :: regions)
    else processCharacters packer rest

/-- Method `NuclexSpriteFontDescriptionProcessor::Process`, as far as the texture goes, on
the bounding boxes of the characters of the font description: the side of the square
texture it allocates, `textureSize - 1`, and the destination regions of the bitmaps it
copies onto it. -/
def Process (measured : List Rectangle) : Except Exn (Int × List Rectangle) := do
  let textureSize ← determineOptimalTextureSize measured
  let packer := CygonRectanglePacker.create textureSize textureSize
  let regions ← processCharacters packer measured
  pure (textureSize - 1, regions)

/-- The `while` loop of `tryFindBestPlacement` with a record of its indices: every
iteration puts the `(leftSliceIndex, rightSliceIndex)` it starts with in front of the record
of the iterations after it. -/
def searchLoopIndices (p : CygonRectanglePacker) (rectangleWidth rectangleHeight : Int) :
    Nat → SearchState → Except Exn (SearchState × List (Int × Int))
  | 0, s =>
    if s.rightSliceIndex ≤ Count p.heightSlices then .error Exn.FuelExhausted
    else .ok (s, [])
  | fuel + 1, s =>
    if s.rightSliceIndex ≤ Count p.heightSlices then do
      let first ← getItem p.heightSlices s.leftSliceIndex
      let highest ← highestLoop p.heightSlices s.rightSliceIndex
        (s.rightSliceIndex - (s.leftSliceIndex + 1)).toNat (s.leftSliceIndex + 1) first.Y
      let best : Int × Int × Int :=
        if wrap (highest + rectangleHeight) < p.PackingAreaHeight then
          if highest < s.bestScore then (s.leftSliceIndex, highest, highest)
          else (s.bestSliceIndex, s.bestSliceY, s.bestScore)
        else (s.bestSliceIndex, s.bestSliceY, s.bestScore)
      let leftSliceIndex := s.leftSliceIndex + 1
      if leftSliceIndex ≥ Count p.heightSlices then
        pure (⟨best.1, best.2.1, best.2.2, leftSliceIndex, s.rightSliceIndex⟩,
          [(s.leftSliceIndex, s.rightSliceIndex)])
      else do
        let left ← getItem p.heightSlices leftSliceIndex
        let rightRectangleEnd := wrap (left.X + rectangleWidth)
        let rightSliceIndex ← advanceRight p.heightSlices p.PackingAreaWidth rightRectangleEnd
          (Count p.heightSlices + 1 - s.rightSliceIndex).toNat s.rightSliceIndex
        if rightSliceIndex > Count p.heightSlices then
          pure (⟨best.1, best.2.1, best.2.2, leftSliceIndex, rightSliceIndex⟩,
            [(s.leftSliceIndex, s.rightSliceIndex)])
        else do
          let (s1, record) ← searchLoopIndices p rectangleWidth rectangleHeight fuel
            ⟨best.1, best.2.1, best.2.2, leftSliceIndex, rightSliceIndex⟩
          pure (s1, (s.leftSliceIndex, s.rightSliceIndex) :: record)
    else .ok (s, [])

/-- The `(leftSliceIndex, rightSliceIndex)` pairs of the iterations that
`tryFindBestPlacement` runs for a rectangle of the given size, in order. -/
def searchIndices (p : CygonRectanglePacker) (rectangleWidth rectangleHeight : Int) :
    Except Exn (List (Int × Int)) := do
  let found ← BinarySearch p.heightSlices ⟨rectangleWidth, 0⟩
  let rightSliceIndex := if found < 0 then bnot found else found
  let (_, record) ← searchLoopIndices p rectangleWidth rectangleHeight
    (p.heightSlices.length + 1)
    ⟨-1, 0, wrap (p.PackingAreaWidth * p.PackingAreaHeight), 0, rightSliceIndex⟩
  pure record

/-- A surface on which no 32-bit operation of the packer overflows, whatever positive
rectangles are requested: no side is above `2^30` and the area is below `2^31`. -/
def SmallSurface (W H : Int) : Prop :=
  W ≤ 1073741824 ∧ H ≤ 1073741824 ∧ (0 < W → 0 < H → W * H < 2147483648)

/-- Every slice is lower than the packing area is high (on a packing area of positive
height). -/
def BelowTop (p : CygonRectanglePacker) : Prop :=
  0 < p.PackingAreaHeight → ∀ s ∈ p.heightSlices, s.Y < p.PackingAreaHeight

namespace Exact

/-- Exact-arithmetic counterpart of `Nuclex.SliceStartComparer.Compare`. -/
def SliceStartComparer.Compare (left right : Point) : Int := left.X - right.X

/-- Exact-arithmetic counterpart of `Nuclex.BinarySearchLoop`. -/
def BinarySearchLoop (l : List Point) (value : Point) : Nat → Int → Int → Except Exn Int
  | 0, lo, hi => if lo ≤ hi then .error Exn.FuelExhausted else .ok (bnot lo)
  | fuel + 1, lo, hi =>
    if lo ≤ hi then do
      let i := lo + (hi - lo) / 2
      let a ← getItem l i
      let order := SliceStartComparer.Compare a value
      if order = 0 then pure i
      else if order < 0 then BinarySearchLoop l value fuel (i + 1) hi
      else BinarySearchLoop l value fuel lo (i - 1)
    else .ok (bnot lo)

/-- Exact-arithmetic counterpart of `Nuclex.BinarySearchRange`. -/
def BinarySearchRange (l : List Point) (index count : Int) (item : Point) : Except Exn Int :=
  if index < 0 ∨ count < 0 ∨ Count l - index < count then .error Exn.ArgumentOutOfRange
  else BinarySearchLoop l item count.toNat index (index + count - 1)

/-- Exact-arithmetic counterpart of `Nuclex.BinarySearch`. -/
def BinarySearch (l : List Point) (item : Point) : Except Exn Int :=
  BinarySearchRange l 0 (Count l) item

/-- Exact-arithmetic counterpart of `Nuclex.searchLoop`. -/
def searchLoop (p : CygonRectanglePacker) (rectangleWidth rectangleHeight : Int) :
    Nat → SearchState → Except Exn SearchState
  | 0, s =>
    if s.rightSliceIndex ≤ Count p.heightSlices then .error Exn.FuelExhausted else .ok s
  | fuel + 1, s =>
    if s.rightSliceIndex ≤ Count p.heightSlices then do
      let first ← getItem p.heightSlices s.leftSliceIndex
      let highest ← highestLoop p.heightSlices s.rightSliceIndex
        (s.rightSliceIndex - (s.leftSliceIndex + 1)).toNat (s.leftSliceIndex + 1) first.Y
      let best : Int × Int × Int :=
        if highest + rectangleHeight < p.PackingAreaHeight then
          if highest < s.bestScore then (s.leftSliceIndex, highest, highest)
          else (s.bestSliceIndex, s.bestSliceY, s.bestScore)
        else (s.bestSliceIndex, s.bestSliceY, s.bestScore)
      let leftSliceIndex := s.leftSliceIndex + 1
      if leftSliceIndex ≥ Count p.heightSlices then
        pure ⟨best.1, best.2.1, best.2.2, leftSliceIndex, s.rightSliceIndex⟩
      else do
        let left ← getItem p.heightSlices leftSliceIndex
        let rightRectangleEnd := left.X + rectangleWidth
        let rightSliceIndex ← advanceRight p.heightSlices p.PackingAreaWidth rightRectangleEnd
          (Count p.heightSlices + 1 - s.rightSliceIndex).toNat s.rightSliceIndex
        if rightSliceIndex > Count p.heightSlices then
          pure ⟨best.1, best.2.1, best.2.2, leftSliceIndex, rightSliceIndex⟩
        else
          searchLoop p rectangleWidth rectangleHeight fuel
            ⟨best.1, best.2.1, best.2.2, leftSliceIndex, rightSliceIndex⟩
    else .ok s

/-- Exact-arithmetic counterpart of `Nuclex.tryFindBestPlacement`. -/
def tryFindBestPlacement (p : CygonRectanglePacker) (rectangleWidth rectangleHeight : Int) :
    Except Exn (Bool × Point) := do
  let found ← BinarySearch p.heightSlices ⟨rectangleWidth, 0⟩
  let rightSliceIndex := if found < 0 then bnot found else found
  let s ← searchLoop p rectangleWidth rectangleHeight (p.heightSlices.length + 1)
    ⟨-1, 0, p.PackingAreaWidth * p.PackingAreaHeight, 0, rightSliceIndex⟩
  if s.bestSliceIndex = -1 then pure (false, Point.Zero)
  else do
    let slice ← getItem p.heightSlices s.bestSliceIndex
    pure (true, ⟨slice.X, s.bestSliceY⟩)

/-- Exact-arithmetic counterpart of `Nuclex.integrateStart`. -/
def integrateStart (slices : List Point) (left bottom : Int) :
    Except Exn (Int × Int × List Point) := do
  let startSlice ← BinarySearch slices ⟨left, 0⟩
  if startSlice ≥ 0 then do
    let old ← getItem slices startSlice
    let slices ← setItem slices startSlice ⟨left, bottom⟩
    pure (startSlice, old.Y, slices)
  else do
    let startSlice := bnot startSlice
    let before ← getItem slices (startSlice - 1)
    let slices ← Insert slices startSlice ⟨left, bottom⟩
    pure (startSlice, before.Y, slices)

/-- Exact-arithmetic counterpart of `Nuclex.integrateEnd`. -/
def integrateEnd (PackingAreaWidth : Int) (slices : List Point)
    (startSlice firstSliceOriginalHeight right : Int) : Except Exn (List Point) :=
  if startSlice ≥ Count slices then
    if right < PackingAreaWidth then pure (Add slices ⟨right, firstSliceOriginalHeight⟩)
    else pure slices
  else do
    let endSlice ← BinarySearchRange slices startSlice (Count slices - startSlice) ⟨right, 0⟩
    if endSlice > 0 then
      RemoveRange slices startSlice (endSlice - startSlice)
    else do
      let endSlice := bnot endSlice
      let returnHeight ←
        if endSlice = startSlice then pure firstSliceOriginalHeight
        else (do let s ← getItem slices (endSlice - 1); pure s.Y)
      let slices ← RemoveRange slices startSlice (endSlice - startSlice)
      if right < PackingAreaWidth then Insert slices startSlice ⟨right, returnHeight⟩
      else pure slices

/-- Exact-arithmetic counterpart of `Nuclex.integrateRectangle`. -/
def integrateRectangle (p : CygonRectanglePacker) (left width bottom : Int) :
    Except Exn (List Point) := do
  let (startSlice, firstSliceOriginalHeight, slices) ← integrateStart p.heightSlices left bottom
  let right := left + width
  let startSlice := startSlice + 1
  integrateEnd p.PackingAreaWidth slices startSlice firstSliceOriginalHeight right

/-- Exact-arithmetic counterpart of `Nuclex.TryPack`. -/
def TryPack (p : CygonRectanglePacker) (rectangleWidth rectangleHeight : Int) :
    Except Exn (Bool × Point × CygonRectanglePacker) :=
  if rectangleWidth > p.PackingAreaWidth ∨ rectangleHeight > p.PackingAreaHeight then
    pure (false, Point.Zero, p)
  else do
    let (fits, placement) ← tryFindBestPlacement p rectangleWidth rectangleHeight
    if fits then do
      let slices ← integrateRectangle p placement.X rectangleWidth (placement.Y + rectangleHeight)
      pure (true, placement, ⟨p.PackingAreaWidth, p.PackingAreaHeight, slices⟩)
    else pure (false, placement, p)

/-- Exact-arithmetic counterpart of `Nuclex.Pack`. -/
def Pack (p : CygonRectanglePacker) (rectangleWidth rectangleHeight : Int) :
    Except Exn (Point × CygonRectanglePacker) := do
  let (ok, point, p') ← TryPack p rectangleWidth rectangleHeight
  if !ok then throw Exn.OutOfSpace
  pure (point, p')

/-- Exact-arithmetic counterpart of `Nuclex.packSequence`. -/
def packSequence (p : CygonRectanglePacker) :
    List (Int × Int) → Except Exn (List (Bool × Rectangle) × CygonRectanglePacker)
  | [] => pure ([], p)
  | (w, h) :: rest => do
    let (fits, placement, p1) ← TryPack p w h
    let (results, p2) ← packSequence p1 rest
    pure ((fits, ⟨placement.X, placement.Y, w, h⟩) :: results, p2)

/-- Exact-arithmetic counterpart of `Nuclex.Reachable`. -/
inductive Reachable : CygonRectanglePacker → Prop
  | fresh (W H : Int) : Reachable (CygonRectanglePacker.create W H)
  | step {p p1 : CygonRectanglePacker} {w h : Int} {fits : Bool} {placement : Point} :
      Reachable p → 0 < w → 0 < h → TryPack p w h = .ok (fits, placement, p1) → Reachable p1

/-- Exact-arithmetic counterpart of `Nuclex.tryPackAll`. -/
def tryPackAll (packer : CygonRectanglePacker) : List Rectangle → Except Exn Bool
  | [] => pure false
  | characterRectangle :: rest => do
    let (result, _, packer1) ←
      TryPack packer (characterRectangle.Width + 1) (characterRectangle.Height + 1)
    if !result then pure true
    else tryPackAll packer1 rest

/-- Exact-arithmetic counterpart of `Nuclex.sizeLoop`. -/
def sizeLoop (characterRectangles : List Rectangle) : List Nat → Except Exn Int
  | [] => throw Exn.OutOfSpace
  | power :: rest => do
    let textureSize : Int := 2 ^ power
    let packer := CygonRectanglePacker.create textureSize textureSize
    let failed ← tryPackAll packer characterRectangles
    if !failed then pure textureSize
    else sizeLoop characterRectangles rest

/-- Exact-arithmetic counterpart of `Nuclex.determineOptimalTextureSize`. -/
def determineOptimalTextureSize (measured : List Rectangle) : Except Exn Int :=
  let characterRectangles := measured.filter (fun b => b.Width > 0 ∧ b.Height > 0)
  sizeLoop characterRectangles [6, 7, 8, 9, 10, 11]

/-- Exact-arithmetic counterpart of `Nuclex.AllFit`. -/
def AllFit (size : Int) (reqs : List (Int × Int)) : Prop :=
  ∃ results p', packSequence (CygonRectanglePacker.create size size) reqs = .ok (results, p') ∧
    ∀ r ∈ results, r.1 = true

/-- Exact-arithmetic counterpart of `Nuclex.SomeFails`. -/
def SomeFails (size : Int) (reqs : List (Int × Int)) : Prop :=
  ∃ results p', packSequence (CygonRectanglePacker.create size size) reqs = .ok (results, p') ∧
    ∃ r ∈ results, r.1 = false

/-- Exact-arithmetic counterpart of `Nuclex.packAll`. -/
def packAll (packer : CygonRectanglePacker) :
    List (Int × Int) → Except Exn (List Point × CygonRectanglePacker)
  | [] => pure ([], packer)
  | (w, h) :: rest => do
    let (placement, packer1) ← Pack packer w h
    let (placements, packer2) ← packAll packer1 rest
    pure (placement :: placements, packer2)

/-- Exact-arithmetic counterpart of `Nuclex.searchLoopTrace`. -/
def searchLoopTrace (p : CygonRectanglePacker) (rectangleWidth rectangleHeight : Int) :
    Nat → SearchState → List (Int × Int) → Except Exn (SearchState × List (Int × Int))
  | 0, s, record =>
    if s.rightSliceIndex ≤ Count p.heightSlices then .error Exn.FuelExhausted
    else .ok (s, record)
  | fuel + 1, s, record =>
    if s.rightSliceIndex ≤ Count p.heightSlices then do
      let first ← getItem p.heightSlices s.leftSliceIndex
      let highest ← highestLoop p.heightSlices s.rightSliceIndex
        (s.rightSliceIndex - (s.leftSliceIndex + 1)).toNat (s.leftSliceIndex + 1) first.Y
      let record := record ++ [(s.leftSliceIndex, highest)]
      let best : Int × Int × Int :=
        if highest + rectangleHeight < p.PackingAreaHeight then
          if highest < s.bestScore then (s.leftSliceIndex, highest, highest)
          else (s.bestSliceIndex, s.bestSliceY, s.bestScore)
        else (s.bestSliceIndex, s.bestSliceY, s.bestScore)
      let leftSliceIndex := s.leftSliceIndex + 1
      if leftSliceIndex ≥ Count p.heightSlices then
        pure (⟨best.1, best.2.1, best.2.2, leftSliceIndex, s.rightSliceIndex⟩, record)
      else do
        let left ← getItem p.heightSlices leftSliceIndex
        let rightRectangleEnd := left.X + rectangleWidth
        let rightSliceIndex ← advanceRight p.heightSlices p.PackingAreaWidth rightRectangleEnd
          (Count p.heightSlices + 1 - s.rightSliceIndex).toNat s.rightSliceIndex
        if rightSliceIndex > Count p.heightSlices then
          pure (⟨best.1, best.2.1, best.2.2, leftSliceIndex, rightSliceIndex⟩, record)
        else
          searchLoopTrace p rectangleWidth rectangleHeight fuel
            ⟨best.1, best.2.1, best.2.2, leftSliceIndex, rightSliceIndex⟩ record
    else .ok (s, record)

/-- Exact-arithmetic counterpart of `Nuclex.searchTrace`. -/
def searchTrace (p : CygonRectanglePacker) (rectangleWidth rectangleHeight : Int) :
    Except Exn (List (Int × Int)) := do
  let found ← BinarySearch p.heightSlices ⟨rectangleWidth, 0⟩
  let rightSliceIndex := if found < 0 then bnot found else found
  let (_, record) ← searchLoopTrace p rectangleWidth rectangleHeight
    (p.heightSlices.length + 1)
    ⟨-1, 0, p.PackingAreaWidth * p.PackingAreaHeight, 0, rightSliceIndex⟩ []
  pure record

end Exact

/-! ## Lemmas -/

/-! ### List primitives -/

theorem Count_nonneg (l : List Point) : 0 ≤ Count l := by
  unfold Count; omega

theorem getItem_ok (l : List Point) (i : Int) (h0 : 0 ≤ i) (h1 : i < Count l) :
    getItem l i = .ok (nth l i) := by
  unfold Count at h1
  have hlt : i.toNat < l.length := by omega
  unfold getItem nth
  rw [if_neg (by omega), List.get?_eq_getElem?, List.getElem?_eq_getElem hlt,
    List.getD_eq_getElem l Point.Zero hlt]

theorem getItem_eq_ok {l : List Point} {i : Int} {a : Point} (h : getItem l i = .ok a) :
    0 ≤ i ∧ i < Count l ∧ a = nth l i := by
  unfold getItem at h
  by_cases hneg : i < 0
  · rw [if_pos hneg] at h; cases h
  · rw [if_neg hneg, List.get?_eq_getElem?] at h
    by_cases hlt : i.toNat < l.length
    · have h2 := getItem_ok l i (by omega) (by unfold Count; omega)
      unfold getItem at h2
      rw [if_neg hneg, List.get?_eq_getElem?] at h2
      rw [h2] at h
      injection h with h
      exact ⟨by omega, by unfold Count; omega, h.symm⟩
    · rw [List.getElem?_eq_none (by omega)] at h
      cases h

theorem nth_mem (l : List Point) (i : Int) (h0 : 0 ≤ i) (h1 : i < Count l) : nth l i ∈ l := by
  unfold Count at h1
  have hlt : i.toNat < l.length := by omega
  unfold nth
  rw [List.getD_eq_getElem l Point.Zero hlt]
  exact List.getElem_mem _

theorem mem_iff_nth (l : List Point) (a : Point) :
    a ∈ l ↔ ∃ i : Int, 0 ≤ i ∧ i < Count l ∧ nth l i = a := by
  constructor
  · intro h
    obtain ⟨n, hn, rfl⟩ := List.mem_iff_getElem.mp h
    refine ⟨(n : Int), by omega, by unfold Count; omega, ?_⟩
    unfold nth
    rw [Int.toNat_ofNat, List.getD_eq_getElem l Point.Zero hn]
  · rintro ⟨i, h0, h1, rfl⟩
    exact nth_mem l i h0 h1

theorem SortedX.nth_lt {l : List Point} (hs : SortedX l) {i j : Int}
    (h0 : 0 ≤ i) (hij : i < j) (hj : j < Count l) : (nth l i).X < (nth l j).X := by
  unfold Count at hj
  have hi' : i.toNat < l.length := by omega
  have hj' : j.toNat < l.length := by omega
  unfold nth
  rw [List.getD_eq_getElem l Point.Zero hi', List.getD_eq_getElem l Point.Zero hj']
  exact List.pairwise_iff_getElem.mp hs _ _ hi' hj' (by omega)

theorem SortedX.nth_le {l : List Point} (hs : SortedX l) {i j : Int}
    (h0 : 0 ≤ i) (hij : i ≤ j) (hj : j < Count l) : (nth l i).X ≤ (nth l j).X := by
  rcases lt_or_eq_of_le hij with h | h
  · exact Int.le_of_lt (hs.nth_lt h0 h hj)
  · subst h; exact Int.le_refl _

/-! ### Binary search -/

namespace Exact

theorem BinarySearchLoop_spec (l : List Point) (hs : SortedX l) (v : Point) (lo0 hi0 : Int)
    (hlo0 : 0 ≤ lo0) (hhi0 : hi0 < Count l) :
    ∀ (fuel : Nat) (lo hi : Int), lo0 ≤ lo → hi ≤ hi0 → lo ≤ hi + 1 →
      (hi + 1 - lo).toNat ≤ fuel →
      (∀ j, lo0 ≤ j → j < lo → (nth l j).X < v.X) →
      (∀ j, hi < j → j ≤ hi0 → v.X < (nth l j).X) →
      ∃ r, BinarySearchLoop l v fuel lo hi = .ok r ∧ BSResult l v.X lo0 hi0 r := by
  intro fuel
  induction fuel with
  | zero =>
    intro lo hi h1 h2 h3 h4 hl hr
    have : ¬ lo ≤ hi := by omega
    refine ⟨bnot lo, by simp [BinarySearchLoop, this], Or.inr ⟨lo, rfl, h1, by omega, hl, ?_⟩⟩
    intro j hj1 hj2
    exact hr j (by omega) hj2
  | succ n ih =>
    intro lo hi h1 h2 h3 h4 hl hr
    by_cases hle : lo ≤ hi
    · have hi_ok : getItem l (lo + (hi - lo) / 2) = .ok (nth l (lo + (hi - lo) / 2)) :=
        getItem_ok l _ (by omega) (by omega)
      unfold BinarySearchLoop
      rw [if_pos hle]
      simp only [hi_ok, SliceStartComparer.Compare, bind, Except.bind, pure, Except.pure]
      by_cases heq : (nth l (lo + (hi - lo) / 2)).X - v.X = 0
      · rw [if_pos heq]
        exact ⟨_, rfl, Or.inl ⟨by omega, by omega, by omega⟩⟩
      · rw [if_neg heq]
        by_cases hlt : (nth l (lo + (hi - lo) / 2)).X - v.X < 0
        · rw [if_pos hlt]
          apply ih _ _ (by omega) h2 (by omega) (by omega) _ hr
          intro j hj1 hj2
          have := hs.nth_le (i := j) (j := lo + (hi - lo) / 2) (by omega) (by omega) (by omega)
          omega
        · rw [if_neg hlt]
          apply ih _ _ h1 (by omega) (by omega) (by omega) hl
          intro j hj1 hj2
          have := hs.nth_le (i := lo + (hi - lo) / 2) (j := j) (by omega) (by omega) (by omega)
          omega
    · refine ⟨bnot lo, by unfold BinarySearchLoop; rw [if_neg hle], Or.inr ⟨lo, rfl, h1, by omega, hl, ?_⟩⟩
      intro j hj1 hj2
      exact hr j (by omega) hj2

theorem BinarySearchRange_spec (l : List Point) (hs : SortedX l) (v : Point) (index count : Int)
    (h0 : 0 ≤ index) (h1 : 0 ≤ count) (h2 : index + count ≤ Count l) :
    ∃ r, BinarySearchRange l index count v = .ok r ∧
      BSResult l v.X index (index + count - 1) r := by
  unfold BinarySearchRange
  rw [if_neg (by omega)]
  exact BinarySearchLoop_spec l hs v index (index + count - 1) h0 (by omega) _ _ _
    (Int.le_refl _) (Int.le_refl _) (by omega) (by omega) (fun j a b => by omega)
    (fun j a b => by omega)

theorem BinarySearch_spec (l : List Point) (hs : SortedX l) (v : Point) :
    ∃ r, BinarySearch l v = .ok r ∧ BSResult l v.X 0 (Count l - 1) r := by
  have := BinarySearchRange_spec l hs v 0 (Count l) (Int.le_refl _) (Count_nonneg l) (by omega)
  simpa [BinarySearch] using this

end Exact

/-! ### Silhouette height -/

theorem nth_append_left (a b : List Point) (i : Int) (h0 : 0 ≤ i) (h1 : i < Count a) :
    nth (a ++ b) i = nth a i := by
  unfold Count at h1
  unfold nth
  exact List.getD_append a b _ _ (by omega)

theorem nth_append_right (a b : List Point) (i : Int) (h1 : Count a ≤ i) :
    nth (a ++ b) i = nth b (i - Count a) := by
  unfold Count at h1
  unfold nth
  rw [List.getD_append_right a b _ _ (by omega)]
  congr 1
  unfold Count
  omega

theorem Count_append (a b : List Point) : Count (a ++ b) = Count a + Count b := by
  simp [Count]

theorem heightAt_append (a b : List Point) (c : Int) :
    heightAt (a ++ b) c = b.foldl (fun acc s => if s.X ≤ c then s.Y else acc) (heightAt a c) := by
  simp [heightAt, List.foldl_append]

theorem foldl_above (b : List Point) (c acc : Int) (h : ∀ s ∈ b, c < s.X) :
    b.foldl (fun acc s => if s.X ≤ c then s.Y else acc) acc = acc := by
  induction b generalizing acc with
  | nil => rfl
  | cons x xs ih =>
    have hx : ¬ x.X ≤ c := by have := h x (List.mem_cons_self _ _); omega
    simp only [List.foldl_cons, if_neg hx]
    exact ih acc (fun s hs => h s (List.mem_cons_of_mem _ hs))

/-- The silhouette height at `c` is the height of the last slice that starts at or before `c`. -/
theorem heightAt_eq_nth (l : List Point) (c : Int) :
    ∀ i, 0 ≤ i → i < Count l → (nth l i).X ≤ c →
      ∃ j, i ≤ j ∧ j < Count l ∧ (nth l j).X ≤ c ∧ heightAt l c = (nth l j).Y ∧
        ∀ k, j < k → k < Count l → c < (nth l k).X := by
  induction l using List.reverseRecOn with
  | nil => intro i h0 h1; simp [Count] at h1; omega
  | append_singleton init a ih =>
    intro i h0 h1 hx
    rw [Count_append] at h1
    have hc1 : Count [a] = 1 := rfl
    have hlast : nth (init ++ [a]) (Count init) = a := by
      rw [nth_append_right _ _ _ (Int.le_refl _)]; simp [nth]
    by_cases ha : a.X ≤ c
    · refine ⟨Count init, by omega, by rw [Count_append]; omega, by rw [hlast]; exact ha, ?_, ?_⟩
      · rw [heightAt_append, hlast]; simp [ha]
      · intro k hk1 hk2; rw [Count_append] at hk2; omega
    · have hi : i < Count init := by
        by_contra hcon
        have : i = Count init := by omega
        rw [this, hlast] at hx; exact ha hx
      rw [nth_append_left _ _ _ h0 hi] at hx
      obtain ⟨j, hj1, hj2, hj3, hj4, hj5⟩ := ih i h0 hi hx
      refine ⟨j, hj1, by rw [Count_append]; omega, by rw [nth_append_left _ _ _ (by omega) hj2]; exact hj3, ?_, ?_⟩
      · rw [heightAt_append, nth_append_left _ _ _ (by omega) hj2, ← hj4]; simp [ha]
      · intro k hk1 hk2
        rw [Count_append] at hk2
        by_cases hk : k < Count init
        · rw [nth_append_left _ _ _ (by omega) hk]; exact hj5 k hk1 hk
        · have : k = Count init := by omega
          rw [this, hlast]; omega

/-! ### The best-placement search -/

theorem highestLoop_spec (l : List Point) (right : Int) (hr : right ≤ Count l) :
    ∀ (fuel : Nat) (index highest : Int), 0 ≤ index → (right - index).toNat ≤ fuel →
      ∃ r, highestLoop l right fuel index highest = .ok r ∧ highest ≤ r ∧
        (∀ j, index ≤ j → j < right → (nth l j).Y ≤ r) ∧
        (r = highest ∨ ∃ j, index ≤ j ∧ j < right ∧ r = (nth l j).Y) := by
  intro fuel
  induction fuel with
  | zero =>
    intro index highest h0 hf
    have : ¬ index < right := by omega
    exact ⟨highest, by simp [highestLoop, this], Int.le_refl _, fun j a b => by omega, Or.inl rfl⟩
  | succ n ih =>
    intro index highest h0 hf
    by_cases hlt : index < right
    · unfold highestLoop
      rw [if_pos hlt, getItem_ok l index h0 (by omega)]
      simp only [bind, Except.bind]
      obtain ⟨r, hr1, hr2, hr3, hr4⟩ := ih (index + 1)
        (if (nth l index).Y > highest then (nth l index).Y else highest) (by omega) (by omega)
      refine ⟨r, hr1, ?_, ?_, ?_⟩
      · split at hr2 <;> omega
      · intro j hj1 hj2
        by_cases hj : j = index
        · subst hj; split at hr2 <;> omega
        · exact hr3 j (by omega) hj2
      · rcases hr4 with h | ⟨j, hj1, hj2, hj3⟩
        · by_cases hgt : (nth l index).Y > highest
          · rw [if_pos hgt] at h; exact Or.inr ⟨index, Int.le_refl _, hlt, h⟩
          · rw [if_neg hgt] at h; exact Or.inl h
        · exact Or.inr ⟨j, by omega, hj2, hj3⟩
    · exact ⟨highest, by unfold highestLoop; rw [if_neg hlt], Int.le_refl _,
        fun j a b => by omega, Or.inl rfl⟩

theorem advanceRight_spec (l : List Point) (W e : Int) :
    ∀ (fuel : Nat) (right : Int), 0 ≤ right → (Count l + 1 - right).toNat ≤ fuel →
      ∃ r, advanceRight l W e fuel right = .ok r ∧ right ≤ r ∧
        (r < Count l → e < (nth l r).X) ∧ (r = Count l → e < W) ∧
        (∀ j, right ≤ j → j < r → j < Count l → (nth l j).X ≤ e) ∧
        (Count l < r → right ≤ Count l → W ≤ e) := by
  intro fuel
  induction fuel with
  | zero =>
    intro right h0 hf
    have : ¬ right ≤ Count l := by omega
    exact ⟨right, by simp [advanceRight, this], Int.le_refl _, fun a => by omega,
      fun a => by omega, fun j a b => by omega, fun a b => by omega⟩
  | succ n ih =>
    intro right h0 hf
    by_cases hle : right ≤ Count l
    · unfold advanceRight
      rw [if_pos hle]
      by_cases heq : right = Count l
      · rw [if_pos heq]
        simp only [bind, Except.bind, pure, Except.pure]
        by_cases hgt : W > e
        · rw [if_pos hgt]
          exact ⟨right, rfl, Int.le_refl _, fun a => by omega, fun _ => hgt,
            fun j a b => by omega, fun a b => by omega⟩
        · rw [if_neg hgt]
          obtain ⟨r, hr1, hr2, hr3, hr4, hr5, hr6⟩ := ih (right + 1) (by omega) (by omega)
          refine ⟨r, hr1, by omega, fun a => by omega, fun a => by omega,
            fun j a b c => by omega, fun a b => by omega⟩
      · rw [if_neg heq, getItem_ok l right h0 (by omega)]
        simp only [bind, Except.bind, pure, Except.pure]
        by_cases hgt : (nth l right).X > e
        · rw [if_pos hgt]
          exact ⟨right, rfl, Int.le_refl _, fun _ => hgt, fun a => by omega,
            fun j a b => by omega, fun a b => by omega⟩
        · rw [if_neg hgt]
          obtain ⟨r, hr1, hr2, hr3, hr4, hr5, hr6⟩ := ih (right + 1) (by omega) (by omega)
          refine ⟨r, hr1, by omega, hr3, hr4, ?_, fun a b => hr6 a (by omega)⟩
          intro j hj1 hj2 hj3
          by_cases hj : j = right
          · subst hj; omega
          · exact hr5 j (by omega) hj2 hj3
    · exact ⟨right, by unfold advanceRight; rw [if_neg hle], Int.le_refl _, fun a => by omega,
        fun a => by omega, fun j a b => by omega, fun a b => by omega⟩

namespace Exact

theorem searchLoop_spec (p : CygonRectanglePacker) (hwf : WellFormed p) (w h : Int)
    (hw : 0 < w) :
    ∀ (fuel : Nat) (s : SearchState),
      0 ≤ s.leftSliceIndex → s.leftSliceIndex < Count p.heightSlices →
      s.leftSliceIndex < s.rightSliceIndex → s.rightSliceIndex ≤ Count p.heightSlices →
      (nth p.heightSlices s.leftSliceIndex).X + w ≤ p.PackingAreaWidth →
      (∀ j, s.rightSliceIndex ≤ j → j < Count p.heightSlices →
        (nth p.heightSlices s.leftSliceIndex).X + w ≤ (nth p.heightSlices j).X) →
      (Count p.heightSlices - s.leftSliceIndex).toNat ≤ fuel →
      (s.bestSliceIndex = -1 ∨ GoodCandidate p w h s.bestSliceIndex s.bestSliceY) →
      ∃ s', searchLoop p w h fuel s = .ok s' ∧
        (s'.bestSliceIndex = -1 ∨ GoodCandidate p w h s'.bestSliceIndex s'.bestSliceY) := by
  intro fuel
  induction fuel with
  | zero => intro s h0 h1 h2 h3 h4 h5 h6 h7; omega
  | succ n ih =>
    intro s h0 h1 h2 h3 h4 h5 h6 h7
    obtain ⟨hi, hhi1, hhi2, hhi3, hhi4⟩ := highestLoop_spec p.heightSlices s.rightSliceIndex h3
      (s.rightSliceIndex - (s.leftSliceIndex + 1)).toNat (s.leftSliceIndex + 1)
      (nth p.heightSlices s.leftSliceIndex).Y (by omega) (by omega)
    -- the maximum dominates the silhouette over the rectangle's columns
    have hcover : ∀ c, (nth p.heightSlices s.leftSliceIndex).X ≤ c →
        c < (nth p.heightSlices s.leftSliceIndex).X + w → heightAt p.heightSlices c ≤ hi := by
      intro c hc1 hc2
      obtain ⟨j, hj1, hj2, hj3, hj4, -⟩ := heightAt_eq_nth p.heightSlices c _ h0 h1 hc1
      have hjr : j < s.rightSliceIndex := by
        by_contra hcon
        have := h5 j (by omega) hj2
        omega
      rw [hj4]
      by_cases hj : j = s.leftSliceIndex
      · rw [hj]; exact hhi2
      · exact hhi3 j (by omega) hjr
    have hnn : 0 ≤ hi := by
      rcases hhi4 with h | ⟨j, hj1, hj2, hj3⟩
      · rw [h]; exact hwf.ynn _ (nth_mem _ _ h0 h1)
      · rw [hj3]; exact hwf.ynn _ (nth_mem _ _ (by omega) (by omega))
    clear hhi4
    -- the best candidate after this iteration
    have hbest : ∀ b : Int × Int × Int,
        b = (if hi + h < p.PackingAreaHeight then
              if hi < s.bestScore then (s.leftSliceIndex, hi, hi)
              else (s.bestSliceIndex, s.bestSliceY, s.bestScore)
            else (s.bestSliceIndex, s.bestSliceY, s.bestScore)) →
        (b.1 = -1 ∨ GoodCandidate p w h b.1 b.2.1) := by
      intro b hb
      by_cases hfit : hi + h < p.PackingAreaHeight
      · rw [if_pos hfit] at hb
        by_cases hsc : hi < s.bestScore
        · rw [if_pos hsc] at hb
          subst hb
          exact Or.inr ⟨h0, h1, h4, hfit, hnn, hcover⟩
        · rw [if_neg hsc] at hb; subst hb; exact h7
      · rw [if_neg hfit] at hb; subst hb; exact h7
    unfold searchLoop
    rw [if_pos h3, getItem_ok _ _ h0 h1]
    simp only [bind, Except.bind, hhi1, pure, Except.pure]
    by_cases hend : s.leftSliceIndex + 1 ≥ Count p.heightSlices
    · rw [if_pos hend]
      exact ⟨_, rfl, hbest _ rfl⟩
    · rw [if_neg hend, getItem_ok _ _ (by omega) (by omega)]
      obtain ⟨r, hr1, hr2, hr3, hr4, hr5, hr6⟩ := advanceRight_spec p.heightSlices
        p.PackingAreaWidth ((nth p.heightSlices (s.leftSliceIndex + 1)).X + w)
        (Count p.heightSlices + 1 - s.rightSliceIndex).toNat s.rightSliceIndex (by omega)
        (Nat.le_refl _)
      simp only [hr1]
      by_cases hout : r > Count p.heightSlices
      · rw [if_pos hout]
        exact ⟨_, rfl, hbest _ rfl⟩
      · rw [if_neg hout]
        have hWpos : 0 < p.PackingAreaWidth := by
          have := hwf.sorted.nth_le (i := 0) (j := s.leftSliceIndex) (Int.le_refl _) h0 h1
          have := hwf.first
          omega
        have hlt_r : s.leftSliceIndex + 1 < r := by
          by_contra hcon
          have h1' := hr3 (by omega)
          have := hwf.sorted.nth_le (i := r) (j := s.leftSliceIndex + 1) (by omega) (by omega)
            (by omega)
          omega
        have hW : (nth p.heightSlices (s.leftSliceIndex + 1)).X + w ≤ p.PackingAreaWidth := by
          by_cases hrc : r = Count p.heightSlices
          · have := hr4 hrc; omega
          · have h1' := hr3 (by omega)
            have := hwf.xlt hWpos _ (nth_mem p.heightSlices r (by omega) (by omega))
            omega
        refine ih ⟨_, _, _, s.leftSliceIndex + 1, r⟩ ?_ ?_ ?_ ?_ hW ?_ ?_ (hbest _ rfl)
        · show 0 ≤ s.leftSliceIndex + 1; omega
        · show s.leftSliceIndex + 1 < Count p.heightSlices; omega
        · exact hlt_r
        · show r ≤ Count p.heightSlices; omega
        · intro j hj1 hj2
          have hj1' : r ≤ j := hj1
          have h1' := hr3 (by omega)
          have := hwf.sorted.nth_le (i := r) (j := j) (by omega) hj1' hj2
          show (nth p.heightSlices (s.leftSliceIndex + 1)).X + w ≤ (nth p.heightSlices j).X
          omega
        · show (Count p.heightSlices - (s.leftSliceIndex + 1)).toNat ≤ n
          have h6' : (Count p.heightSlices - s.leftSliceIndex).toNat ≤ n + 1 := h6
          omega

/-- What a successful search returns: the start of a slice, a rectangle inside the packing
area, and a top edge at or above the silhouette over the rectangle's columns. -/
theorem tryFindBestPlacement_spec (p : CygonRectanglePacker) (hwf : WellFormed p) (w h : Int)
    (hw : 0 < w) (hwW : w ≤ p.PackingAreaWidth) :
    ∃ fits pt, tryFindBestPlacement p w h = .ok (fits, pt) ∧
      (fits = false → pt = Point.Zero) ∧
      (fits = true → ∃ b, GoodCandidate p w h b pt.Y ∧ pt.X = (nth p.heightSlices b).X) := by
  obtain ⟨found, hf1, hf2⟩ := BinarySearch_spec p.heightSlices hwf.sorted ⟨w, 0⟩
  have hfirst := hwf.first
  have hne := hwf.nonempty
  -- the initial right index
  have hright : ∀ r, r = (if found < 0 then bnot found else found) →
      0 < r ∧ r ≤ Count p.heightSlices ∧
      ∀ j, r ≤ j → j < Count p.heightSlices → w ≤ (nth p.heightSlices j).X := by
    intro r hr
    rcases hf2 with ⟨h1, h2, h3⟩ | ⟨k, hk1, hk2, hk3, hk4, hk5⟩
    · rw [if_neg (by omega)] at hr
      rw [hr]
      simp only at h3
      refine ⟨?_, by omega, ?_⟩
      · by_contra hcon
        have : found = 0 := by omega
        rw [this, hfirst] at h3; omega
      · intro j hj1 hj2
        have := hwf.sorted.nth_le (i := found) (j := j) h1 hj1 hj2
        omega
    · have hneg : found < 0 := by rw [hk1]; unfold bnot; omega
      rw [if_pos hneg, hk1] at hr
      have hrk : r = k := by rw [hr]; unfold bnot; omega
      subst hrk
      simp only at hk4 hk5
      refine ⟨?_, by omega, ?_⟩
      · by_contra hcon
        have h0 : r = 0 := by omega
        have := hk5 0 (by omega) (by omega)
        omega
      · intro j hj1 hj2
        have := hk5 j hj1 (by omega)
        omega
  obtain ⟨hr1, hr2, hr3⟩ := hright _ rfl
  obtain ⟨s', hs1, hs2⟩ := searchLoop_spec p hwf w h hw (p.heightSlices.length + 1)
    ⟨-1, 0, p.PackingAreaWidth * p.PackingAreaHeight, 0,
      if found < 0 then bnot found else found⟩
    (Int.le_refl _) hne hr1 hr2 (by simp only; omega)
    (by intro j hj1 hj2; simp only at hj1 ⊢; have := hr3 j hj1 hj2; omega)
    (by simp only [Count]; omega) (Or.inl rfl)
  unfold tryFindBestPlacement
  simp only [hf1, bind, Except.bind, hs1, pure, Except.pure]
  by_cases hb : s'.bestSliceIndex = -1
  · rw [if_pos hb]
    refine ⟨false, Point.Zero, rfl, fun _ => rfl, ?_⟩
    intro hcon; cases hcon
  · rw [if_neg hb]
    have hg := hs2.resolve_left hb
    rw [getItem_ok _ _ hg.1 hg.2.1]
    refine ⟨true, _, rfl, ?_, fun _ => ⟨_, hg, rfl⟩⟩
    intro hcon; cases hcon

end Exact

/-! ### Integration of a rectangle into the silhouette -/

theorem nth_set_ne (l : List Point) (n : Nat) (a : Point) (j : Int) (h0 : 0 ≤ j)
    (hne : j ≠ (n : Int)) : nth (l.set n a) j = nth l j := by
  unfold nth
  rw [List.getD_eq_getElem?_getD, List.getD_eq_getElem?_getD,
    List.getElem?_set_ne (by omega)]

theorem nth_set_eq (l : List Point) (n : Nat) (a : Point) (hn : n < l.length) :
    nth (l.set n a) (n : Int) = a := by
  unfold nth
  rw [List.getD_eq_getElem?_getD, Int.toNat_ofNat, List.getElem?_set]
  simp [hn]

theorem Count_set (l : List Point) (n : Nat) (a : Point) : Count (l.set n a) = Count l := by
  simp [Count]

theorem set_eq_take_drop (l : List Point) (n : Nat) (a : Point) (hn : n < l.length) :
    l.set n a = l.take n ++ a :: l.drop (n + 1) := by
  rw [List.set_eq_take_append_cons_drop, if_pos hn]

theorem mem_take_nth (l : List Point) (n : Nat) (s : Point) (hs : s ∈ l.take n) :
    ∃ j : Int, 0 ≤ j ∧ j < n ∧ j < Count l ∧ s = nth l j := by
  obtain ⟨i, hi, rfl⟩ := List.mem_take_iff_getElem.mp hs
  have hi2 : i < l.length := by omega
  refine ⟨(i : Int), by omega, by omega, by unfold Count; omega, ?_⟩
  unfold nth
  rw [Int.toNat_ofNat, List.getD_eq_getElem l Point.Zero hi2]

theorem mem_drop_nth (l : List Point) (n : Nat) (s : Point) (hs : s ∈ l.drop n) :
    ∃ j : Int, (n : Int) ≤ j ∧ j < Count l ∧ s = nth l j := by
  obtain ⟨i, hi, rfl⟩ := List.mem_drop_iff_getElem.mp hs
  have hi2 : n + i < l.length := by omega
  refine ⟨((n + i : Nat) : Int), by omega, by unfold Count; omega, ?_⟩
  unfold nth
  rw [Int.toNat_ofNat, List.getD_eq_getElem l Point.Zero hi2]

namespace Exact

/-- Closed form of the second half of `integrateRectangle`: with `k` the index of the first
slice after `startSlice - 1` that starts at or after `right`, the slices from `startSlice` up
to `k` are dropped and, unless a slice starts exactly at `right` or `right` is at the border,
a slice restoring the height before `k` is put at `right`. -/
theorem integrateEnd_closed (W : Int) (l : List Point) (hs : SortedX l) (b first right : Int)
    (hb0 : 0 ≤ b) (hb1 : b < Count l) :
    ∃ k, b < k ∧ k ≤ Count l ∧ (∀ j, b < j → j < k → (nth l j).X < right) ∧
      (∀ j, k ≤ j → j < Count l → right ≤ (nth l j).X) ∧
      integrateEnd W l (b + 1) first right = .ok (l.take (b + 1).toNat ++
        ((if (k < Count l ∧ (nth l k).X = right) ∨ W ≤ right then []
          else [⟨right, if k = b + 1 then first else (nth l (k - 1)).Y⟩]) ++ l.drop k.toNat)) := by
  have hlen : Count l = (l.length : Int) := rfl
  by_cases hlast : b + 1 ≥ Count l
  · refine ⟨Count l, by omega, Int.le_refl _, fun j a c => by omega, fun j a c => by omega, ?_⟩
    unfold integrateEnd
    rw [if_pos hlast]
    have h1 : l.take (b + 1).toNat = l := List.take_of_length_le (by omega)
    have h2 : l.drop (Count l).toNat = [] := List.drop_eq_nil_of_le (by omega)
    have h3 : Count l = b + 1 := by omega
    rw [h1, h2]
    by_cases hr : right < W
    · rw [if_pos hr, if_neg (by omega), if_pos h3]
      simp [Add, pure, Except.pure]
    · rw [if_neg hr, if_pos (Or.inr (by omega))]
      simp [pure, Except.pure]
  · obtain ⟨r, hr1, hr2⟩ := BinarySearchRange_spec l hs ⟨right, 0⟩ (b + 1)
      (Count l - (b + 1)) (by omega) (by omega) (by omega)
    unfold integrateEnd
    rw [if_neg hlast]
    simp only [hr1, bind, Except.bind, pure, Except.pure]
    simp only at hr2
    rcases hr2 with ⟨h1, h2, h3⟩ | ⟨k, hk1, hk2, hk3, hk4, hk5⟩
    · -- a slice starts exactly at `right`
      refine ⟨r, by omega, by omega, ?_, ?_, ?_⟩
      · intro j hj1 hj2
        have := hs.nth_lt (i := j) (j := r) (by omega) hj2 (by omega)
        omega
      · intro j hj1 hj2
        have := hs.nth_le (i := r) (j := j) (by omega) hj1 hj2
        omega
      · rw [if_pos (by omega), if_pos (Or.inl ⟨by omega, h3⟩)]
        unfold RemoveRange
        rw [if_neg (by omega)]
        have : (b + 1).toNat + (r - (b + 1)).toNat = r.toNat := by omega
        rw [this]; rfl
    · -- `right` falls inside a slice
      have hneg : ¬ r > 0 := by rw [hk1]; unfold bnot; omega
      have hbn : bnot r = k := by rw [hk1]; unfold bnot; omega
      refine ⟨k, by omega, by omega, fun j a c => hk4 j (by omega) c, ?_, ?_⟩
      · intro j hj1 hj2
        have := hk5 j hj1 (by omega)
        omega
      · rw [if_neg hneg, hbn]
        have hnohit : ¬ (k < Count l ∧ (nth l k).X = right) := by
          rintro ⟨ha, hb⟩
          have := hk5 k (Int.le_refl _) (by omega)
          omega
        have hrem : RemoveRange l (b + 1) (k - (b + 1)) =
            .ok (l.take (b + 1).toNat ++ l.drop k.toNat) := by
          unfold RemoveRange
          rw [if_neg (by omega)]
          have : (b + 1).toNat + (k - (b + 1)).toNat = k.toNat := by omega
          rw [this]
        have hcont : ∀ y : Int,
            (RemoveRange l (b + 1) (k - (b + 1)) >>= fun v =>
                if right < W then Insert v (b + 1) ⟨right, y⟩ else Except.ok v) =
            Except.ok (l.take (b + 1).toNat ++
              ((if (k < Count l ∧ (nth l k).X = right) ∨ W ≤ right then []
                else [⟨right, y⟩]) ++ l.drop k.toNat)) := by
          intro y
          simp only [hrem, bind, Except.bind]
          by_cases hrw : right < W
          · rw [if_pos hrw,
              if_neg (by intro hcon; rcases hcon with hc | hc; exact hnohit hc; omega)]
            unfold Insert
            have hlt : ((l.take (b + 1).toNat).length : Int) = b + 1 := by
              rw [List.length_take_of_le (by omega)]; omega
            rw [if_neg (by
              rw [Count_append]; unfold Count
              have := Count_nonneg (l.drop k.toNat); unfold Count at this; omega)]
            rw [List.take_left' (by omega), List.drop_left' (by omega)]
            rfl
          · rw [if_neg hrw, if_pos (Or.inr (by omega))]
            rfl
        by_cases hk : k = b + 1
        · rw [if_pos hk, if_pos hk]
          exact hcont first
        · rw [if_neg hk, if_neg hk, getItem_ok l (k - 1) (by omega) (by omega)]
          exact hcont _

/-- On a direct hit the first half of `integrateRectangle` overwrites the slice it hit. -/
theorem integrateStart_hit (l : List Point) (hs : SortedX l) (b bottom : Int)
    (hb0 : 0 ≤ b) (hb1 : b < Count l) :
    integrateStart l (nth l b).X bottom =
      .ok (b, (nth l b).Y, l.set b.toNat ⟨(nth l b).X, bottom⟩) := by
  obtain ⟨r, hr1, hr2⟩ := BinarySearch_spec l hs ⟨(nth l b).X, 0⟩
  have hrb : r = b := by
    simp only at hr2
    rcases hr2 with ⟨h1, h2, h3⟩ | ⟨k, hk1, hk2, hk3, hk4, hk5⟩
    · rcases lt_trichotomy r b with h | h | h
      · have := hs.nth_lt h1 h hb1; omega
      · exact h
      · have := hs.nth_lt hb0 h (by omega); omega
    · exfalso
      by_cases hbk : b < k
      · have := hk4 b hb0 hbk; omega
      · have := hk5 b (by omega) (by omega); omega
  subst hrb
  unfold integrateStart
  simp only [hr1, bind, Except.bind, pure, Except.pure]
  rw [if_pos (by omega), getItem_ok l r hb0 hb1]
  simp only [setItem]
  rw [if_neg (by omega)]

end Exact

theorem nth_take (l : List Point) (n : Nat) (j : Int) (h0 : 0 ≤ j) (h1 : j < n)
    (h2 : j < Count l) : nth (l.take n) j = nth l j := by
  unfold Count at h2
  unfold nth
  have h3 : j.toNat < (l.take n).length := by rw [List.length_take]; omega
  rw [List.getD_eq_getElem _ _ h3, List.getD_eq_getElem _ _ (by omega), List.getElem_take]

theorem Count_take (l : List Point) (n : Nat) (h : (n : Int) ≤ Count l) :
    Count (l.take n) = n := by
  unfold Count at h ⊢
  rw [List.length_take]; omega

theorem foldl_head_le (s : Point) (t : List Point) (c acc : Int) (h : s.X ≤ c) :
    (s :: t).foldl (fun acc s => if s.X ≤ c then s.Y else acc) acc =
      t.foldl (fun acc s => if s.X ≤ c then s.Y else acc) s.Y := by
  simp [List.foldl_cons, h]

/-- The height just left of index `k` is the height of slice `k - 1`, when that slice starts
at or before `c`. -/
theorem heightAt_take (l : List Point) (k c : Int) (hk0 : 0 < k) (hk1 : k ≤ Count l)
    (hx : (nth l (k - 1)).X ≤ c) : heightAt (l.take k.toNat) c = (nth l (k - 1)).Y := by
  have hcnt : Count (l.take k.toNat) = k := by rw [Count_take l _ (by omega)]; omega
  have hn : nth (l.take k.toNat) (k - 1) = nth l (k - 1) :=
    nth_take l _ _ (by omega) (by omega) (by omega)
  obtain ⟨j, hj1, hj2, -, hj4, -⟩ := heightAt_eq_nth (l.take k.toNat) c (k - 1) (by omega)
    (by omega) (by rw [hn]; exact hx)
  have : j = k - 1 := by omega
  rw [hj4, this, hn]

theorem sorted_assemble (l : List Point) (hs : SortedX l) (i k : Nat) (mid : List Point)
    (hik : i ≤ k) (hmid : SortedX mid) (h1 : ∀ s ∈ l.take i, ∀ m ∈ mid, s.X < m.X)
    (h2 : ∀ m ∈ mid, ∀ s ∈ l.drop k, m.X < s.X) :
    SortedX (l.take i ++ (mid ++ l.drop k)) := by
  unfold SortedX at *
  rw [List.pairwise_append, List.pairwise_append]
  refine ⟨hs.sublist (List.take_sublist _ _), ⟨hmid, hs.sublist (List.drop_sublist _ _), h2⟩, ?_⟩
  intro s hs1 t ht
  rcases List.mem_append.mp ht with hm | hd
  · exact h1 s hs1 t hm
  · obtain ⟨j1, a1, a2, a3, rfl⟩ := mem_take_nth l i s hs1
    obtain ⟨j2, b1, b2, rfl⟩ := mem_drop_nth l k t hd
    exact SortedX.nth_lt hs a1 (by omega) b2

namespace Exact

/-- Integration at the start of slice `b`: the new silhouette in closed form. -/
theorem integrateRectangle_hit (p : CygonRectanglePacker) (hwf : WellFormed p)
    (b width bottom : Int) (hb0 : 0 ≤ b) (hb1 : b < Count p.heightSlices) :
    ∃ k, b < k ∧ k ≤ Count p.heightSlices ∧
      (∀ j, b < j → j < k → (nth p.heightSlices j).X < (nth p.heightSlices b).X + width) ∧
      (∀ j, k ≤ j → j < Count p.heightSlices →
        (nth p.heightSlices b).X + width ≤ (nth p.heightSlices j).X) ∧
      integrateRectangle p (nth p.heightSlices b).X width bottom =
        .ok (p.heightSlices.take b.toNat ++
          (⟨(nth p.heightSlices b).X, bottom⟩ ::
            ((if (k < Count p.heightSlices ∧
                  (nth p.heightSlices k).X = (nth p.heightSlices b).X + width) ∨
                p.PackingAreaWidth ≤ (nth p.heightSlices b).X + width then []
              else [⟨(nth p.heightSlices b).X + width, (nth p.heightSlices (k - 1)).Y⟩]) ++
            p.heightSlices.drop k.toNat))) := by
  obtain ⟨W, H, l⟩ := p
  simp only at hb1 ⊢
  have hs : SortedX l := hwf.sorted
  have hlen : b.toNat < l.length := by unfold Count at hb1; omega
  have hset := set_eq_take_drop l b.toNat ⟨(nth l b).X, bottom⟩ hlen
  have hbcast : ((b.toNat : Nat) : Int) = b := by omega
  have hnth1 : ∀ j, 0 ≤ j → j ≠ b →
      nth (l.set b.toNat ⟨(nth l b).X, bottom⟩) j = nth l j :=
    fun j hj0 hjb => nth_set_ne l _ _ j hj0 (by omega)
  have hnthb : nth (l.set b.toNat ⟨(nth l b).X, bottom⟩) b = ⟨(nth l b).X, bottom⟩ := by
    have := nth_set_eq l b.toNat ⟨(nth l b).X, bottom⟩ hlen
    rwa [hbcast] at this
  -- the list is still sorted after the start slice is overwritten
  have hs1 : SortedX (l.set b.toNat ⟨(nth l b).X, bottom⟩) := by
    rw [hset]
    have h := sorted_assemble l hs b.toNat (b.toNat + 1) [⟨(nth l b).X, bottom⟩] (by omega)
      (List.pairwise_singleton _ _) ?_ ?_
    · simpa using h
    · intro s hs1 m hm
      obtain ⟨j, a1, a2, a3, rfl⟩ := mem_take_nth l _ s hs1
      rw [List.mem_singleton.mp hm]
      exact hs.nth_lt a1 (by omega) hb1
    · intro m hm s hs1
      obtain ⟨j, a1, a2, rfl⟩ := mem_drop_nth l _ s hs1
      rw [List.mem_singleton.mp hm]
      exact hs.nth_lt hb0 (by omega) a2
  obtain ⟨k, hk1, hk2, hk3, hk4, hk5⟩ := integrateEnd_closed W
    (l.set b.toNat ⟨(nth l b).X, bottom⟩) hs1 b (nth l b).Y ((nth l b).X + width) hb0
    (by rw [Count_set]; exact hb1)
  rw [Count_set] at hk2 hk4 hk5
  refine ⟨k, hk1, hk2, ?_, ?_, ?_⟩
  · intro j hj1 hj2
    have := hk3 j hj1 hj2
    rwa [hnth1 j (by omega) (by omega)] at this
  · intro j hj1 hj2
    have := hk4 j hj1 hj2
    rwa [hnth1 j (by omega) (by omega)] at this
  · unfold integrateRectangle
    simp only [integrateStart_hit l hs b bottom hb0 hb1, bind, Except.bind]
    rw [hk5]
    have ht : (l.set b.toNat ⟨(nth l b).X, bottom⟩).take (b + 1).toNat =
        l.take b.toNat ++ [⟨(nth l b).X, bottom⟩] := by
      rw [hset]
      have h1 : (b + 1).toNat = (l.take b.toNat).length + 1 := by
        rw [List.length_take_of_le (by omega)]; omega
      rw [h1, List.take_append]
      rfl
    have hd : (l.set b.toNat ⟨(nth l b).X, bottom⟩).drop k.toNat = l.drop k.toNat := by
      rw [List.drop_set, if_pos (by omega)]
    have hy : (if k = b + 1 then (nth l b).Y
        else (nth (l.set b.toNat ⟨(nth l b).X, bottom⟩) (k - 1)).Y) = (nth l (k - 1)).Y := by
      by_cases hk : k = b + 1
      · rw [if_pos hk, hk]; congr 2; omega
      · rw [if_neg hk, hnth1 (k - 1) (by omega) (by omega)]
    have hx : (k < Count l ∧ (nth (l.set b.toNat ⟨(nth l b).X, bottom⟩) k).X =
        (nth l b).X + width) ↔ (k < Count l ∧ (nth l k).X = (nth l b).X + width) := by
      rw [hnth1 k (by omega) (by omega)]
    rw [ht, hd, hy]
    simp only [hx, List.append_assoc, List.singleton_append]

end Exact

/-- The silhouette after a rectangle with top edge `bottom` was integrated at the start of
slice `b`: it is well formed again, it is `bottom` over the rectangle's columns and it is
unchanged over the other columns of the packing area. -/
theorem integrated_props (W H : Int) (l : List Point) (hwf : WellFormed ⟨W, H, l⟩)
    (b k width bottom : Int) (hb0 : 0 ≤ b) (hb1 : b < Count l) (hw : 0 < width)
    (hfit : (nth l b).X + width ≤ W) (hbot : 0 ≤ bottom)
    (hk1 : b < k) (hk2 : k ≤ Count l)
    (hk3 : ∀ j, b < j → j < k → (nth l j).X < (nth l b).X + width)
    (hk4 : ∀ j, k ≤ j → j < Count l → (nth l b).X + width ≤ (nth l j).X)
    (l' : List Point)
    (hl' : l' = l.take b.toNat ++ (⟨(nth l b).X, bottom⟩ ::
      ((if (k < Count l ∧ (nth l k).X = (nth l b).X + width) ∨ W ≤ (nth l b).X + width then []
        else [⟨(nth l b).X + width, (nth l (k - 1)).Y⟩]) ++ l.drop k.toNat))) :
    WellFormed ⟨W, H, l'⟩ ∧
    ∀ c, c < W → heightAt l' c =
      if (nth l b).X ≤ c ∧ c < (nth l b).X + width then bottom else heightAt l c := by
  have hs : SortedX l := hwf.sorted
  have hWpos : 0 < W := by
    have := hs.nth_le (i := 0) (j := b) (Int.le_refl _) hb0 hb1
    have := hwf.first
    simp only at this
    omega
  have hxlt := hwf.xlt hWpos
  simp only at hxlt
  -- facts about the three parts
  have htake : ∀ s ∈ l.take b.toNat, s.X < (nth l b).X := by
    intro s hs1
    obtain ⟨j, a1, a2, a3, rfl⟩ := mem_take_nth l _ s hs1
    exact hs.nth_lt a1 (by omega) hb1
  have hdrop : ∀ s ∈ l.drop k.toNat, (nth l b).X + width ≤ s.X := by
    intro s hs1
    obtain ⟨j, a1, a2, rfl⟩ := mem_drop_nth l _ s hs1
    exact hk4 j (by omega) a2
  have hrest : ∀ s ∈ (if (k < Count l ∧ (nth l k).X = (nth l b).X + width) ∨
      W ≤ (nth l b).X + width then []
      else [(⟨(nth l b).X + width, (nth l (k - 1)).Y⟩ : Point)]),
      s = ⟨(nth l b).X + width, (nth l (k - 1)).Y⟩ ∧ (nth l b).X + width < W ∧
      ¬ (k < Count l ∧ (nth l k).X = (nth l b).X + width) := by
    intro s hs1
    by_cases hc : (k < Count l ∧ (nth l k).X = (nth l b).X + width) ∨ W ≤ (nth l b).X + width
    · rw [if_pos hc] at hs1; cases hs1
    · rw [if_neg hc] at hs1
      exact ⟨List.mem_singleton.mp hs1, by omega, fun h => hc (Or.inl h)⟩
  have hdrop_lt : ∀ r ∈ (if (k < Count l ∧ (nth l k).X = (nth l b).X + width) ∨
      W ≤ (nth l b).X + width then []
      else [(⟨(nth l b).X + width, (nth l (k - 1)).Y⟩ : Point)]),
      ∀ s ∈ l.drop k.toNat, r.X < s.X := by
    intro r hr s hs1
    obtain ⟨rfl, h2, h3⟩ := hrest r hr
    obtain ⟨j, a1, a2, rfl⟩ := mem_drop_nth l _ s hs1
    have h4 := hk4 j (by omega) a2
    have h5 := hs.nth_le (i := k) (j := j) (by omega) (by omega) a2
    have h6 := hk4 k (Int.le_refl _) (by omega)
    simp only
    by_contra hcon
    exact h3 ⟨by omega, by omega⟩
  have hmid : SortedX ((⟨(nth l b).X, bottom⟩ : Point) ::
      (if (k < Count l ∧ (nth l k).X = (nth l b).X + width) ∨ W ≤ (nth l b).X + width then []
        else [(⟨(nth l b).X + width, (nth l (k - 1)).Y⟩ : Point)])) := by
    unfold SortedX
    rw [List.pairwise_cons]
    constructor
    · intro s hs1
      obtain ⟨rfl, -, -⟩ := hrest s hs1
      simp only; omega
    · split
      · exact List.Pairwise.nil
      · exact List.pairwise_singleton _ _
  have hsorted : SortedX l' := by
    rw [hl']
    have h := sorted_assemble l hs b.toNat k.toNat _ (by omega) hmid ?_ ?_
    · simpa using h
    · intro s hs1 m hm
      have h1 := htake s hs1
      rcases List.mem_cons.mp hm with rfl | hm
      · exact h1
      · obtain ⟨rfl, -, -⟩ := hrest m hm
        simp only; omega
    · intro m hm s hs1
      rcases List.mem_cons.mp hm with rfl | hm
      · have := hdrop s hs1
        simp only; omega
      · exact hdrop_lt m hm s hs1
  refine ⟨⟨hsorted, ?_, ?_, ?_, ?_⟩, ?_⟩
  · -- not empty
    rw [hl']; simp only [Count, List.length_append, List.length_cons]; omega
  · -- starts at column 0
    show (nth l' 0).X = 0
    rw [hl']
    by_cases hb : b = 0
    · subst hb
      have hz : (0 : Int).toNat = 0 := rfl
      rw [hz, List.take_zero, List.nil_append]
      have := hwf.first
      simp only at this
      show (nth l 0).X = 0
      exact this
    · have hc : Count (l.take b.toNat) = b := by rw [Count_take l _ (by omega)]; omega
      rw [nth_append_left _ _ _ (Int.le_refl _) (by omega),
        nth_take l _ _ (Int.le_refl _) (by omega) (by omega)]
      exact hwf.first
  · -- every slice starts left of the border
    intro _ s hs1
    rw [hl'] at hs1
    simp only [List.mem_append, List.mem_cons] at hs1
    rcases hs1 with h | rfl | h | h
    · exact hxlt s (List.mem_of_mem_take h)
    · exact hxlt (nth l b) (nth_mem l b hb0 hb1)
    · obtain ⟨rfl, h2, -⟩ := hrest s h
      exact h2
    · exact hxlt s (List.mem_of_mem_drop h)
  · -- no height is negative
    intro s hs1
    rw [hl'] at hs1
    simp only [List.mem_append, List.mem_cons] at hs1
    rcases hs1 with h | rfl | h | h
    · exact hwf.ynn s (List.mem_of_mem_take h)
    · exact hbot
    · obtain ⟨rfl, -, -⟩ := hrest s h
      exact hwf.ynn (nth l (k - 1)) (nth_mem l (k - 1) (by omega) (by omega))
    · exact hwf.ynn s (List.mem_of_mem_drop h)
  · -- heights
    intro c hcW
    by_cases hc1 : c < (nth l b).X
    · -- left of the rectangle
      rw [if_neg (by omega), hl', heightAt_append, foldl_above]
      · conv_rhs => rw [← List.take_append_drop b.toNat l]
        rw [heightAt_append, foldl_above]
        intro s hs1
        obtain ⟨j, a1, a2, rfl⟩ := mem_drop_nth l _ s hs1
        have := hs.nth_le (i := b) (j := j) hb0 (by omega) a2
        omega
      · intro s hs1
        simp only [List.mem_append, List.mem_cons] at hs1
        rcases hs1 with rfl | h | h
        · exact hc1
        · obtain ⟨rfl, -, -⟩ := hrest s h
          simp only; omega
        · have := hdrop s h; omega
    · by_cases hc2 : c < (nth l b).X + width
      · -- under the rectangle
        rw [if_pos ⟨by omega, hc2⟩, hl', heightAt_append,
          foldl_head_le _ _ _ _ (by simp only; omega), foldl_above]
        intro s hs1
        simp only [List.mem_append] at hs1
        rcases hs1 with h | h
        · obtain ⟨rfl, -, -⟩ := hrest s h
          simp only; omega
        · have := hdrop s h; omega
      · -- right of the rectangle
        rw [if_neg (by omega), hl']
        have hkx : (nth l (k - 1)).X ≤ c := by
          by_cases hkb : k - 1 = b
          · rw [hkb]; omega
          · have := hk3 (k - 1) (by omega) (by omega); omega
        have horig : heightAt l c = (l.drop k.toNat).foldl
            (fun acc s => if s.X ≤ c then s.Y else acc) (nth l (k - 1)).Y := by
          conv_lhs => rw [← List.take_append_drop k.toNat l]
          rw [heightAt_append, heightAt_take l k c (by omega) hk2 hkx]
        rw [horig, heightAt_append]
        by_cases hhit : k < Count l ∧ (nth l k).X = (nth l b).X + width
        · rw [if_pos (Or.inl hhit)]
          have hdk : l.drop k.toNat = nth l k :: l.drop (k.toNat + 1) := by
            have hlt : k.toNat < l.length := by have := hhit.1; unfold Count at this; omega
            rw [List.drop_eq_getElem_cons hlt]
            unfold nth
            rw [List.getD_eq_getElem l Point.Zero hlt]
          simp only [List.nil_append]
          rw [foldl_head_le _ _ _ _ (by simp only; omega), hdk,
            foldl_head_le _ _ _ _ (by omega), foldl_head_le _ _ _ _ (by omega)]
        · rw [if_neg (by intro hcon; rcases hcon with h | h; exact hhit h; omega)]
          rw [foldl_head_le _ _ _ _ (by simp only; omega)]
          simp only [List.singleton_append]
          rw [foldl_head_le _ _ _ _ (by simp only; omega)]

/-! ### One `TryPack` call on a well-formed packer -/

namespace Exact

theorem TryPack_spec (p : CygonRectanglePacker) (hwf : WellFormed p) (w h : Int)
    (hw : 0 < w) (hh : 0 < h) :
    ∃ fits pt p', TryPack p w h = .ok (fits, pt, p') ∧ WellFormed p' ∧
      p'.PackingAreaWidth = p.PackingAreaWidth ∧ p'.PackingAreaHeight = p.PackingAreaHeight ∧
      (fits = false → p' = p ∧ pt = Point.Zero) ∧
      (fits = true → 0 ≤ pt.X ∧ 0 ≤ pt.Y ∧ pt.X + w ≤ p.PackingAreaWidth ∧
        pt.Y + h < p.PackingAreaHeight ∧
        (∃ b, 0 ≤ b ∧ b < Count p.heightSlices ∧ (nth p.heightSlices b).X = pt.X) ∧
        (∀ c, pt.X ≤ c → c < pt.X + w → heightAt p.heightSlices c ≤ pt.Y) ∧
        (∀ c, c < p.PackingAreaWidth → heightAt p'.heightSlices c =
          if pt.X ≤ c ∧ c < pt.X + w then pt.Y + h else heightAt p.heightSlices c)) := by
  by_cases hbig : w > p.PackingAreaWidth ∨ h > p.PackingAreaHeight
  · refine ⟨false, Point.Zero, p, by unfold TryPack; rw [if_pos hbig]; rfl, hwf, rfl, rfl,
      fun _ => ⟨rfl, rfl⟩, ?_⟩
    intro hcon; cases hcon
  · obtain ⟨fits, pt, hf1, hf2, hf3⟩ := tryFindBestPlacement_spec p hwf w h hw (by omega)
    cases fits with
    | false =>
      refine ⟨false, pt, p, ?_, hwf, rfl, rfl, fun _ => ⟨rfl, hf2 rfl⟩, ?_⟩
      · unfold TryPack; rw [if_neg hbig]; simp only [hf1, bind, Except.bind]; rfl
      · intro hcon; cases hcon
    | true =>
      obtain ⟨b, ⟨hb0, hb1, hg1, hg2, hg3, hg4⟩, hbx⟩ := hf3 rfl
      obtain ⟨k, hk1, hk2, hk3, hk4, hk5⟩ := integrateRectangle_hit p hwf b w (pt.Y + h) hb0 hb1
      have hprops := integrated_props p.PackingAreaWidth p.PackingAreaHeight p.heightSlices hwf
        b k w (pt.Y + h) hb0 hb1 hw hg1 (by omega) hk1 hk2 hk3 hk4 _ rfl
      rw [← hbx] at hk5 hprops
      refine ⟨true, pt, ⟨p.PackingAreaWidth, p.PackingAreaHeight, _⟩, ?_, hprops.1, rfl, rfl,
        ?_, fun _ => ⟨?_, hg3, by omega, hg2, ⟨b, hb0, hb1, hbx.symm⟩, ?_, hprops.2⟩⟩
      · unfold TryPack; rw [if_neg hbig]
        simp only [hf1, bind, Except.bind, hk5]; rfl
      · intro hcon; cases hcon
      · have := hwf.sorted.nth_le (i := 0) (j := b) (Int.le_refl _) hb0 hb1
        have := hwf.first
        omega
      · intro c hc1 hc2
        exact hg4 c (by omega) (by omega)

end Exact

theorem WellFormed_create (W H : Int) : WellFormed (CygonRectanglePacker.create W H) := by
  refine ⟨List.pairwise_singleton _ _, Int.one_pos, rfl, ?_, ?_⟩
  · intro hW s hs
    have : s = ⟨0, 0⟩ := by simpa [CygonRectanglePacker.create, Add] using hs
    subst this; exact hW
  · intro s hs
    have : s = ⟨0, 0⟩ := by simpa [CygonRectanglePacker.create, Add] using hs
    subst this; exact Int.le_refl _

namespace Exact

theorem Reachable.wellFormed {p : CygonRectanglePacker} (hr : Reachable p) : WellFormed p := by
  induction hr with
  | fresh W H => exact WellFormed_create W H
  | step _ hw hh hstep ih =>
    obtain ⟨fits, pt, p', h1, h2, -⟩ := TryPack_spec _ ih _ _ hw hh
    rw [h1] at hstep
    injection hstep with hstep
    injection hstep with _ hstep
    injection hstep with _ hstep
    rw [← hstep]; exact h2

end Exact

/-! ### Sequences of `TryPack` calls -/

theorem accepted_cons_true (r : Rectangle) (rs : List (Bool × Rectangle)) :
    accepted ((true, r) :: rs) = r :: accepted rs := by
  simp [accepted]

theorem accepted_cons_false (r : Rectangle) (rs : List (Bool × Rectangle)) :
    accepted ((false, r) :: rs) = accepted rs := by
  simp [accepted]

namespace Exact

/-- The invariant behind the packer: all calls return, the silhouette stays well formed and
above every placed rectangle, and the placed rectangles do not overlap. -/
theorem packSequence_spec (reqs : List (Int × Int)) :
    ∀ (p : CygonRectanglePacker) (prev : List Rectangle), WellFormed p → Covered p prev →
      prev.Pairwise (fun a b => ¬ a.Overlaps b) → (∀ r ∈ reqs, 0 < r.1 ∧ 0 < r.2) →
      ∃ results p', packSequence p reqs = .ok (results, p') ∧ WellFormed p' ∧
        p'.PackingAreaWidth = p.PackingAreaWidth ∧
        p'.PackingAreaHeight = p.PackingAreaHeight ∧
        Covered p' (prev ++ accepted results) ∧
        (prev ++ accepted results).Pairwise (fun a b => ¬ a.Overlaps b) ∧
        results.map (fun r => (r.2.Width, r.2.Height)) = reqs ∧
        (∀ r ∈ accepted results, r.Y + r.Height < p.PackingAreaHeight) := by
  induction reqs with
  | nil =>
    intro p prev hwf hcov hpw _
    refine ⟨[], p, rfl, hwf, rfl, rfl, ?_, ?_, rfl, ?_⟩
    · simpa [accepted] using hcov
    · simpa [accepted] using hpw
    · intro r hr; simp [accepted] at hr
  | cons req rest ih =>
    intro p prev hwf hcov hpw hpos
    obtain ⟨w, h⟩ := req
    have hwh := hpos (w, h) (List.mem_cons_self _ _)
    simp only at hwh
    have hpos' : ∀ r ∈ rest, 0 < r.1 ∧ 0 < r.2 := fun r hr => hpos r (List.mem_cons_of_mem _ hr)
    obtain ⟨fits, pt, p1, ht, hwf1, hW1, hH1, hfalse, htrue⟩ := TryPack_spec p hwf w h hwh.1 hwh.2
    cases fits with
    | false =>
      obtain ⟨rfl, -⟩ := hfalse rfl
      obtain ⟨results, p', hr1, hr2, hr3, hr4, hr5, hr6, hr7, hr8⟩ := ih p1 prev hwf hcov hpw hpos'
      refine ⟨(false, ⟨pt.X, pt.Y, w, h⟩) :: results, p', ?_, hr2, hr3, hr4, ?_, ?_, ?_, ?_⟩
      · unfold packSequence; simp only [ht, bind, Except.bind, hr1]; rfl
      · rw [accepted_cons_false]; exact hr5
      · rw [accepted_cons_false]; exact hr6
      · simp only [List.map_cons, hr7]
      · rw [accepted_cons_false]; exact hr8
    | true =>
      obtain ⟨hx0, hy0, hxW, hyH, -, hbelow, hnew⟩ := htrue rfl
      -- the old rectangles stay covered, the new one is covered
      have hcov1 : Covered p1 (prev ++ [⟨pt.X, pt.Y, w, h⟩]) := by
        intro r hr
        rcases List.mem_append.mp hr with hr | hr
        · obtain ⟨a1, a2, a3, a4⟩ := hcov r hr
          refine ⟨a1, a2, by rw [hW1, hH1]; exact a3, ?_⟩
          intro c hc1 hc2
          have hcW : c < p.PackingAreaWidth := by have := a3.2.2.1; omega
          rw [hnew c hcW]
          have := a4 c hc1 hc2
          split
          · have := hbelow c (by omega) (by omega); omega
          · exact this
        · rw [List.mem_singleton.mp hr]
          refine ⟨hwh.1, hwh.2, ⟨hx0, hy0, by rw [hW1]; exact hxW, by rw [hH1]; simp only; omega⟩, ?_⟩
          intro c hc1 hc2
          simp only at hc1 hc2
          rw [hnew c (by omega), if_pos ⟨hc1, hc2⟩]
      have hpw1 : (prev ++ [(⟨pt.X, pt.Y, w, h⟩ : Rectangle)]).Pairwise
          (fun a b => ¬ a.Overlaps b) := by
        rw [List.pairwise_append]
        refine ⟨hpw, List.pairwise_singleton _ _, ?_⟩
        intro r hr s hs
        rw [List.mem_singleton.mp hs]
        rintro ⟨cx, cy, ⟨b1, b2, b3, b4⟩, ⟨c1, c2, c3, c4⟩⟩
        simp only at c1 c2 c3 c4
        obtain ⟨-, -, -, a4⟩ := hcov r hr
        have := a4 cx b1 b2
        have := hbelow cx c1 c2
        omega
      obtain ⟨results, p', hr1, hr2, hr3, hr4, hr5, hr6, hr7, hr8⟩ :=
        ih p1 (prev ++ [⟨pt.X, pt.Y, w, h⟩]) hwf1 hcov1 hpw1 hpos'
      refine ⟨(true, ⟨pt.X, pt.Y, w, h⟩) :: results, p', ?_, hr2, by omega, by omega, ?_, ?_, ?_, ?_⟩
      · unfold packSequence; simp only [ht, bind, Except.bind, hr1]; rfl
      · rw [accepted_cons_true]; simpa using hr5
      · rw [accepted_cons_true]; simpa using hr6
      · simp only [List.map_cons, hr7]
      · rw [accepted_cons_true]
        intro r hr
        rcases List.mem_cons.mp hr with rfl | hr
        · exact hyH
        · rw [← hH1]; exact hr8 r hr

end Exact

/-! ### `TryPack` never raises the out-of-space exception -/

/-! ### The size search -/

namespace Exact

theorem packSequence_total (reqs : List (Int × Int)) (p : CygonRectanglePacker)
    (hwf : WellFormed p) (hpos : ∀ r ∈ reqs, 0 < r.1 ∧ 0 < r.2) :
    ∃ results p', packSequence p reqs = .ok (results, p') := by
  obtain ⟨results, p', h, -⟩ := packSequence_spec reqs p [] hwf
    (fun r hr => by cases hr) List.Pairwise.nil hpos
  exact ⟨results, p', h⟩

/-- The loop with `break` agrees with the full sequence of calls: it reports `failed` exactly
when some call of the sequence returns false. -/
theorem tryPackAll_eq (rects : List Rectangle) :
    ∀ p : CygonRectanglePacker, WellFormed p → (∀ r ∈ rects, 0 < r.Width ∧ 0 < r.Height) →
      ∃ results p', packSequence p (rects.map (fun b => (b.Width + 1, b.Height + 1))) =
          .ok (results, p') ∧
        tryPackAll p rects = .ok (results.any (fun r => !r.1)) := by
  induction rects with
  | nil => intro p _ _; exact ⟨[], p, rfl, rfl⟩
  | cons r rest ih =>
    intro p hwf hpos
    have hr := hpos r (List.mem_cons_self _ _)
    have hpos' : ∀ x ∈ rest, 0 < x.Width ∧ 0 < x.Height :=
      fun x hx => hpos x (List.mem_cons_of_mem _ hx)
    obtain ⟨fits, pt, p1, ht, hwf1, -, -, hfalse, -⟩ :=
      TryPack_spec p hwf (r.Width + 1) (r.Height + 1) (by omega) (by omega)
    cases fits with
    | false =>
      obtain ⟨results, p', hs⟩ := packSequence_total
        (rest.map (fun b => (b.Width + 1, b.Height + 1))) p1 hwf1 (by
          intro x hx
          obtain ⟨y, hy, rfl⟩ := List.mem_map.mp hx
          have := hpos' y hy
          simp only; omega)
      refine ⟨(false, ⟨pt.X, pt.Y, r.Width + 1, r.Height + 1⟩) :: results, p', ?_, ?_⟩
      · simp only [List.map_cons, packSequence, ht, bind, Except.bind, hs]; rfl
      · simp only [tryPackAll, ht, bind, Except.bind]; rfl
    | true =>
      obtain ⟨results, p', hs1, hs2⟩ := ih p1 hwf1 hpos'
      refine ⟨(true, ⟨pt.X, pt.Y, r.Width + 1, r.Height + 1⟩) :: results, p', ?_, ?_⟩
      · simp only [List.map_cons, packSequence, ht, bind, Except.bind, hs1]; rfl
      · simp only [tryPackAll, ht, bind, Except.bind]
        simpa using hs2

end Exact

theorem kept_positive (measured : List Rectangle) :
    ∀ r ∈ measured.filter (fun b => b.Width > 0 ∧ b.Height > 0), 0 < r.Width ∧ 0 < r.Height := by
  intro r hr
  have := (List.mem_filter.mp hr).2
  simpa using this

namespace Exact

/-- One candidate size: the trial either reports that all requests fit or that one fails,
in agreement with the full sequence of `TryPack` calls. -/
theorem trial_cases (measured : List Rectangle) (size : Int) :
    (tryPackAll (CygonRectanglePacker.create size size)
        (measured.filter (fun b => b.Width > 0 ∧ b.Height > 0)) = .ok false ∧
      AllFit size (paddedRequests measured) ∧ ¬ SomeFails size (paddedRequests measured)) ∨
    (tryPackAll (CygonRectanglePacker.create size size)
        (measured.filter (fun b => b.Width > 0 ∧ b.Height > 0)) = .ok true ∧
      SomeFails size (paddedRequests measured) ∧ ¬ AllFit size (paddedRequests measured)) := by
  obtain ⟨results, p', h1, h2⟩ := tryPackAll_eq _ (CygonRectanglePacker.create size size)
    (WellFormed_create size size) (kept_positive measured)
  cases hany : results.any (fun r => !r.1) with
  | false =>
    left
    rw [hany] at h2
    have hall : ∀ r ∈ results, r.1 = true := by
      intro r hr
      have := List.any_eq_false.mp hany r hr
      simpa using this
    refine ⟨h2, ⟨results, p', h1, hall⟩, ?_⟩
    rintro ⟨results2, p2, h3, r, hr, hrf⟩
    have h3' : packSequence (CygonRectanglePacker.create size size)
        ((measured.filter (fun b => b.Width > 0 ∧ b.Height > 0)).map
          (fun b => (b.Width + 1, b.Height + 1))) = .ok (results2, p2) := h3
    rw [h1] at h3'
    injection h3' with h3'
    injection h3' with h3' _
    subst h3'
    have := hall r hr
    rw [hrf] at this; cases this
  | true =>
    right
    rw [hany] at h2
    obtain ⟨r, hr, hrf⟩ := List.any_eq_true.mp hany
    have hrf' : r.1 = false := by simpa using hrf
    refine ⟨h2, ⟨results, p', h1, r, hr, hrf'⟩, ?_⟩
    rintro ⟨results2, p2, h3, hall⟩
    have h3' : packSequence (CygonRectanglePacker.create size size)
        ((measured.filter (fun b => b.Width > 0 ∧ b.Height > 0)).map
          (fun b => (b.Width + 1, b.Height + 1))) = .ok (results2, p2) := h3
    rw [h1] at h3'
    injection h3' with h3'
    injection h3' with h3' _
    subst h3'
    have := hall r hr
    rw [hrf'] at this; cases this

/-- The loop over the candidate powers returns the first size at which all requests fit and
raises the out-of-space exception when there is none. -/
theorem sizeLoop_spec (measured : List Rectangle) (powers : List Nat) :
    (∃ pre power post, powers = pre ++ power :: post ∧
      sizeLoop (measured.filter (fun b => b.Width > 0 ∧ b.Height > 0)) powers =
        .ok ((2 : Int) ^ power) ∧
      AllFit ((2 : Int) ^ power) (paddedRequests measured) ∧
      ∀ q ∈ pre, SomeFails ((2 : Int) ^ q) (paddedRequests measured)) ∨
    (sizeLoop (measured.filter (fun b => b.Width > 0 ∧ b.Height > 0)) powers =
        .error Exn.OutOfSpace ∧
      ∀ q ∈ powers, SomeFails ((2 : Int) ^ q) (paddedRequests measured)) := by
  induction powers with
  | nil => right; exact ⟨rfl, fun q hq => by cases hq⟩
  | cons power rest ih =>
    rcases trial_cases measured ((2 : Int) ^ power) with ⟨h1, h2, -⟩ | ⟨h1, h2, -⟩
    · left
      refine ⟨[], power, rest, rfl, ?_, h2, fun q hq => by cases hq⟩
      simp only [sizeLoop, h1, bind, Except.bind]; rfl
    · have hstep : sizeLoop (measured.filter (fun b => b.Width > 0 ∧ b.Height > 0))
          (power :: rest) =
          sizeLoop (measured.filter (fun b => b.Width > 0 ∧ b.Height > 0)) rest := by
        simp only [sizeLoop, h1, bind, Except.bind]; rfl
      rcases ih with ⟨pre, pw, post, e1, e2, e3, e4⟩ | ⟨e1, e2⟩
      · left
        refine ⟨power :: pre, pw, post, by rw [e1]; rfl, by rw [hstep]; exact e2, e3, ?_⟩
        intro q hq
        rcases List.mem_cons.mp hq with rfl | hq
        · exact h2
        · exact e4 q hq
      · right
        refine ⟨by rw [hstep]; exact e1, ?_⟩
        intro q hq
        rcases List.mem_cons.mp hq with rfl | hq
        · exact h2
        · exact e2 q hq

theorem AllFit_not_SomeFails (size : Int) (reqs : List (Int × Int))
    (h : AllFit size reqs) : ¬ SomeFails size reqs := by
  obtain ⟨results, p', h1, hall⟩ := h
  rintro ⟨results2, p2, h3, r, hr, hrf⟩
  rw [h1] at h3
  injection h3 with h3
  injection h3 with h3 _
  subst h3
  have := hall r hr
  rw [hrf] at this; cases this

end Exact

theorem accepted_of_all_true (results : List (Bool × Rectangle))
    (h : ∀ r ∈ results, r.1 = true) : accepted results = results.map (fun r => r.2) := by
  unfold accepted
  rw [List.filter_eq_self.mpr h]

namespace Exact

theorem AllFit_Packable (size : Int) (reqs : List (Int × Int))
    (hpos : ∀ r ∈ reqs, 0 < r.1 ∧ 0 < r.2) (h : AllFit size reqs) : Packable size reqs := by
  obtain ⟨results, p', h1, hall⟩ := h
  obtain ⟨results2, p2, g1, -, gW, gH, gcov, gpw, gdims, -⟩ := packSequence_spec reqs
    (CygonRectanglePacker.create size size) [] (WellFormed_create size size)
    (fun r hr => by cases hr) List.Pairwise.nil hpos
  rw [h1] at g1
  injection g1 with g1
  injection g1 with g1 g2
  subst g1; subst g2
  rw [List.nil_append, accepted_of_all_true results hall] at gcov gpw
  refine ⟨results.map (fun r => r.2), ?_, ?_, gpw⟩
  · rw [List.map_map]; exact gdims
  · intro r hr
    have := (gcov r hr).2.2.1
    rw [gW, gH] at this
    exact this

end Exact

theorem candidates_split (pre post : List Nat) (power : Nat)
    (h : [6, 7, 8, 9, 10, 11] = pre ++ power :: post) :
    (2 : Int) ^ power ∈ candidateSizes ∧
    ∀ c ∈ candidateSizes, c < (2 : Int) ^ power → ∃ q ∈ pre, c = (2 : Int) ^ q := by
  rcases pre with _ | ⟨a1, _ | ⟨a2, _ | ⟨a3, _ | ⟨a4, _ | ⟨a5, _ | ⟨a6, pre⟩⟩⟩⟩⟩⟩ <;>
    simp only [List.nil_append, List.cons_append, List.cons.injEq] at h
  · obtain ⟨rfl, -⟩ := h
    refine ⟨by decide, ?_⟩
    intro c hc hlt
    simp only [candidateSizes, List.mem_cons, List.mem_singleton, List.not_mem_nil, or_false] at hc
    omega
  · obtain ⟨rfl, rfl, -⟩ := h
    refine ⟨by decide, ?_⟩
    intro c hc hlt
    simp only [candidateSizes, List.mem_cons, List.mem_singleton, List.not_mem_nil, or_false] at hc
    have : c = 64 := by omega
    exact ⟨6, by simp, by rw [this]; rfl⟩
  · obtain ⟨rfl, rfl, rfl, -⟩ := h
    refine ⟨by decide, ?_⟩
    intro c hc hlt
    simp only [candidateSizes, List.mem_cons, List.mem_singleton, List.not_mem_nil, or_false] at hc
    have : c = 64 ∨ c = 128 := by omega
    rcases this with rfl | rfl
    · exact ⟨6, by simp, rfl⟩
    · exact ⟨7, by simp, rfl⟩
  · obtain ⟨rfl, rfl, rfl, rfl, -⟩ := h
    refine ⟨by decide, ?_⟩
    intro c hc hlt
    simp only [candidateSizes, List.mem_cons, List.mem_singleton, List.not_mem_nil, or_false] at hc
    have : c = 64 ∨ c = 128 ∨ c = 256 := by omega
    rcases this with rfl | rfl | rfl
    · exact ⟨6, by simp, rfl⟩
    · exact ⟨7, by simp, rfl⟩
    · exact ⟨8, by simp, rfl⟩
  · obtain ⟨rfl, rfl, rfl, rfl, rfl, -⟩ := h
    refine ⟨by decide, ?_⟩
    intro c hc hlt
    simp only [candidateSizes, List.mem_cons, List.mem_singleton, List.not_mem_nil, or_false] at hc
    have : c = 64 ∨ c = 128 ∨ c = 256 ∨ c = 512 := by omega
    rcases this with rfl | rfl | rfl | rfl
    · exact ⟨6, by simp, rfl⟩
    · exact ⟨7, by simp, rfl⟩
    · exact ⟨8, by simp, rfl⟩
    · exact ⟨9, by simp, rfl⟩
  · obtain ⟨rfl, rfl, rfl, rfl, rfl, rfl, -⟩ := h
    refine ⟨by decide, ?_⟩
    intro c hc hlt
    simp only [candidateSizes, List.mem_cons, List.mem_singleton, List.not_mem_nil, or_false] at hc
    have : c = 64 ∨ c = 128 ∨ c = 256 ∨ c = 512 ∨ c = 1024 := by omega
    rcases this with rfl | rfl | rfl | rfl | rfl
    · exact ⟨6, by simp, rfl⟩
    · exact ⟨7, by simp, rfl⟩
    · exact ⟨8, by simp, rfl⟩
    · exact ⟨9, by simp, rfl⟩
    · exact ⟨10, by simp, rfl⟩
  · obtain ⟨-, -, -, -, -, -, h⟩ := h
    cases pre <;> simp at h

theorem candidates_powers (c : Int) (hc : c ∈ candidateSizes) :
    ∃ q ∈ [6, 7, 8, 9, 10, 11], c = (2 : Int) ^ q := by
  simp only [candidateSizes, List.mem_cons, List.mem_singleton, List.not_mem_nil, or_false] at hc
  rcases hc with rfl | rfl | rfl | rfl | rfl | rfl
  · exact ⟨6, by simp, rfl⟩
  · exact ⟨7, by simp, rfl⟩
  · exact ⟨8, by simp, rfl⟩
  · exact ⟨9, by simp, rfl⟩
  · exact ⟨10, by simp, rfl⟩
  · exact ⟨11, by simp, rfl⟩

namespace Exact

/-- What the size search does: it returns the first candidate at which all requests fit,
after failures at all smaller candidates, or raises the out-of-space exception after
failures at all candidates. -/
theorem determineOptimalTextureSize_spec (measured : List Rectangle) :
    (∃ s, determineOptimalTextureSize measured = .ok s ∧ s ∈ candidateSizes ∧
      AllFit s (paddedRequests measured) ∧
      ∀ c ∈ candidateSizes, c < s → SomeFails c (paddedRequests measured)) ∨
    (determineOptimalTextureSize measured = .error Exn.OutOfSpace ∧
      ∀ c ∈ candidateSizes, SomeFails c (paddedRequests measured)) := by
  rcases sizeLoop_spec measured [6, 7, 8, 9, 10, 11] with
    ⟨pre, power, post, e1, e2, e3, e4⟩ | ⟨e1, e2⟩
  · left
    obtain ⟨hmem, hsmall⟩ := candidates_split pre post power e1
    refine ⟨(2 : Int) ^ power, e2, hmem, e3, ?_⟩
    intro c hc hlt
    obtain ⟨q, hq, rfl⟩ := hsmall c hc hlt
    exact e4 q hq
  · right
    refine ⟨e1, ?_⟩
    intro c hc
    obtain ⟨q, hq, rfl⟩ := candidates_powers c hc
    exact e2 q hq

end Exact

theorem paddedRequests_positive (measured : List Rectangle) :
    ∀ r ∈ paddedRequests measured, 0 < r.1 ∧ 0 < r.2 := by
  intro r hr
  obtain ⟨b, hb, rfl⟩ := List.mem_map.mp hr
  have := kept_positive measured b hb
  simp only; omega

/-! ### Replaying a successful trial with `Pack` -/

namespace Exact

theorem Pack_of_TryPack_true (p : CygonRectanglePacker) (w h : Int) (pt : Point)
    (p1 : CygonRectanglePacker) (ht : TryPack p w h = .ok (true, pt, p1)) :
    Pack p w h = .ok (pt, p1) := by
  unfold Pack; rw [ht]; rfl

/-- When every `TryPack` call of a sequence returns true, the same sequence of `Pack` calls
raises nothing and gives the same placements and the same final packer. -/
theorem packAll_of_all_true (reqs : List (Int × Int)) :
    ∀ (p : CygonRectanglePacker) (results : List (Bool × Rectangle))
      (p' : CygonRectanglePacker), packSequence p reqs = .ok (results, p') →
      (∀ r ∈ results, r.1 = true) →
      packAll p reqs = .ok (results.map (fun r => (⟨r.2.X, r.2.Y⟩ : Point)), p') := by
  induction reqs with
  | nil =>
    intro p results p' hs _
    injection hs with hs
    injection hs with h1 h2
    subst h1; subst h2; rfl
  | cons req rest ih =>
    intro p results p' hs hall
    obtain ⟨w, h⟩ := req
    unfold packSequence at hs
    cases ht : TryPack p w h with
    | error e => rw [ht] at hs; cases hs
    | ok res =>
      obtain ⟨fits, pt, p1⟩ := res
      rw [ht] at hs
      cases hrest : packSequence p1 rest with
      | error e => simp only [bind, Except.bind, hrest] at hs; cases hs
      | ok res2 =>
        obtain ⟨results1, p2⟩ := res2
        simp only [bind, Except.bind, hrest, pure, Except.pure] at hs
        injection hs with hs
        injection hs with h1 h2
        subst h1; subst h2
        have hfits : fits = true := hall (fits, ⟨pt.X, pt.Y, w, h⟩) (List.mem_cons_self _ _)
        subst hfits
        have hrec := ih p1 results1 p2 hrest (fun r hr => hall r (List.mem_cons_of_mem _ hr))
        unfold packAll
        simp only [Pack_of_TryPack_true p w h pt p1 ht, bind, Except.bind, hrec, List.map_cons]
        rfl

end Exact

/-! ### `TryPack` on a silhouette of one column of rectangles -/

namespace Exact

theorem TryPack_single_accept (W H S w h : Int) (hw : 0 < w) (hwW : w ≤ W) (hh : 0 < h)
    (hS : 0 ≤ S) (hfit : S + h < H) :
    TryPack ⟨W, H, [⟨0, S⟩]⟩ w h =
      .ok (true, ⟨0, S⟩, ⟨W, H, if w < W then [⟨0, S + h⟩, ⟨w, S⟩] else [⟨0, S + h⟩]⟩) := by
  have hne : w ≠ 0 := by omega
  have hWH : S < W * H := by nlinarith
  have h1 : ¬ (W < w ∨ H < h) := by omega
  simp [TryPack, tryFindBestPlacement, searchLoop, highestLoop, advanceRight,
    integrateRectangle, integrateStart, integrateEnd, setItem, Insert, RemoveRange, Add,
    BinarySearch, BinarySearchRange, BinarySearchLoop, Count, getItem,
    SliceStartComparer.Compare, bnot, bind, Except.bind, pure, Except.pure, hne, hw, h1, hfit,
    hWH]
  split_ifs <;> simp_all

theorem TryPack_single_reject (W H S w h : Int) (hw : 0 < w) (hfit : ¬ S + h < H) :
    TryPack ⟨W, H, [⟨0, S⟩]⟩ w h = .ok (false, ⟨0, 0⟩, ⟨W, H, [⟨0, S⟩]⟩) := by
  have hne : w ≠ 0 := by omega
  by_cases h1 : W < w ∨ H < h
  · simp [TryPack, h1, Point.Zero, pure, Except.pure]
  · simp [TryPack, tryFindBestPlacement, searchLoop, highestLoop, advanceRight,
      BinarySearch, BinarySearchRange, BinarySearchLoop, Count, getItem,
      SliceStartComparer.Compare, bnot, bind, Except.bind, pure, Except.pure, hne, hw, h1, hfit,
      Point.Zero]

theorem TryPack_pair_accept (W H S w h : Int) (hwW : w < W) (hW2 : W < 2 * w) (hh : 0 < h)
    (hS : 0 ≤ S) (hfit : S + h < H) :
    TryPack ⟨W, H, [⟨0, S⟩, ⟨w, 0⟩]⟩ w h =
      .ok (true, ⟨0, S⟩, ⟨W, H, [⟨0, S + h⟩, ⟨w, 0⟩]⟩) := by
  have hw : 0 < w := by omega
  have hne : w ≠ 0 := by omega
  have hWH : S < W * H := by nlinarith
  have h1 : ¬ (W < w ∨ H < h) := by omega
  have h2 : ¬ (w + w < w) := by omega
  have h3 : ¬ (w + w < W) := by omega
  simp [TryPack, tryFindBestPlacement, searchLoop, highestLoop, advanceRight,
    integrateRectangle, integrateStart, integrateEnd, setItem, Insert, RemoveRange, Add,
    BinarySearch, BinarySearchRange, BinarySearchLoop, Count, getItem,
    SliceStartComparer.Compare, bnot, bind, Except.bind, pure, Except.pure, hne, hw, h1, hfit,
    hWH, h2, h3]

theorem TryPack_pair_reject (W H S w h : Int) (hwW : w < W) (hW2 : W < 2 * w)
    (hfit : ¬ S + h < H) :
    TryPack ⟨W, H, [⟨0, S⟩, ⟨w, 0⟩]⟩ w h = .ok (false, ⟨0, 0⟩, ⟨W, H, [⟨0, S⟩, ⟨w, 0⟩]⟩) := by
  have hw : 0 < w := by omega
  have hne : w ≠ 0 := by omega
  have h2 : ¬ (w + w < w) := by omega
  have h3 : ¬ (w + w < W) := by omega
  by_cases h1 : W < w ∨ H < h
  · simp [TryPack, h1, Point.Zero, pure, Except.pure]
  · simp [TryPack, tryFindBestPlacement, searchLoop, highestLoop, advanceRight,
      BinarySearch, BinarySearchRange, BinarySearchLoop, Count, getItem,
      SliceStartComparer.Compare, bnot, bind, Except.bind, pure, Except.pure, hne, hw, h1, hfit,
      Point.Zero, h2, h3]

theorem packSequence_cons (p p1 : CygonRectanglePacker) (w h : Int) (fits : Bool) (pt : Point)
    (rest : List (Int × Int)) (ht : TryPack p w h = .ok (fits, pt, p1)) :
    packSequence p ((w, h) :: rest) =
      (packSequence p1 rest >>= fun r => pure ((fits, ⟨pt.X, pt.Y, w, h⟩) :: r.1, r.2)) := by
  simp only [packSequence, ht, bind, Except.bind]

/-- Full-width requests on a silhouette of one slice are stacked, whatever follows them. -/
theorem packSequence_stacked (W H : Int) (hW : 0 < W) (more : List (Int × Int))
    (hs : List Int) :
    ∀ S, 0 ≤ S → (∀ h ∈ hs, 0 < h) → S + hs.sum < H →
      packSequence ⟨W, H, [⟨0, S⟩]⟩ (hs.map (fun h => (W, h)) ++ more) =
        (packSequence ⟨W, H, [⟨0, S + hs.sum⟩]⟩ more >>= fun r =>
          pure (stackedResults W S hs ++ r.1, r.2)) := by
  induction hs with
  | nil =>
    intro S _ _ _
    simp only [List.map_nil, List.nil_append, List.sum_nil, Int.add_zero, stackedResults]
    cases packSequence ⟨W, H, [⟨0, S⟩]⟩ more <;> rfl
  | cons h hs ih =>
    intro S hS hpos hsum
    have hh : 0 < h := hpos h (List.mem_cons_self _ _)
    have hpos' : ∀ x ∈ hs, 0 < x := fun x hx => hpos x (List.mem_cons_of_mem _ hx)
    have hnn : 0 ≤ hs.sum := List.sum_nonneg (fun x hx => Int.le_of_lt (hpos' x hx))
    rw [List.sum_cons] at hsum
    have hstep := TryPack_single_accept W H S W h hW (Int.le_refl _) hh hS (by omega)
    rw [if_neg (by omega)] at hstep
    rw [List.map_cons, List.cons_append, packSequence_cons _ _ _ _ _ _ _ hstep,
      ih (S + h) (by omega) hpos' (by omega), List.sum_cons]
    have e : S + h + hs.sum = S + (h + hs.sum) := by omega
    rw [e]
    cases packSequence ⟨W, H, [⟨0, S + (h + hs.sum)⟩]⟩ more <;> rfl

/-- Requests of one width `w` with `W < 2 * w` pile up in one column at `x = 0`. -/
theorem packSequence_column (W H w : Int) (hwW : w ≤ W) (hW2 : W < 2 * w) (hs : List Int) :
    ∀ (S : Int) (l : List Point), 0 ≤ S → (∀ h ∈ hs, 0 < h) →
      ((l = [⟨0, S⟩] ∧ (w = W ∨ S = 0)) ∨ (w < W ∧ l = [⟨0, S⟩, ⟨w, 0⟩])) →
      ∃ p', packSequence ⟨W, H, l⟩ (hs.map (fun h => (w, h))) =
        .ok (columnResults H w S hs, p') := by
  have hw : 0 < w := by omega
  induction hs with
  | nil => intro S l _ _ _; exact ⟨_, rfl⟩
  | cons h hs ih =>
    intro S l hS hpos hl
    have hh : 0 < h := hpos h (List.mem_cons_self _ _)
    have hpos' : ∀ x ∈ hs, 0 < x := fun x hx => hpos x (List.mem_cons_of_mem _ hx)
    by_cases hfit : S + h < H
    · -- accepted
      have hstep : ∃ l1, TryPack ⟨W, H, l⟩ w h = .ok (true, ⟨0, S⟩, ⟨W, H, l1⟩) ∧
          ((l1 = [⟨0, S + h⟩] ∧ (w = W ∨ S + h = 0)) ∨ (w < W ∧ l1 = [⟨0, S + h⟩, ⟨w, 0⟩])) := by
        rcases hl with ⟨rfl, hc⟩ | ⟨hlt, rfl⟩
        · by_cases hlt : w < W
          · have hS0 : S = 0 := by omega
            refine ⟨_, TryPack_single_accept W H S w h hw hwW hh hS hfit, ?_⟩
            rw [if_pos hlt, hS0]
            exact Or.inr ⟨hlt, rfl⟩
          · refine ⟨_, TryPack_single_accept W H S w h hw hwW hh hS hfit, ?_⟩
            rw [if_neg hlt]
            exact Or.inl ⟨rfl, Or.inl (by omega)⟩
        · exact ⟨_, TryPack_pair_accept W H S w h hlt hW2 hh hS hfit, Or.inr ⟨hlt, rfl⟩⟩
      obtain ⟨l1, ht, hl1⟩ := hstep
      obtain ⟨p', hp'⟩ := ih (S + h) l1 (by omega) hpos' hl1
      refine ⟨p', ?_⟩
      rw [List.map_cons, packSequence_cons _ _ _ _ _ _ _ ht, hp']
      simp only [columnResults, if_pos hfit]
      rfl
    · -- refused
      have hstep : TryPack ⟨W, H, l⟩ w h = .ok (false, ⟨0, 0⟩, ⟨W, H, l⟩) := by
        rcases hl with ⟨rfl, -⟩ | ⟨hlt, rfl⟩
        · exact TryPack_single_reject W H S w h hw hfit
        · exact TryPack_pair_reject W H S w h hlt hW2 hfit
      obtain ⟨p', hp'⟩ := ih S l hS hpos' hl
      refine ⟨p', ?_⟩
      rw [List.map_cons, packSequence_cons _ _ _ _ _ _ _ hstep, hp']
      simp only [columnResults, if_neg hfit]
      rfl

end Exact

/-! ### The record of evaluated candidates -/

namespace Exact

/-- Forgetting the record gives back the loop of `tryFindBestPlacement`. -/
theorem searchLoopTrace_fst (p : CygonRectanglePacker) (w h : Int) :
    ∀ (fuel : Nat) (s : SearchState) (record : List (Int × Int)),
      (searchLoopTrace p w h fuel s record).map Prod.fst = searchLoop p w h fuel s := by
  intro fuel
  induction fuel with
  | zero =>
    intro s record
    unfold searchLoop searchLoopTrace
    split <;> rfl
  | succ n ih =>
    intro s record
    unfold searchLoop searchLoopTrace
    split
    · cases getItem p.heightSlices s.leftSliceIndex with
      | error e => rfl
      | ok first =>
        simp only [bind, Except.bind]
        cases highestLoop p.heightSlices s.rightSliceIndex
            (s.rightSliceIndex - (s.leftSliceIndex + 1)).toNat (s.leftSliceIndex + 1)
            first.Y with
        | error e => rfl
        | ok highest =>
          simp only
          split
          · rfl
          · cases getItem p.heightSlices (s.leftSliceIndex + 1) with
            | error e => rfl
            | ok left =>
              simp only
              cases advanceRight p.heightSlices p.PackingAreaWidth (left.X + w)
                  (Count p.heightSlices + 1 - s.rightSliceIndex).toNat s.rightSliceIndex with
              | error e => rfl
              | ok r =>
                simp only
                split
                · rfl
                · exact ih _ _
    · rfl

end Exact

theorem TraceInv_step (p : CygonRectanglePacker) (h : Int) (s : SearchState)
    (record : List (Int × Int)) (hi r : Int) (hinv : TraceInv p h s record)
    (hl : s.leftSliceIndex < Count p.heightSlices) (b : Int × Int × Int)
    (hb : b = (if hi + h < p.PackingAreaHeight then
              if hi < s.bestScore then (s.leftSliceIndex, hi, hi)
              else (s.bestSliceIndex, s.bestSliceY, s.bestScore)
            else (s.bestSliceIndex, s.bestSliceY, s.bestScore))) :
    TraceInv p h ⟨b.1, b.2.1, b.2.2, s.leftSliceIndex + 1, r⟩
      (record ++ [(s.leftSliceIndex, hi)]) := by
  obtain ⟨h0, hrec, hbest, hmin⟩ := hinv
  by_cases hfit : hi + h < p.PackingAreaHeight
  · rw [if_pos hfit] at hb
    by_cases hsc : hi < s.bestScore
    · -- the candidate becomes the best one
      rw [if_pos hsc] at hb
      subst hb
      refine ⟨by show 0 ≤ s.leftSliceIndex + 1; omega, ?_, ?_, ?_⟩
      · intro c hc
        show 0 ≤ c.1 ∧ c.1 < s.leftSliceIndex + 1 ∧ c.1 < Count p.heightSlices
        rcases List.mem_append.mp hc with hc | hc
        · have := hrec c hc; omega
        · rw [List.mem_singleton.mp hc]; simp only; omega
      · intro _
        exact ⟨rfl, hfit, List.mem_append_right _ (List.mem_singleton.mpr rfl)⟩
      · intro c hc hcfit
        show hi ≤ c.2 ∧ (s.leftSliceIndex ≠ -1 → c.1 < s.leftSliceIndex → hi < c.2)
        rcases List.mem_append.mp hc with hc | hc
        · have := (hmin c hc hcfit).1
          exact ⟨by omega, fun _ _ => by omega⟩
        · rw [List.mem_singleton.mp hc]; simp only
          exact ⟨Int.le_refl _, fun _ hlt => by omega⟩
    · -- the best candidate stays
      rw [if_neg hsc] at hb
      subst hb
      refine ⟨by show 0 ≤ s.leftSliceIndex + 1; omega, ?_, ?_, ?_⟩
      · intro c hc
        show 0 ≤ c.1 ∧ c.1 < s.leftSliceIndex + 1 ∧ c.1 < Count p.heightSlices
        rcases List.mem_append.mp hc with hc | hc
        · have := hrec c hc; omega
        · rw [List.mem_singleton.mp hc]; simp only; omega
      · intro hne
        obtain ⟨a1, a2, a3⟩ := hbest hne
        exact ⟨a1, a2, List.mem_append_left _ a3⟩
      · intro c hc hcfit
        show s.bestScore ≤ c.2 ∧ (s.bestSliceIndex ≠ -1 → c.1 < s.bestSliceIndex →
          s.bestScore < c.2)
        rcases List.mem_append.mp hc with hc | hc
        · exact hmin c hc hcfit
        · rw [List.mem_singleton.mp hc]; simp only
          refine ⟨by omega, fun hne hlt => ?_⟩
          have := (hrec _ (hbest hne).2.2).2.1
          simp only at this
          omega
  · rw [if_neg hfit] at hb
    subst hb
    refine ⟨by show 0 ≤ s.leftSliceIndex + 1; omega, ?_, ?_, ?_⟩
    · intro c hc
      show 0 ≤ c.1 ∧ c.1 < s.leftSliceIndex + 1 ∧ c.1 < Count p.heightSlices
      rcases List.mem_append.mp hc with hc | hc
      · have := hrec c hc; omega
      · rw [List.mem_singleton.mp hc]; simp only; omega
    · intro hne
      obtain ⟨a1, a2, a3⟩ := hbest hne
      exact ⟨a1, a2, List.mem_append_left _ a3⟩
    · intro c hc hcfit
      show s.bestScore ≤ c.2 ∧ (s.bestSliceIndex ≠ -1 → c.1 < s.bestSliceIndex →
        s.bestScore < c.2)
      rcases List.mem_append.mp hc with hc | hc
      · exact hmin c hc hcfit
      · rw [List.mem_singleton.mp hc] at hcfit
        simp only at hcfit
        exact absurd hcfit hfit

namespace Exact

/-- The loop keeps `TraceInv`, in every packer state. -/
theorem searchLoopTrace_inv (p : CygonRectanglePacker) (w h : Int) :
    ∀ (fuel : Nat) (s : SearchState) (record : List (Int × Int)) (s' : SearchState)
      (record' : List (Int × Int)),
      searchLoopTrace p w h fuel s record = .ok (s', record') → TraceInv p h s record →
      TraceInv p h s' record' := by
  intro fuel
  induction fuel with
  | zero =>
    intro s record s' record' hrun hinv
    unfold searchLoopTrace at hrun
    split at hrun
    · cases hrun
    · injection hrun with hrun
      injection hrun with h1 h2
      subst h1; subst h2; exact hinv
  | succ n ih =>
    intro s record s' record' hrun hinv
    unfold searchLoopTrace at hrun
    split at hrun
    · cases hfirst : getItem p.heightSlices s.leftSliceIndex with
      | error e => rw [hfirst] at hrun; cases hrun
      | ok first =>
        rw [hfirst] at hrun
        have hl := (getItem_eq_ok hfirst).2.1
        simp only [bind, Except.bind] at hrun
        cases hhi : highestLoop p.heightSlices s.rightSliceIndex
            (s.rightSliceIndex - (s.leftSliceIndex + 1)).toNat (s.leftSliceIndex + 1)
            first.Y with
        | error e => rw [hhi] at hrun; cases hrun
        | ok highest =>
          rw [hhi] at hrun
          simp only at hrun
          split at hrun
          · injection hrun with hrun
            injection hrun with h1 h2
            subst h1; subst h2
            exact TraceInv_step p h s record highest _ hinv hl _ rfl
          · cases hleft : getItem p.heightSlices (s.leftSliceIndex + 1) with
            | error e => rw [hleft] at hrun; cases hrun
            | ok left =>
              rw [hleft] at hrun
              simp only at hrun
              cases hadv : advanceRight p.heightSlices p.PackingAreaWidth (left.X + w)
                  (Count p.heightSlices + 1 - s.rightSliceIndex).toNat
                  s.rightSliceIndex with
              | error e => rw [hadv] at hrun; cases hrun
              | ok r =>
                rw [hadv] at hrun
                simp only at hrun
                split at hrun
                · injection hrun with hrun
                  injection hrun with h1 h2
                  subst h1; subst h2
                  exact TraceInv_step p h s record highest _ hinv hl _ rfl
                · exact ih _ _ _ _ hrun (TraceInv_step p h s record highest r hinv hl _ rfl)
    · injection hrun with hrun
      injection hrun with h1 h2
      subst h1; subst h2; exact hinv

/-- The record of a successful search holds the returned candidate with its score, and no
candidate recorded at a smaller slice index fits the height with a score at or below it. -/
theorem searchTrace_of_found (p : CygonRectanglePacker) (w h : Int) (pt : Point)
    (hfind : tryFindBestPlacement p w h = .ok (true, pt)) :
    ∃ record b, searchTrace p w h = .ok record ∧ (b, pt.Y) ∈ record ∧
      pt.X = (nth p.heightSlices b).X ∧ pt.Y + h < p.PackingAreaHeight ∧
      ∀ c ∈ record, 0 ≤ c.1 ∧ c.1 < Count p.heightSlices ∧
        (c.2 + h < p.PackingAreaHeight → c.1 < b → pt.Y < c.2) := by
  unfold tryFindBestPlacement at hfind
  cases hbs : BinarySearch p.heightSlices ⟨w, 0⟩ with
  | error e => rw [hbs] at hfind; cases hfind
  | ok found =>
    rw [hbs] at hfind
    simp only [bind, Except.bind] at hfind
    cases hloop : searchLoop p w h (p.heightSlices.length + 1)
        ⟨-1, 0, p.PackingAreaWidth * p.PackingAreaHeight, 0,
          if found < 0 then bnot found else found⟩ with
    | error e => rw [hloop] at hfind; cases hfind
    | ok s' =>
      rw [hloop] at hfind
      simp only at hfind
      have herase := searchLoopTrace_fst p w h (p.heightSlices.length + 1)
        ⟨-1, 0, p.PackingAreaWidth * p.PackingAreaHeight, 0,
          if found < 0 then bnot found else found⟩ []
      rw [hloop] at herase
      cases htr : searchLoopTrace p w h (p.heightSlices.length + 1)
          ⟨-1, 0, p.PackingAreaWidth * p.PackingAreaHeight, 0,
            if found < 0 then bnot found else found⟩ [] with
      | error e => rw [htr] at herase; cases herase
      | ok res =>
        obtain ⟨s2, record⟩ := res
        rw [htr] at herase
        injection herase with herase
        simp only at herase
        subst herase
        have hinv := searchLoopTrace_inv p w h _ _ _ _ _ htr
          ⟨Int.le_refl _, fun c hc => (by cases hc), fun hne => absurd rfl hne,
            fun c hc => (by cases hc)⟩
        obtain ⟨-, hrec, hbest, hmin⟩ := hinv
        by_cases hb : s2.bestSliceIndex = -1
        · rw [if_pos hb] at hfind
          injection hfind with hfind
          injection hfind with hfind _
          cases hfind
        · rw [if_neg hb] at hfind
          cases hget : getItem p.heightSlices s2.bestSliceIndex with
          | error e => rw [hget] at hfind; cases hfind
          | ok slice =>
            rw [hget] at hfind
            simp only [pure, Except.pure] at hfind
            injection hfind with hfind
            injection hfind with _ hfind
            obtain ⟨a1, a2, a3⟩ := hbest hb
            have hslice := (getItem_eq_ok hget).2.2
            refine ⟨record, s2.bestSliceIndex, ?_, ?_, ?_, ?_, ?_⟩
            · unfold searchTrace
              simp only [hbs, bind, Except.bind, htr]; rfl
            · rw [← hfind]; exact a3
            · rw [← hfind, hslice]
            · rw [← hfind]; exact a2
            · intro c hc
              have h1 := hrec c hc
              refine ⟨h1.1, h1.2.2, fun hcfit hlt => ?_⟩
              have := (hmin c hc hcfit).2 hb hlt
              rw [← hfind]; simp only; omega

end Exact

/-! ### Adjacent slices of equal height -/

theorem heightAt_nth (l : List Point) (hs : SortedX l) (j : Int) (h0 : 0 ≤ j)
    (h1 : j < Count l) : heightAt l (nth l j).X = (nth l j).Y := by
  obtain ⟨i, hi1, hi2, hi3, hi4, -⟩ := heightAt_eq_nth l (nth l j).X j h0 h1 (Int.le_refl _)
  have : i = j := by
    by_contra hne
    have := hs.nth_lt (i := j) (j := i) h0 (by omega) hi2
    omega
  rw [hi4, this]

namespace Exact

end Exact

theorem stackedResults_getElem? (W : Int) (hs : List Int) :
    ∀ (S : Int) (i : Nat), i < hs.length →
      (stackedResults W S hs)[i]? =
        some (true, ⟨0, S + (hs.take i).sum, W, hs.getD i 0⟩) := by
  induction hs with
  | nil => intro S i hi; simp at hi
  | cons h hs ih =>
    intro S i hi
    cases i with
    | zero => simp [stackedResults]
    | succ i =>
      have hi' : i < hs.length := by simpa using hi
      simp only [stackedResults, List.getElem?_cons_succ, ih (S + h) i hi', List.take_succ_cons,
        List.sum_cons, List.getD_cons_succ]
      congr 3
      omega

/-! ### Integration at any column -/

theorem nth_drop (l : List Point) (n : Nat) (j : Int) (h0 : 0 ≤ j) :
    nth (l.drop n) j = nth l ((n : Int) + j) := by
  unfold nth
  rw [List.getD_eq_getElem?_getD, List.getD_eq_getElem?_getD, List.getElem?_drop]
  congr 2
  omega

theorem nth_cons_pos (a : Point) (t : List Point) (j : Int) (h0 : 0 < j) :
    nth (a :: t) j = nth t (j - 1) := by
  unfold nth
  have : j.toNat = (j - 1).toNat + 1 := by omega
  rw [this, List.getD_cons_succ]

/-- The list after the first half of `integrateRectangle`, with the new slice at index `i`
in place of `d` old ones (`d = 1` on a direct hit, `d = 0` otherwise): its slices beyond
`i` are those of the old list. -/
theorem nth_spliced (l : List Point) (i d : Int) (new : Point) (hi0 : 0 ≤ i) (hd0 : 0 ≤ d)
    (hid : i + d ≤ Count l) (j : Int) (hj : i < j) :
    nth (l.take i.toNat ++ new :: l.drop (i + d).toNat) j = nth l (j - 1 + d) := by
  have hc : Count (l.take i.toNat) = i := by rw [Count_take l _ (by omega)]; omega
  rw [nth_append_right _ _ _ (by omega), hc, nth_cons_pos _ _ _ (by omega),
    nth_drop _ _ _ (by omega)]
  congr 1
  omega

theorem Count_spliced (l : List Point) (i d : Int) (new : Point) (hi0 : 0 ≤ i) (hd0 : 0 ≤ d)
    (hid : i + d ≤ Count l) :
    Count (l.take i.toNat ++ new :: l.drop (i + d).toNat) = Count l + 1 - d := by
  unfold Count at hid ⊢
  simp only [List.length_append, List.length_cons, List.length_take, List.length_drop]
  omega

namespace Exact

/-- Closed form of the second half of `integrateRectangle` on the list the first half
leaves, in terms of the list before the call: `k` is the index of the first old slice at or
after `i + d` that starts at or after `right`. -/
theorem integrateEnd_spliced (W : Int) (l : List Point) (hs : SortedX l) (i d : Int)
    (new : Point) (first right : Int) (hd : d = 0 ∨ d = 1) (hi0 : 0 ≤ i)
    (hid : i + d ≤ Count l) (hid1 : 0 < i + d)
    (hlo : ∀ j, 0 ≤ j → j < i → (nth l j).X < new.X)
    (hhi : ∀ j, i + d ≤ j → j < Count l → new.X < (nth l j).X)
    (hfirst : first = (nth l (i + d - 1)).Y) :
    ∃ k, i + d ≤ k ∧ k ≤ Count l ∧
      (∀ j, i + d ≤ j → j < k → (nth l j).X < right) ∧
      (∀ j, k ≤ j → j < Count l → right ≤ (nth l j).X) ∧
      integrateEnd W (l.take i.toNat ++ new :: l.drop (i + d).toNat) (i + 1) first right =
        .ok (l.take i.toNat ++ (new ::
          ((if (k < Count l ∧ (nth l k).X = right) ∨ W ≤ right then []
            else [⟨right, (nth l (k - 1)).Y⟩]) ++ l.drop k.toNat))) := by
  have hd0 : 0 ≤ d := by omega
  have hcnt := Count_spliced l i d new hi0 hd0 hid
  have hnth := nth_spliced l i d new hi0 hd0 hid
  have hs1 : SortedX (l.take i.toNat ++ new :: l.drop (i + d).toNat) := by
    have h := sorted_assemble l hs i.toNat (i + d).toNat [new] (by omega)
      (List.pairwise_singleton _ _) ?_ ?_
    · simpa using h
    · intro s hs1 m hm
      obtain ⟨j, a1, a2, a3, rfl⟩ := mem_take_nth l _ s hs1
      rw [List.mem_singleton.mp hm]
      exact hlo j a1 (by omega)
    · intro m hm s hs1
      obtain ⟨j, a1, a2, rfl⟩ := mem_drop_nth l _ s hs1
      rw [List.mem_singleton.mp hm]
      exact hhi j (by omega) a2
  obtain ⟨k', hk1, hk2, hk3, hk4, hk5⟩ := integrateEnd_closed W
    (l.take i.toNat ++ new :: l.drop (i + d).toNat) hs1 i first right hi0 (by omega)
  rw [hcnt] at hk2 hk4 hk5
  refine ⟨k' - 1 + d, by omega, by omega, ?_, ?_, ?_⟩
  · intro j hj1 hj2
    have := hk3 (j + 1 - d) (by omega) (by omega)
    rw [hnth _ (by omega)] at this
    have e : j + 1 - d - 1 + d = j := by omega
    rwa [e] at this
  · intro j hj1 hj2
    have := hk4 (j + 1 - d) (by omega) (by omega)
    rw [hnth _ (by omega)] at this
    have e : j + 1 - d - 1 + d = j := by omega
    rwa [e] at this
  · rw [hk5]
    have hlen : (l.take i.toNat).length = i.toNat :=
      List.length_take_of_le (by unfold Count at hid; omega)
    have ht : (l.take i.toNat ++ new :: l.drop (i + d).toNat).take (i + 1).toNat =
        l.take i.toNat ++ [new] := by
      have h1 : (i + 1).toNat = (l.take i.toNat).length + 1 := by rw [hlen]; omega
      rw [h1, List.take_append]
      rfl
    have hdr : (l.take i.toNat ++ new :: l.drop (i + d).toNat).drop k'.toNat =
        l.drop (k' - 1 + d).toNat := by
      have h1 : k'.toNat = (l.take i.toNat).length + ((k' - i - 1).toNat + 1) := by
        rw [hlen]; omega
      rw [h1, List.drop_append, List.drop_succ_cons, List.drop_drop]
      congr 1
      omega
    have hy : (if k' = i + 1 then first
        else (nth (l.take i.toNat ++ new :: l.drop (i + d).toNat) (k' - 1)).Y) =
        (nth l (k' - 1 + d - 1)).Y := by
      by_cases hk : k' = i + 1
      · rw [if_pos hk, hfirst, hk]; congr 2; omega
      · rw [if_neg hk, hnth (k' - 1) (by omega)]; congr 2; omega
    have hx : (k' < Count l + 1 - d ∧
        (nth (l.take i.toNat ++ new :: l.drop (i + d).toNat) k').X = right) ↔
        (k' - 1 + d < Count l ∧ (nth l (k' - 1 + d)).X = right) := by
      rw [hnth k' hk1]
      constructor
      · rintro ⟨a, b⟩; exact ⟨by omega, b⟩
      · rintro ⟨a, b⟩; exact ⟨by omega, b⟩
    rw [ht, hdr, hy]
    simp only [hx, List.append_assoc, List.singleton_append]

/-- When no slice starts at `left`, the first half of `integrateRectangle` inserts the new
slice before the first slice that starts after `left`. -/
theorem integrateStart_miss (l : List Point) (hs : SortedX l) (hne : 0 < Count l)
    (hfirst : (nth l 0).X = 0) (left bottom : Int) (hl : 0 ≤ left)
    (hmiss : ∀ j, 0 ≤ j → j < Count l → (nth l j).X ≠ left) :
    ∃ i, 0 < i ∧ i ≤ Count l ∧ (∀ j, 0 ≤ j → j < i → (nth l j).X < left) ∧
      (∀ j, i ≤ j → j < Count l → left < (nth l j).X) ∧
      integrateStart l left bottom =
        .ok (i, (nth l (i - 1)).Y, l.take i.toNat ++ ⟨left, bottom⟩ :: l.drop i.toNat) := by
  obtain ⟨r, hr1, hr2⟩ := BinarySearch_spec l hs ⟨left, 0⟩
  simp only at hr2
  rcases hr2 with ⟨h1, h2, h3⟩ | ⟨k, hk1, hk2, hk3, hk4, hk5⟩
  · exact absurd h3 (hmiss r h1 (by omega))
  · have hk0 : 0 < k := by
      by_contra hcon
      have hk : k = 0 := by omega
      have := hk5 0 (by omega) (by omega)
      omega
    refine ⟨k, hk0, by omega, hk4, fun j a b => hk5 j a (by omega), ?_⟩
    have hneg : ¬ r ≥ 0 := by rw [hk1]; unfold bnot; omega
    have hbn : bnot r = k := by rw [hk1]; unfold bnot; omega
    unfold integrateStart
    simp only [hr1, bind, Except.bind, pure, Except.pure]
    rw [if_neg hneg, hbn, getItem_ok l (k - 1) (by omega) (by omega)]
    simp only [Insert]
    rw [if_neg (by omega)]

/-- The new silhouette of `integrateRectangle`, in closed form, for every column `left` at or
right of column 0: the slices before index `i` stay, the new slice follows, then the slice
that restores the old height at `right` unless a slice starts there or `right` is at the
border, then the old slices from index `k` on. -/
theorem integrateRectangle_closed (p : CygonRectanglePacker) (hs : SortedX p.heightSlices)
    (hne : 0 < Count p.heightSlices) (hfirst : (nth p.heightSlices 0).X = 0)
    (left width bottom : Int) (hl : 0 ≤ left) (hw : 0 < width) :
    ∃ i k, 0 ≤ i ∧ i ≤ k ∧ 0 < k ∧ k ≤ Count p.heightSlices ∧
      (∀ j, 0 ≤ j → j < i → (nth p.heightSlices j).X < left) ∧
      (∀ j, i ≤ j → j < Count p.heightSlices → left ≤ (nth p.heightSlices j).X) ∧
      (∀ j, 0 ≤ j → j < k → (nth p.heightSlices j).X < left + width) ∧
      (∀ j, k ≤ j → j < Count p.heightSlices → left + width ≤ (nth p.heightSlices j).X) ∧
      integrateRectangle p left width bottom =
        .ok (p.heightSlices.take i.toNat ++ (⟨left, bottom⟩ ::
          ((if (k < Count p.heightSlices ∧ (nth p.heightSlices k).X = left + width) ∨
                p.PackingAreaWidth ≤ left + width then []
            else [⟨left + width, (nth p.heightSlices (k - 1)).Y⟩]) ++
            p.heightSlices.drop k.toNat))) := by
  obtain ⟨W, H, l⟩ := p
  simp only at hs hne hfirst ⊢
  by_cases hhit : ∃ b, 0 ≤ b ∧ b < Count l ∧ (nth l b).X = left
  · -- a slice starts at `left`
    obtain ⟨b, hb0, hb1, hbx⟩ := hhit
    have hlen : b.toNat < l.length := by unfold Count at hb1; omega
    have hstart := integrateStart_hit l hs b bottom hb0 hb1
    rw [hbx, set_eq_take_drop l b.toNat ⟨left, bottom⟩ hlen] at hstart
    obtain ⟨k, hk1, hk2, hk3, hk4, hk5⟩ := integrateEnd_spliced W l hs b 1 ⟨left, bottom⟩
      (nth l b).Y (left + width) (Or.inr rfl) hb0 (by omega) (by omega)
      (fun j a c => by have := hs.nth_lt a c hb1; simp only; omega)
      (fun j a c => by
        have := hs.nth_lt (i := b) (j := j) hb0 (by omega) c; simp only; omega)
      (by congr 2; omega)
    refine ⟨b, k, hb0, by omega, by omega, hk2, ?_, ?_, ?_, hk4, ?_⟩
    · intro j a c
      have := hs.nth_lt a c hb1; omega
    · intro j a c
      have := hs.nth_le (i := b) (j := j) hb0 a c; omega
    · intro j a c
      by_cases hj : b + 1 ≤ j
      · exact hk3 j hj c
      · have := hs.nth_le (i := j) (j := b) a (by omega) hb1; omega
    · unfold integrateRectangle
      have e : (b + 1).toNat = b.toNat + 1 := by omega
      rw [e] at hk5
      simp only [hstart, bind, Except.bind]
      exact hk5
  · -- `left` falls inside a slice
    have hmiss : ∀ j, 0 ≤ j → j < Count l → (nth l j).X ≠ left :=
      fun j a c heq => hhit ⟨j, a, c, heq⟩
    obtain ⟨i, hi0, hi1, hi2, hi3, hstart⟩ :=
      integrateStart_miss l hs hne hfirst left bottom hl hmiss
    obtain ⟨k, hk1, hk2, hk3, hk4, hk5⟩ := integrateEnd_spliced W l hs i 0 ⟨left, bottom⟩
      (nth l (i - 1)).Y (left + width) (Or.inl rfl) (by omega) (by omega) (by omega)
      hi2 (fun j a c => hi3 j (by omega) c) (by congr 2; omega)
    refine ⟨i, k, by omega, by omega, by omega, hk2, hi2, ?_, ?_, hk4, ?_⟩
    · intro j a c
      have := hi3 j a c; omega
    · intro j a c
      by_cases hj : i + 0 ≤ j
      · exact hk3 j hj c
      · have := hi2 j a (by omega); omega
    · unfold integrateRectangle
      have e : (i + 0).toNat = i.toNat := by omega
      rw [e] at hk5
      simp only [hstart, bind, Except.bind]
      exact hk5

end Exact

/-- Heights of the silhouette that `integrateRectangle` leaves: `bottom` over the columns
of the rectangle, the old height over the other columns left of the border. -/
theorem closed_heights (W : Int) (l : List Point) (i k left width bottom : Int)
    (hw : 0 < width) (hi0 : 0 ≤ i) (hik : i ≤ k) (hk0 : 0 < k) (hk : k ≤ Count l)
    (ha : ∀ j, 0 ≤ j → j < i → (nth l j).X < left)
    (hd : ∀ j, i ≤ j → j < Count l → left ≤ (nth l j).X)
    (hb : ∀ j, 0 ≤ j → j < k → (nth l j).X < left + width)
    (hc : ∀ j, k ≤ j → j < Count l → left + width ≤ (nth l j).X) :
    ∀ c, c < W →
      heightAt (l.take i.toNat ++ (⟨left, bottom⟩ ::
        ((if (k < Count l ∧ (nth l k).X = left + width) ∨ W ≤ left + width then []
          else [⟨left + width, (nth l (k - 1)).Y⟩]) ++ l.drop k.toNat))) c =
      if left ≤ c ∧ c < left + width then bottom else heightAt l c := by
  have hdrop : ∀ s ∈ l.drop k.toNat, left + width ≤ s.X := by
    intro s hs1
    obtain ⟨j, a1, a2, rfl⟩ := mem_drop_nth l _ s hs1
    exact hc j (by omega) a2
  have hrest : ∀ s ∈ (if (k < Count l ∧ (nth l k).X = left + width) ∨ W ≤ left + width
      then [] else [(⟨left + width, (nth l (k - 1)).Y⟩ : Point)]),
      s = ⟨left + width, (nth l (k - 1)).Y⟩ := by
    intro s hs1
    split at hs1
    · cases hs1
    · exact List.mem_singleton.mp hs1
  have hhit1 : (k < Count l ∧ (nth l k).X = left + width) →
      (if (k < Count l ∧ (nth l k).X = left + width) ∨ W ≤ left + width
        then [] else [(⟨left + width, (nth l (k - 1)).Y⟩ : Point)]) = [] :=
    fun h => if_pos (Or.inl h)
  have hhit2 : ¬ (k < Count l ∧ (nth l k).X = left + width) → left + width < W →
      (if (k < Count l ∧ (nth l k).X = left + width) ∨ W ≤ left + width
        then [] else [(⟨left + width, (nth l (k - 1)).Y⟩ : Point)]) =
        [⟨left + width, (nth l (k - 1)).Y⟩] :=
    fun h h2 => if_neg (by intro hcon; rcases hcon with h3 | h3; exact h h3; omega)
  generalize (if (k < Count l ∧ (nth l k).X = left + width) ∨ W ≤ left + width
      then [] else [(⟨left + width, (nth l (k - 1)).Y⟩ : Point)]) = restore
    at hrest hhit1 hhit2 ⊢
  intro c hcW
  by_cases hc1 : c < left
  · -- left of the rectangle
    rw [if_neg (by omega), heightAt_append, foldl_above]
    · conv_rhs => rw [← List.take_append_drop i.toNat l]
      rw [heightAt_append, foldl_above]
      intro s hs1
      obtain ⟨j, a1, a2, rfl⟩ := mem_drop_nth l _ s hs1
      have := hd j (by omega) a2
      omega
    · intro s hs1
      simp only [List.mem_append, List.mem_cons] at hs1
      rcases hs1 with rfl | h | h
      · exact hc1
      · rw [hrest s h]; simp only; omega
      · have := hdrop s h; omega
  · by_cases hc2 : c < left + width
    · -- under the rectangle
      rw [if_pos ⟨by omega, hc2⟩, heightAt_append,
        foldl_head_le _ _ _ _ (by simp only; omega), foldl_above]
      intro s hs1
      simp only [List.mem_append] at hs1
      rcases hs1 with h | h
      · rw [hrest s h]; simp only; omega
      · have := hdrop s h; omega
    · -- right of the rectangle
      rw [if_neg (by omega)]
      have hkx : (nth l (k - 1)).X ≤ c := by
        have := hb (k - 1) (by omega) (by omega); omega
      have horig : heightAt l c = (l.drop k.toNat).foldl
          (fun acc s => if s.X ≤ c then s.Y else acc) (nth l (k - 1)).Y := by
        conv_lhs => rw [← List.take_append_drop k.toNat l]
        rw [heightAt_append, heightAt_take l k c hk0 hk hkx]
      rw [horig, heightAt_append]
      by_cases hhit : k < Count l ∧ (nth l k).X = left + width
      · rw [hhit1 hhit]
        have hdk : l.drop k.toNat = nth l k :: l.drop (k.toNat + 1) := by
          have hlt : k.toNat < l.length := by have := hhit.1; unfold Count at this; omega
          rw [List.drop_eq_getElem_cons hlt]
          unfold nth
          rw [List.getD_eq_getElem l Point.Zero hlt]
        simp only [List.nil_append]
        rw [foldl_head_le _ _ _ _ (by simp only; omega), hdk,
          foldl_head_le _ _ _ _ (by omega), foldl_head_le _ _ _ _ (by omega)]
      · rw [hhit2 hhit (by omega)]
        rw [foldl_head_le _ _ _ _ (by simp only; omega)]
        simp only [List.singleton_append]
        rw [foldl_head_le _ _ _ _ (by simp only; omega)]

/-! ### The silhouette is the skyline of the placed rectangles -/

namespace Exact

end Exact

namespace Exact

end Exact

/-! ### The indices of the search loop -/

/-! ### The size search on a prefix of the characters -/

namespace Exact

/-- A sequence of calls that returns splits at every point into two sequences that
return. -/
theorem packSequence_append (a b : List (Int × Int)) :
    ∀ (p p' : CygonRectanglePacker) (results : List (Bool × Rectangle)),
      packSequence p (a ++ b) = .ok (results, p') →
      ∃ ra p1 rb, packSequence p a = .ok (ra, p1) ∧ packSequence p1 b = .ok (rb, p') ∧
        results = ra ++ rb := by
  induction a with
  | nil =>
    intro p p' results hrun
    exact ⟨[], p, results, rfl, hrun, rfl⟩
  | cons req rest ih =>
    intro p p' results hrun
    obtain ⟨w, h⟩ := req
    rw [List.cons_append] at hrun
    unfold packSequence at hrun
    cases ht : TryPack p w h with
    | error e => rw [ht] at hrun; cases hrun
    | ok r =>
      obtain ⟨fits, pt, p1⟩ := r
      rw [ht] at hrun
      simp only [bind, Except.bind] at hrun
      cases hrest : packSequence p1 (rest ++ b) with
      | error e => rw [hrest] at hrun; cases hrun
      | ok r2 =>
        obtain ⟨res, p2⟩ := r2
        rw [hrest] at hrun
        simp only [pure, Except.pure] at hrun
        injection hrun with hrun
        injection hrun with g1 g2
        subst g1; subst g2
        obtain ⟨ra, q, rb, i1, i2, i3⟩ := ih p1 p2 res hrest
        refine ⟨(fits, ⟨pt.X, pt.Y, w, h⟩) :: ra, q, rb, ?_, i2, by rw [i3]; rfl⟩
        unfold packSequence
        simp only [ht, bind, Except.bind, i1]; rfl

/-- When every request of a sequence is accepted, so is every request of a prefix. -/
theorem AllFit_of_append (size : Int) (a b : List (Int × Int)) (h : AllFit size (a ++ b)) :
    AllFit size a := by
  obtain ⟨results, p', hrun, hall⟩ := h
  obtain ⟨ra, p1, rb, i1, -, i3⟩ := packSequence_append a b _ _ _ hrun
  refine ⟨ra, p1, i1, ?_⟩
  intro r hr
  exact hall r (by rw [i3]; exact List.mem_append_left _ hr)

end Exact

/-- The requests of a list of boxes followed by another are the requests of the first
followed by those of the second. -/
theorem paddedRequests_append (a b : List Rectangle) :
    paddedRequests (a ++ b) = paddedRequests a ++ paddedRequests b := by
  unfold paddedRequests
  rw [List.filter_append, List.map_append]

namespace Exact

/-- The size search on a prefix of the boxes returns a size that is at most the size it
returns on all of them. -/
theorem determineOptimalTextureSize_of_append (a b : List Rectangle) (s : Int)
    (hs : determineOptimalTextureSize (a ++ b) = .ok s) :
    ∃ t, determineOptimalTextureSize a = .ok t ∧ t ≤ s := by
  have hfit : AllFit s (paddedRequests a) ∧ s ∈ candidateSizes := by
    rcases determineOptimalTextureSize_spec (a ++ b) with ⟨s2, h1, h2, h3, -⟩ | ⟨h1, -⟩
    · rw [hs] at h1
      injection h1 with h1
      subst h1
      rw [paddedRequests_append] at h3
      exact ⟨AllFit_of_append _ _ _ h3, h2⟩
    · rw [hs] at h1; cases h1
  rcases determineOptimalTextureSize_spec a with ⟨t, h1, -, -, h4⟩ | ⟨-, h2⟩
  · refine ⟨t, h1, ?_⟩
    by_contra hcon
    exact AllFit_not_SomeFails _ _ hfit.1 (h4 s hfit.2 (by omega))
  · exact absurd (h2 s hfit.2) (AllFit_not_SomeFails _ _ hfit.1)

end Exact

/-! ### 32-bit arithmetic -/

/-- An exact result inside the 32-bit range is the value the operation computes. -/
theorem wrap_eq (x : Int) (h0 : -2147483648 ≤ x) (h1 : x < 2147483648) : wrap x = x := by
  unfold wrap
  omega

/-! ### `TryPack` never raises the out-of-space exception -/

theorem bind_ne_oos {α β : Type} {x : Except Exn α} {f : α → Except Exn β}
    (hx : x ≠ .error Exn.OutOfSpace) (hf : ∀ a, f a ≠ .error Exn.OutOfSpace) :
    (x >>= f) ≠ .error Exn.OutOfSpace := by
  cases x with
  | error e => intro h; exact hx (by simpa [bind, Except.bind] using h)
  | ok a => exact hf a

theorem ok_ne_oos {α : Type} (a : α) : (Except.ok a : Except Exn α) ≠ .error Exn.OutOfSpace := by
  intro h; cases h

theorem getItem_ne_oos (l : List Point) (i : Int) : getItem l i ≠ .error Exn.OutOfSpace := by
  unfold getItem
  split
  · intro h; cases h
  · split
    · exact ok_ne_oos _
    · intro h; cases h

theorem setItem_ne_oos (l : List Point) (i : Int) (a : Point) :
    setItem l i a ≠ .error Exn.OutOfSpace := by
  unfold setItem
  split
  · intro h; cases h
  · exact ok_ne_oos _

theorem Insert_ne_oos (l : List Point) (i : Int) (a : Point) :
    Insert l i a ≠ .error Exn.OutOfSpace := by
  unfold Insert
  split
  · intro h; cases h
  · exact ok_ne_oos _

theorem RemoveRange_ne_oos (l : List Point) (i c : Int) :
    RemoveRange l i c ≠ .error Exn.OutOfSpace := by
  unfold RemoveRange
  split
  · intro h; cases h
  · exact ok_ne_oos _

theorem BinarySearchLoop_ne_oos (l : List Point) (v : Point) :
    ∀ (fuel : Nat) (lo hi : Int), BinarySearchLoop l v fuel lo hi ≠ .error Exn.OutOfSpace := by
  intro fuel
  induction fuel with
  | zero =>
    intro lo hi
    unfold BinarySearchLoop
    split
    · intro h; cases h
    · exact ok_ne_oos _
  | succ n ih =>
    intro lo hi
    unfold BinarySearchLoop
    split
    · apply bind_ne_oos (getItem_ne_oos _ _)
      intro a
      dsimp only
      split
      · exact ok_ne_oos _
      · split
        · exact ih _ _
        · exact ih _ _
    · exact ok_ne_oos _

theorem BinarySearchRange_ne_oos (l : List Point) (i c : Int) (v : Point) :
    BinarySearchRange l i c v ≠ .error Exn.OutOfSpace := by
  unfold BinarySearchRange
  split
  · intro h; cases h
  · exact BinarySearchLoop_ne_oos _ _ _ _ _

theorem highestLoop_ne_oos (l : List Point) (right : Int) :
    ∀ (fuel : Nat) (index highest : Int),
      highestLoop l right fuel index highest ≠ .error Exn.OutOfSpace := by
  intro fuel
  induction fuel with
  | zero =>
    intro index highest
    unfold highestLoop
    split
    · intro h; cases h
    · exact ok_ne_oos _
  | succ n ih =>
    intro index highest
    unfold highestLoop
    split
    · exact bind_ne_oos (getItem_ne_oos _ _) (fun a => ih _ _)
    · exact ok_ne_oos _

theorem advanceRight_ne_oos (l : List Point) (W e : Int) :
    ∀ (fuel : Nat) (right : Int), advanceRight l W e fuel right ≠ .error Exn.OutOfSpace := by
  intro fuel
  induction fuel with
  | zero =>
    intro right
    unfold advanceRight
    split
    · intro h; cases h
    · exact ok_ne_oos _
  | succ n ih =>
    intro right
    unfold advanceRight
    split
    · dsimp only
      split
      · apply bind_ne_oos (ok_ne_oos _)
        intro a
        split
        · exact ok_ne_oos _
        · exact ih _
      · apply bind_ne_oos (bind_ne_oos (getItem_ne_oos _ _) (fun a => ok_ne_oos _))
        intro a
        split
        · exact ok_ne_oos _
        · exact ih _
    · exact ok_ne_oos _

theorem searchLoop_ne_oos (p : CygonRectanglePacker) (w h : Int) :
    ∀ (fuel : Nat) (s : SearchState), searchLoop p w h fuel s ≠ .error Exn.OutOfSpace := by
  intro fuel
  induction fuel with
  | zero =>
    intro s
    unfold searchLoop
    split
    · intro h; cases h
    · exact ok_ne_oos _
  | succ n ih =>
    intro s
    unfold searchLoop
    split
    · apply bind_ne_oos (getItem_ne_oos _ _)
      intro first
      apply bind_ne_oos (highestLoop_ne_oos _ _ _ _ _)
      intro highest
      simp only
      split
      · exact ok_ne_oos _
      · apply bind_ne_oos (getItem_ne_oos _ _)
        intro left
        apply bind_ne_oos (advanceRight_ne_oos _ _ _ _ _)
        intro r
        split
        · exact ok_ne_oos _
        · exact ih _
    · exact ok_ne_oos _

theorem tryFindBestPlacement_ne_oos (p : CygonRectanglePacker) (w h : Int) :
    tryFindBestPlacement p w h ≠ .error Exn.OutOfSpace := by
  unfold tryFindBestPlacement
  apply bind_ne_oos (BinarySearchRange_ne_oos _ _ _ _)
  intro found
  apply bind_ne_oos (searchLoop_ne_oos _ _ _ _ _)
  intro s
  split
  · exact ok_ne_oos _
  · exact bind_ne_oos (getItem_ne_oos _ _) (fun a => ok_ne_oos _)

theorem integrateStart_ne_oos (l : List Point) (left bottom : Int) :
    integrateStart l left bottom ≠ .error Exn.OutOfSpace := by
  unfold integrateStart
  apply bind_ne_oos (BinarySearchRange_ne_oos _ _ _ _)
  intro found
  split
  · apply bind_ne_oos (getItem_ne_oos _ _)
    intro old
    exact bind_ne_oos (setItem_ne_oos _ _ _) (fun a => ok_ne_oos _)
  · apply bind_ne_oos (getItem_ne_oos _ _)
    intro old
    exact bind_ne_oos (Insert_ne_oos _ _ _) (fun a => ok_ne_oos _)

theorem integrateEnd_ne_oos (W : Int) (l : List Point) (st first right : Int) :
    integrateEnd W l st first right ≠ .error Exn.OutOfSpace := by
  unfold integrateEnd
  split
  · split
    · exact ok_ne_oos _
    · exact ok_ne_oos _
  · apply bind_ne_oos (BinarySearchRange_ne_oos _ _ _ _)
    intro e
    split
    · exact RemoveRange_ne_oos _ _ _
    · have hjp : ∀ rh : Int, (RemoveRange l st (bnot e - st) >>= fun slices =>
          if right < W then Insert slices st ⟨right, rh⟩ else pure slices) ≠
          .error Exn.OutOfSpace := by
        intro rh
        apply bind_ne_oos (RemoveRange_ne_oos _ _ _)
        intro l2
        split
        · exact Insert_ne_oos _ _ _
        · exact ok_ne_oos _
      dsimp only
      split
      · exact bind_ne_oos (ok_ne_oos _) hjp
      · exact bind_ne_oos (bind_ne_oos (getItem_ne_oos _ _) (fun a => ok_ne_oos _)) hjp

theorem integrateRectangle_ne_oos (p : CygonRectanglePacker) (left width bottom : Int) :
    integrateRectangle p left width bottom ≠ .error Exn.OutOfSpace := by
  unfold integrateRectangle
  apply bind_ne_oos (integrateStart_ne_oos _ _ _)
  intro a
  exact integrateEnd_ne_oos _ _ _ _ _

theorem TryPack_ne_oos (p : CygonRectanglePacker) (w h : Int) :
    TryPack p w h ≠ .error Exn.OutOfSpace := by
  unfold TryPack
  split
  · exact ok_ne_oos _
  · apply bind_ne_oos (tryFindBestPlacement_ne_oos _ _ _)
    intro a
    split
    split
    · exact bind_ne_oos (integrateRectangle_ne_oos _ _ _ _) (fun a => ok_ne_oos _)
    · exact ok_ne_oos _


/-! ### The indices of the search loop -/

/-- Whatever the comparisons give, the bisection loop reads inside its interval and returns
an index of the interval or the complement of an insertion index. -/
theorem BinarySearchLoop_range (l : List Point) (v : Point) :
    ∀ (fuel : Nat) (lo hi : Int), 0 ≤ lo → hi < Count l → lo ≤ hi + 1 →
      (hi + 1 - lo).toNat ≤ fuel →
      ∃ r, BinarySearchLoop l v fuel lo hi = .ok r ∧
        lo ≤ (if r < 0 then bnot r else r) ∧ (if r < 0 then bnot r else r) ≤ hi + 1 := by
  intro fuel
  induction fuel with
  | zero =>
    intro lo hi h1 h2 h3 h4
    have : ¬ lo ≤ hi := by omega
    refine ⟨bnot lo, by simp [BinarySearchLoop, this], ?_⟩
    unfold bnot; split <;> omega
  | succ n ih =>
    intro lo hi h1 h2 h3 h4
    by_cases hle : lo ≤ hi
    · have hi_ok : getItem l (lo + (hi - lo) / 2) = .ok (nth l (lo + (hi - lo) / 2)) :=
        getItem_ok l _ (by omega) (by omega)
      unfold BinarySearchLoop
      rw [if_pos hle]
      simp only [hi_ok, bind, Except.bind, pure, Except.pure]
      by_cases heq : SliceStartComparer.Compare (nth l (lo + (hi - lo) / 2)) v = 0
      · rw [if_pos heq]
        refine ⟨_, rfl, ?_⟩
        rw [if_neg (by omega)]; omega
      · rw [if_neg heq]
        by_cases hlt : SliceStartComparer.Compare (nth l (lo + (hi - lo) / 2)) v < 0
        · rw [if_pos hlt]
          obtain ⟨r, g1, g2, g3⟩ := ih (lo + (hi - lo) / 2 + 1) hi (by omega) h2 (by omega)
            (by omega)
          exact ⟨r, g1, by omega, g3⟩
        · rw [if_neg hlt]
          obtain ⟨r, g1, g2, g3⟩ := ih lo (lo + (hi - lo) / 2 - 1) h1 (by omega) (by omega)
            (by omega)
          exact ⟨r, g1, g2, by omega⟩
    · refine ⟨bnot lo, by unfold BinarySearchLoop; rw [if_neg hle], ?_⟩
      unfold bnot; split <;> omega

/-- The binary search over the whole list returns, and what `tryFindBestPlacement` makes of
its result is an index between 0 and `Count`. -/
theorem BinarySearch_range (l : List Point) (v : Point) :
    ∃ r, BinarySearch l v = .ok r ∧
      0 ≤ (if r < 0 then bnot r else r) ∧ (if r < 0 then bnot r else r) ≤ Count l := by
  unfold BinarySearch BinarySearchRange
  rw [if_neg (by have := Count_nonneg l; omega)]
  obtain ⟨r, g1, g2, g3⟩ := BinarySearchLoop_range l v (Count l).toNat 0 (0 + Count l - 1)
    (le_refl _) (by omega) (by have := Count_nonneg l; omega) (by omega)
  exact ⟨r, g1, g2, by omega⟩

/-- The best candidate after one evaluation is the old one or the candidate evaluated. -/
theorem best_cases_wrap (s : SearchState) (highest h H : Int) :
    (if wrap (highest + h) < H then
        if highest < s.bestScore then (s.leftSliceIndex, highest, highest)
        else (s.bestSliceIndex, s.bestSliceY, s.bestScore)
      else (s.bestSliceIndex, s.bestSliceY, s.bestScore)).1 = s.bestSliceIndex ∨
    (if wrap (highest + h) < H then
        if highest < s.bestScore then (s.leftSliceIndex, highest, highest)
        else (s.bestSliceIndex, s.bestSliceY, s.bestScore)
      else (s.bestSliceIndex, s.bestSliceY, s.bestScore)).1 = s.leftSliceIndex := by
  split
  · split
    · right; rfl
    · left; rfl
  · left; rfl

/-- Dropping the record from `searchLoopIndices` gives `searchLoop`. -/
theorem searchLoopIndices_fst (p : CygonRectanglePacker) (w h : Int) :
    ∀ (fuel : Nat) (s : SearchState),
      (searchLoopIndices p w h fuel s).map Prod.fst = searchLoop p w h fuel s := by
  intro fuel
  induction fuel with
  | zero =>
    intro s
    unfold searchLoop searchLoopIndices
    split <;> rfl
  | succ n ih =>
    intro s
    unfold searchLoop searchLoopIndices
    split
    · cases getItem p.heightSlices s.leftSliceIndex with
      | error e => rfl
      | ok first =>
        simp only [bind, Except.bind]
        cases highestLoop p.heightSlices s.rightSliceIndex
            (s.rightSliceIndex - (s.leftSliceIndex + 1)).toNat (s.leftSliceIndex + 1)
            first.Y with
        | error e => rfl
        | ok highest =>
          simp only
          split
          · rfl
          · cases getItem p.heightSlices (s.leftSliceIndex + 1) with
            | error e => rfl
            | ok left =>
              simp only
              cases advanceRight p.heightSlices p.PackingAreaWidth (wrap (left.X + w))
                  (Count p.heightSlices + 1 - s.rightSliceIndex).toNat s.rightSliceIndex with
              | error e => rfl
              | ok r =>
                simp only
                split
                · rfl
                · rw [← ih]
                  cases searchLoopIndices p w h n _ with
                  | error e => rfl
                  | ok res => rfl
    · rfl

/-- The search loop returns from every state whose indices are in range, for every
rectangle size; it runs at most once per slice from `leftSliceIndex` on, each iteration
starts with a `leftSliceIndex` one above that of the iteration before and with a
`rightSliceIndex` that is not below it. -/
theorem searchLoopIndices_spec (p : CygonRectanglePacker) (w h : Int) :
    ∀ (fuel : Nat) (s : SearchState),
      0 ≤ s.leftSliceIndex → s.leftSliceIndex < Count p.heightSlices →
      0 ≤ s.rightSliceIndex → s.rightSliceIndex ≤ Count p.heightSlices →
      (Count p.heightSlices - s.leftSliceIndex).toNat ≤ fuel →
      (s.bestSliceIndex = -1 ∨ (0 ≤ s.bestSliceIndex ∧ s.bestSliceIndex < Count p.heightSlices)) →
      ∃ s' record, searchLoopIndices p w h fuel s = .ok (s', record) ∧
        (s'.bestSliceIndex = -1 ∨
          (0 ≤ s'.bestSliceIndex ∧ s'.bestSliceIndex < Count p.heightSlices)) ∧
        (record.length : Int) ≤ Count p.heightSlices - s.leftSliceIndex ∧
        List.Chain (fun a b : Int × Int => b.1 = a.1 + 1 ∧ a.2 ≤ b.2)
          (s.leftSliceIndex - 1, s.rightSliceIndex) record := by
  intro fuel
  induction fuel with
  | zero => intro s h0 h1 h2 h3 h6 h7; omega
  | succ n ih =>
    intro s h0 h1 h2 h3 h6 h7
    obtain ⟨hi, hhi1, -⟩ := highestLoop_spec p.heightSlices s.rightSliceIndex h3
      (s.rightSliceIndex - (s.leftSliceIndex + 1)).toNat (s.leftSliceIndex + 1)
      (nth p.heightSlices s.leftSliceIndex).Y (by omega) (by omega)
    have hbest : ∀ b : Int × Int × Int,
        b = (if wrap (hi + h) < p.PackingAreaHeight then
              if hi < s.bestScore then (s.leftSliceIndex, hi, hi)
              else (s.bestSliceIndex, s.bestSliceY, s.bestScore)
            else (s.bestSliceIndex, s.bestSliceY, s.bestScore)) →
        (b.1 = -1 ∨ (0 ≤ b.1 ∧ b.1 < Count p.heightSlices)) := by
      intro b hb
      rcases best_cases_wrap s hi h p.PackingAreaHeight with hc | hc
      · rw [hb, hc]; exact h7
      · rw [hb, hc]; exact Or.inr ⟨h0, h1⟩
    have hone : List.Chain (fun a b : Int × Int => b.1 = a.1 + 1 ∧ a.2 ≤ b.2)
        (s.leftSliceIndex - 1, s.rightSliceIndex) [(s.leftSliceIndex, s.rightSliceIndex)] :=
      List.Chain.cons ⟨by simp only; omega, le_refl _⟩ List.Chain.nil
    unfold searchLoopIndices
    rw [if_pos h3, getItem_ok _ _ h0 h1]
    simp only [bind, Except.bind, hhi1, pure, Except.pure]
    by_cases hend : s.leftSliceIndex + 1 ≥ Count p.heightSlices
    · rw [if_pos hend]
      refine ⟨_, _, rfl, hbest _ rfl, ?_, hone⟩
      simp only [List.length_singleton, Nat.cast_one]; omega
    · rw [if_neg hend, getItem_ok _ _ (by omega) (by omega)]
      obtain ⟨r, hr1, hr2, -⟩ := advanceRight_spec p.heightSlices
        p.PackingAreaWidth (wrap ((nth p.heightSlices (s.leftSliceIndex + 1)).X + w))
        (Count p.heightSlices + 1 - s.rightSliceIndex).toNat s.rightSliceIndex h2
        (Nat.le_refl _)
      simp only [hr1]
      by_cases hout : r > Count p.heightSlices
      · rw [if_pos hout]
        refine ⟨_, _, rfl, hbest _ rfl, ?_, hone⟩
        simp only [List.length_singleton, Nat.cast_one]; omega
      · rw [if_neg hout]
        obtain ⟨s1, record, g1, g2, g3, g4⟩ := ih ⟨_, _, _, s.leftSliceIndex + 1, r⟩
          (show 0 ≤ s.leftSliceIndex + 1 by omega)
          (show s.leftSliceIndex + 1 < Count p.heightSlices by omega)
          (show 0 ≤ r by omega) (show r ≤ Count p.heightSlices by omega)
          (show (Count p.heightSlices - (s.leftSliceIndex + 1)).toNat ≤ n by
            have h6' : (Count p.heightSlices - s.leftSliceIndex).toNat ≤ n + 1 := h6
            omega)
          (hbest _ rfl)
        rw [g1]
        refine ⟨s1, _, rfl, g2, ?_, ?_⟩
        · simp only [List.length_cons, Nat.cast_add, Nat.cast_one]
          simp only at g3
          omega
        · refine List.Chain.cons ⟨by simp only; omega, le_refl _⟩ ?_
          simp only [add_sub_cancel_right] at g4
          cases g4 with
          | nil => exact List.Chain.nil
          | cons hc ht =>
            simp only at hc
            exact List.Chain.cons ⟨hc.1, by simp only; omega⟩ ht

/-- On a sorted silhouette that is not empty the search returns for every rectangle size,
after at most one iteration per slice; the iterations start with the slice indices 0, 1, 2
and so on, and `rightSliceIndex` never goes down. -/
theorem searchIndices_spec (p : CygonRectanglePacker) (hs : SortedX p.heightSlices)
    (hne : 0 < Count p.heightSlices) (w h : Int) :
    (∃ r, tryFindBestPlacement p w h = .ok r) ∧
    ∃ record, searchIndices p w h = .ok record ∧
      (record.length : Int) ≤ Count p.heightSlices ∧
      (∀ a ∈ record.head?, a.1 = 0) ∧
      record.Chain' (fun a b : Int × Int => b.1 = a.1 + 1 ∧ a.2 ≤ b.2) := by
  obtain ⟨found, hbs, hr0⟩ := BinarySearch_range p.heightSlices ⟨w, 0⟩
  obtain ⟨s', record, g1, g2, g3, g4⟩ := searchLoopIndices_spec p w h
    (p.heightSlices.length + 1)
    ⟨-1, 0, wrap (p.PackingAreaWidth * p.PackingAreaHeight), 0,
      if found < 0 then bnot found else found⟩
    (le_refl _) hne hr0.1 hr0.2 (by simp only [Count]; omega) (Or.inl rfl)
  have hloop := searchLoopIndices_fst p w h (p.heightSlices.length + 1)
    ⟨-1, 0, wrap (p.PackingAreaWidth * p.PackingAreaHeight), 0,
      if found < 0 then bnot found else found⟩
  rw [g1] at hloop
  constructor
  · unfold tryFindBestPlacement
    simp only [hbs, bind, Except.bind, ← hloop, Except.map]
    by_cases hb : s'.bestSliceIndex = -1
    · rw [if_pos hb]; exact ⟨_, rfl⟩
    · rw [if_neg hb]
      rcases g2 with g2 | g2
      · exact absurd g2 hb
      · rw [getItem_ok _ _ g2.1 g2.2]; exact ⟨_, rfl⟩
  · refine ⟨record, ?_, ?_, ?_, ?_⟩
    · unfold searchIndices
      simp only [hbs, bind, Except.bind, g1]; rfl
    · simpa using g3
    · intro a ha
      cases g4 with
      | nil => simp at ha
      | cons hc ht =>
        simp only [List.head?_cons, Option.mem_def, Option.some.injEq] at ha
        subst ha
        simp only at hc
        omega
    · cases g4 with
      | nil => exact List.chain'_nil
      | cons hc ht => exact ht

/-! ### The program agrees with the reference model where nothing overflows -/

/-- A comparison whose exact difference is in the 32-bit range. -/
theorem Compare_exact (a v : Point) (h0 : -2147483648 ≤ a.X - v.X)
    (h1 : a.X - v.X < 2147483648) :
    SliceStartComparer.Compare a v = Exact.SliceStartComparer.Compare a v := by
  unfold SliceStartComparer.Compare Exact.SliceStartComparer.Compare
  exact wrap_eq _ h0 h1

theorem BinarySearchLoop_exact (l : List Point) (v : Point)
    (hr : ∀ s ∈ l, -2147483648 ≤ s.X - v.X ∧ s.X - v.X < 2147483648) :
    ∀ (fuel : Nat) (lo hi : Int),
      BinarySearchLoop l v fuel lo hi = Exact.BinarySearchLoop l v fuel lo hi := by
  intro fuel
  induction fuel with
  | zero => intro lo hi; rfl
  | succ n ih =>
    intro lo hi
    unfold BinarySearchLoop Exact.BinarySearchLoop
    by_cases hle : lo ≤ hi
    · rw [if_pos hle, if_pos hle]
      simp only [bind, Except.bind]
      cases hget : getItem l (lo + (hi - lo) / 2) with
      | error e => rfl
      | ok a =>
        obtain ⟨g0, g1, g2⟩ := getItem_eq_ok hget
        have hmem : a ∈ l := by rw [g2]; exact nth_mem l _ g0 g1
        simp only
        rw [Compare_exact a v (hr a hmem).1 (hr a hmem).2, ih, ih]
    · rw [if_neg hle, if_neg hle]

theorem BinarySearchRange_exact (l : List Point) (v : Point)
    (hr : ∀ s ∈ l, -2147483648 ≤ s.X - v.X ∧ s.X - v.X < 2147483648) (index count : Int) :
    BinarySearchRange l index count v = Exact.BinarySearchRange l index count v := by
  unfold BinarySearchRange Exact.BinarySearchRange
  rw [BinarySearchLoop_exact l v hr]

theorem BinarySearch_exact (l : List Point) (v : Point)
    (hr : ∀ s ∈ l, -2147483648 ≤ s.X - v.X ∧ s.X - v.X < 2147483648) :
    BinarySearch l v = Exact.BinarySearch l v := by
  unfold BinarySearch Exact.BinarySearch
  exact BinarySearchRange_exact l v hr _ _

/-- The maximum that lines 96-99 compute is the start value or the height of a slice. -/
theorem highestLoop_mem (l : List Point) (right : Int) :
    ∀ (fuel : Nat) (index highest r : Int),
      highestLoop l right fuel index highest = .ok r → r = highest ∨ ∃ s ∈ l, r = s.Y := by
  intro fuel
  induction fuel with
  | zero =>
    intro index highest r hrun
    unfold highestLoop at hrun
    split at hrun
    · cases hrun
    · injection hrun with hrun; exact Or.inl hrun.symm
  | succ n ih =>
    intro index highest r hrun
    unfold highestLoop at hrun
    split at hrun
    · cases hget : getItem l index with
      | error e => rw [hget] at hrun; cases hrun
      | ok a =>
        rw [hget] at hrun
        simp only [bind, Except.bind] at hrun
        obtain ⟨g0, g1, g2⟩ := getItem_eq_ok hget
        have hmem : a ∈ l := by rw [g2]; exact nth_mem l _ g0 g1
        rcases ih _ _ _ hrun with h | h
        · by_cases hc : a.Y > highest
          · rw [if_pos hc] at h; exact Or.inr ⟨a, hmem, h⟩
          · rw [if_neg hc] at h; exact Or.inl h
        · exact Or.inr h
    · injection hrun with hrun; exact Or.inl hrun.symm

theorem searchLoop_exact (p : CygonRectanglePacker) (w h : Int)
    (hX : ∀ s ∈ p.heightSlices, -2147483648 ≤ s.X + w ∧ s.X + w < 2147483648)
    (hY : ∀ s ∈ p.heightSlices, -2147483648 ≤ s.Y + h ∧ s.Y + h < 2147483648) :
    ∀ (fuel : Nat) (s : SearchState),
      searchLoop p w h fuel s = Exact.searchLoop p w h fuel s := by
  intro fuel
  induction fuel with
  | zero => intro s; rfl
  | succ n ih =>
    intro s
    unfold searchLoop Exact.searchLoop
    by_cases hc : s.rightSliceIndex ≤ Count p.heightSlices
    · rw [if_pos hc, if_pos hc]
      cases hfirst : getItem p.heightSlices s.leftSliceIndex with
      | error e => rfl
      | ok first =>
        obtain ⟨g0, g1, g2⟩ := getItem_eq_ok hfirst
        have hmem : first ∈ p.heightSlices := by rw [g2]; exact nth_mem _ _ g0 g1
        simp only [bind, Except.bind]
        cases hhi : highestLoop p.heightSlices s.rightSliceIndex
            (s.rightSliceIndex - (s.leftSliceIndex + 1)).toNat (s.leftSliceIndex + 1)
            first.Y with
        | error e => rfl
        | ok highest =>
          have hin : ∃ t ∈ p.heightSlices, highest = t.Y := by
            rcases highestLoop_mem _ _ _ _ _ _ hhi with a | a
            · exact ⟨first, hmem, a⟩
            · exact a
          obtain ⟨t, ht, hteq⟩ := hin
          have e1 : wrap (highest + h) = highest + h := by
            rw [hteq]; exact wrap_eq _ (hY t ht).1 (hY t ht).2
          simp only [e1]
          by_cases hend : s.leftSliceIndex + 1 ≥ Count p.heightSlices
          · rw [if_pos hend, if_pos hend]
          · rw [if_neg hend, if_neg hend]
            cases hleft : getItem p.heightSlices (s.leftSliceIndex + 1) with
            | error e => rfl
            | ok left =>
              obtain ⟨k0, k1, k2⟩ := getItem_eq_ok hleft
              have hmem2 : left ∈ p.heightSlices := by rw [k2]; exact nth_mem _ _ k0 k1
              have e2 : wrap (left.X + w) = left.X + w :=
                wrap_eq _ (hX left hmem2).1 (hX left hmem2).2
              simp only [e2]
              cases hadv : advanceRight p.heightSlices p.PackingAreaWidth (left.X + w)
                  (Count p.heightSlices + 1 - s.rightSliceIndex).toNat
                  s.rightSliceIndex with
              | error e => rfl
              | ok r =>
                simp only
                by_cases hout : r > Count p.heightSlices
                · rw [if_pos hout, if_pos hout]
                · rw [if_neg hout, if_neg hout, ih]
    · rw [if_neg hc, if_neg hc]

theorem searchLoopTrace_exact (p : CygonRectanglePacker) (w h : Int)
    (hX : ∀ s ∈ p.heightSlices, -2147483648 ≤ s.X + w ∧ s.X + w < 2147483648)
    (hY : ∀ s ∈ p.heightSlices, -2147483648 ≤ s.Y + h ∧ s.Y + h < 2147483648) :
    ∀ (fuel : Nat) (s : SearchState) (record : List (Int × Int)),
      searchLoopTrace p w h fuel s record = Exact.searchLoopTrace p w h fuel s record := by
  intro fuel
  induction fuel with
  | zero => intro s record; rfl
  | succ n ih =>
    intro s record
    unfold searchLoopTrace Exact.searchLoopTrace
    by_cases hc : s.rightSliceIndex ≤ Count p.heightSlices
    · rw [if_pos hc, if_pos hc]
      cases hfirst : getItem p.heightSlices s.leftSliceIndex with
      | error e => rfl
      | ok first =>
        obtain ⟨g0, g1, g2⟩ := getItem_eq_ok hfirst
        have hmem : first ∈ p.heightSlices := by rw [g2]; exact nth_mem _ _ g0 g1
        simp only [bind, Except.bind]
        cases hhi : highestLoop p.heightSlices s.rightSliceIndex
            (s.rightSliceIndex - (s.leftSliceIndex + 1)).toNat (s.leftSliceIndex + 1)
            first.Y with
        | error e => rfl
        | ok highest =>
          have hin : ∃ t ∈ p.heightSlices, highest = t.Y := by
            rcases highestLoop_mem _ _ _ _ _ _ hhi with a | a
            · exact ⟨first, hmem, a⟩
            · exact a
          obtain ⟨t, ht, hteq⟩ := hin
          have e1 : wrap (highest + h) = highest + h := by
            rw [hteq]; exact wrap_eq _ (hY t ht).1 (hY t ht).2
          simp only [e1]
          by_cases hend : s.leftSliceIndex + 1 ≥ Count p.heightSlices
          · rw [if_pos hend, if_pos hend]
          · rw [if_neg hend, if_neg hend]
            cases hleft : getItem p.heightSlices (s.leftSliceIndex + 1) with
            | error e => rfl
            | ok left =>
              obtain ⟨k0, k1, k2⟩ := getItem_eq_ok hleft
              have hmem2 : left ∈ p.heightSlices := by rw [k2]; exact nth_mem _ _ k0 k1
              have e2 : wrap (left.X + w) = left.X + w :=
                wrap_eq _ (hX left hmem2).1 (hX left hmem2).2
              simp only [e2]
              cases hadv : advanceRight p.heightSlices p.PackingAreaWidth (left.X + w)
                  (Count p.heightSlices + 1 - s.rightSliceIndex).toNat
                  s.rightSliceIndex with
              | error e => rfl
              | ok r =>
                simp only
                by_cases hout : r > Count p.heightSlices
                · rw [if_pos hout, if_pos hout]
                · rw [if_neg hout, if_neg hout, ih]
    · rw [if_neg hc, if_neg hc]

theorem tryFindBestPlacement_exact (p : CygonRectanglePacker) (w h : Int)
    (hA : -2147483648 ≤ p.PackingAreaWidth * p.PackingAreaHeight ∧
      p.PackingAreaWidth * p.PackingAreaHeight < 2147483648)
    (hC : ∀ s ∈ p.heightSlices, -2147483648 ≤ s.X - w ∧ s.X - w < 2147483648)
    (hX : ∀ s ∈ p.heightSlices, -2147483648 ≤ s.X + w ∧ s.X + w < 2147483648)
    (hY : ∀ s ∈ p.heightSlices, -2147483648 ≤ s.Y + h ∧ s.Y + h < 2147483648) :
    tryFindBestPlacement p w h = Exact.tryFindBestPlacement p w h := by
  unfold tryFindBestPlacement Exact.tryFindBestPlacement
  rw [BinarySearch_exact p.heightSlices ⟨w, 0⟩ hC, wrap_eq _ hA.1 hA.2]
  simp only [searchLoop_exact p w h hX hY]

theorem searchTrace_exact (p : CygonRectanglePacker) (w h : Int)
    (hA : -2147483648 ≤ p.PackingAreaWidth * p.PackingAreaHeight ∧
      p.PackingAreaWidth * p.PackingAreaHeight < 2147483648)
    (hC : ∀ s ∈ p.heightSlices, -2147483648 ≤ s.X - w ∧ s.X - w < 2147483648)
    (hX : ∀ s ∈ p.heightSlices, -2147483648 ≤ s.X + w ∧ s.X + w < 2147483648)
    (hY : ∀ s ∈ p.heightSlices, -2147483648 ≤ s.Y + h ∧ s.Y + h < 2147483648) :
    searchTrace p w h = Exact.searchTrace p w h := by
  unfold searchTrace Exact.searchTrace
  rw [BinarySearch_exact p.heightSlices ⟨w, 0⟩ hC, wrap_eq _ hA.1 hA.2]
  simp only [searchLoopTrace_exact p w h hX hY]

theorem integrateStart_exact (l : List Point) (left bottom : Int)
    (hC : ∀ s ∈ l, -2147483648 ≤ s.X - left ∧ s.X - left < 2147483648) :
    integrateStart l left bottom = Exact.integrateStart l left bottom := by
  unfold integrateStart Exact.integrateStart
  rw [BinarySearch_exact l ⟨left, 0⟩ hC]

theorem integrateEnd_exact (W : Int) (l : List Point) (startSlice first right : Int)
    (hC : ∀ s ∈ l, -2147483648 ≤ s.X - right ∧ s.X - right < 2147483648) :
    integrateEnd W l startSlice first right = Exact.integrateEnd W l startSlice first right := by
  unfold integrateEnd Exact.integrateEnd
  rw [BinarySearchRange_exact l ⟨right, 0⟩ hC]

/-- The list that the first half of `integrateRectangle` leaves holds old slices and the
new one. -/
theorem integrateStart_mem (l : List Point) (left bottom : Int) (i f : Int) (l2 : List Point)
    (hrun : Exact.integrateStart l left bottom = .ok (i, f, l2)) :
    ∀ s ∈ l2, s ∈ l ∨ s = ⟨left, bottom⟩ := by
  unfold Exact.integrateStart at hrun
  cases hbs : Exact.BinarySearch l ⟨left, 0⟩ with
  | error e => rw [hbs] at hrun; cases hrun
  | ok r =>
    rw [hbs] at hrun
    simp only [bind, Except.bind] at hrun
    split at hrun
    · cases hget : getItem l r with
      | error e => rw [hget] at hrun; cases hrun
      | ok old =>
        rw [hget] at hrun
        simp only at hrun
        unfold setItem at hrun
        by_cases hc : r < 0 ∨ Count l ≤ r
        · rw [if_pos hc] at hrun; cases hrun
        · rw [if_neg hc] at hrun
          simp only [pure, Except.pure] at hrun
          injection hrun with hrun
          injection hrun with _ hrun
          injection hrun with _ hrun
          subst hrun
          intro s hs
          exact List.mem_or_eq_of_mem_set hs
    · cases hget : getItem l (bnot r - 1) with
      | error e => rw [hget] at hrun; cases hrun
      | ok before =>
        rw [hget] at hrun
        simp only at hrun
        unfold Insert at hrun
        by_cases hc : bnot r < 0 ∨ Count l < bnot r
        · rw [if_pos hc] at hrun; cases hrun
        · rw [if_neg hc] at hrun
          simp only [pure, Except.pure] at hrun
          injection hrun with hrun
          injection hrun with _ hrun
          injection hrun with _ hrun
          subst hrun
          intro s hs
          rcases List.mem_append.mp hs with a | a
          · exact Or.inl (List.mem_of_mem_take a)
          · rcases List.mem_cons.mp a with a | a
            · exact Or.inr a
            · exact Or.inl (List.mem_of_mem_drop a)

theorem integrateRectangle_exact (p : CygonRectanglePacker) (left width bottom : Int)
    (hl : 0 ≤ left) (hw : 0 ≤ width) (hlw : left + width < 2147483648)
    (hX : ∀ s ∈ p.heightSlices, 0 ≤ s.X ∧ s.X < 2147483648) :
    integrateRectangle p left width bottom = Exact.integrateRectangle p left width bottom := by
  unfold integrateRectangle Exact.integrateRectangle
  rw [integrateStart_exact p.heightSlices left bottom
    (fun s hs => by have := hX s hs; omega), wrap_eq _ (by omega) hlw]
  cases hst : Exact.integrateStart p.heightSlices left bottom with
  | error e => rfl
  | ok r =>
    obtain ⟨i, f, l2⟩ := r
    simp only [bind, Except.bind]
    apply integrateEnd_exact
    intro s hs
    rcases integrateStart_mem _ _ _ _ _ _ hst s hs with a | a
    · have := hX s a; omega
    · rw [a]; simp only; omega

/-- No slice of a well-formed silhouette starts left of column 0. -/
theorem WellFormed.x_nonneg {p : CygonRectanglePacker} (hwf : WellFormed p) :
    ∀ s ∈ p.heightSlices, 0 ≤ s.X := by
  intro s hs
  obtain ⟨j, hj0, hj1, rfl⟩ := (mem_iff_nth _ _).1 hs
  have := hwf.sorted.nth_le (i := 0) (j := j) (le_refl 0) hj0 hj1
  have := hwf.first
  omega

/-- One `TryPack` call of the program is the call of the reference model when the request
is positive and, in case it passes the size check, the area of the surface and the sums
`X + rectangleWidth` and `Y + rectangleHeight` over the slices are below `2^31`. -/
theorem TryPack_exact (p : CygonRectanglePacker) (hwf : WellFormed p) (w h : Int)
    (hw : 0 < w) (hh : 0 < h)
    (hsafe : w ≤ p.PackingAreaWidth → h ≤ p.PackingAreaHeight →
      p.PackingAreaWidth * p.PackingAreaHeight < 2147483648 ∧
      ∀ s ∈ p.heightSlices, s.X + w < 2147483648 ∧ s.Y + h < 2147483648) :
    TryPack p w h = Exact.TryPack p w h := by
  unfold TryPack Exact.TryPack
  by_cases hg : w > p.PackingAreaWidth ∨ h > p.PackingAreaHeight
  · rw [if_pos hg, if_pos hg]
  · rw [if_neg hg, if_neg hg]
    have hwW : w ≤ p.PackingAreaWidth := by omega
    have hhH : h ≤ p.PackingAreaHeight := by omega
    obtain ⟨hA, hXY⟩ := hsafe hwW hhH
    have hx0 := hwf.x_nonneg
    have hy0 := hwf.ynn
    have hHle : p.PackingAreaHeight ≤ p.PackingAreaWidth * p.PackingAreaHeight := by
      nlinarith
    have hWle : p.PackingAreaWidth ≤ p.PackingAreaWidth * p.PackingAreaHeight := by
      nlinarith
    rw [tryFindBestPlacement_exact p w h ⟨by omega, hA⟩
      (fun s hs => by have := hXY s hs; have := hx0 s hs; omega)
      (fun s hs => by have := hXY s hs; have := hx0 s hs; omega)
      (fun s hs => by have := hXY s hs; have := hy0 s hs; omega)]
    obtain ⟨fits, pt, hfind, -, htrue⟩ := Exact.tryFindBestPlacement_spec p hwf w h hw hwW
    rw [hfind]
    simp only [bind, Except.bind]
    cases fits with
    | false => rfl
    | true =>
      obtain ⟨b, ⟨hb0, hb1, hbW, hyH, hynn, -⟩, hxb⟩ := htrue rfl
      have hmem := nth_mem p.heightSlices b hb0 hb1
      simp only [if_true]
      rw [wrap_eq _ (by omega) (by omega),
        integrateRectangle_exact p pt.X w (pt.Y + h)
          (by rw [hxb]; exact hx0 _ hmem) (le_of_lt hw) (by rw [hxb]; omega)
          (fun s hs => by have := hXY s hs; have := hx0 s hs; omega)]

theorem Pack_exact (p : CygonRectanglePacker) (hwf : WellFormed p) (w h : Int)
    (hw : 0 < w) (hh : 0 < h)
    (hsafe : w ≤ p.PackingAreaWidth → h ≤ p.PackingAreaHeight →
      p.PackingAreaWidth * p.PackingAreaHeight < 2147483648 ∧
      ∀ s ∈ p.heightSlices, s.X + w < 2147483648 ∧ s.Y + h < 2147483648) :
    Pack p w h = Exact.Pack p w h := by
  unfold Pack Exact.Pack
  rw [TryPack_exact p hwf w h hw hh hsafe]

namespace Exact

/-- An accepted rectangle ends below the top, so the slices stay below the top. -/
theorem TryPack_belowTop (p : CygonRectanglePacker) (hwf : WellFormed p) (hlow : BelowTop p)
    (w h : Int) (hw : 0 < w) (hh : 0 < h) (fits : Bool) (pt : Point)
    (p' : CygonRectanglePacker) (ht : TryPack p w h = .ok (fits, pt, p')) :
    WellFormed p' ∧ BelowTop p' ∧ p'.PackingAreaWidth = p.PackingAreaWidth ∧
      p'.PackingAreaHeight = p.PackingAreaHeight := by
  obtain ⟨fits2, pt2, p2, ht2, hwf2, hW2, hH2, hfalse, htrue⟩ := TryPack_spec p hwf w h hw hh
  rw [ht] at ht2
  injection ht2 with ht2
  injection ht2 with g1 g2
  injection g2 with g2 g3
  subst g1; subst g2; subst g3
  refine ⟨hwf2, ?_, hW2, hH2⟩
  cases fits with
  | false =>
    obtain ⟨rfl, -⟩ := hfalse rfl
    exact hlow
  | true =>
    obtain ⟨hx0, hy0, hxW, hyH, -, -, hnew⟩ := htrue rfl
    intro hH s hs
    rw [hH2] at hH ⊢
    obtain ⟨j, hj0, hj1, rfl⟩ := (mem_iff_nth _ _).1 hs
    have hxlt : (nth p'.heightSlices j).X < p.PackingAreaWidth := by
      have := hwf2.xlt (by omega) _ hs
      omega
    have hx0j := hwf2.x_nonneg _ hs
    rw [← heightAt_nth p'.heightSlices hwf2.sorted j hj0 hj1, hnew _ hxlt]
    split
    · exact hyH
    · obtain ⟨k, hk0, hk1, -, hk3, -⟩ := heightAt_eq_nth p.heightSlices (nth p'.heightSlices j).X 0
        (le_refl 0) hwf.nonempty (by rw [hwf.first]; exact hx0j)
      rw [hk3]
      exact hlow hH _ (nth_mem _ _ (by omega) hk1)

end Exact

/-- On a small surface the sums that a positive request computes stay below `2^31`. -/
theorem safe_of_small (p : CygonRectanglePacker) (hwf : WellFormed p) (hlow : BelowTop p)
    (hsmall : SmallSurface p.PackingAreaWidth p.PackingAreaHeight) (w h : Int)
    (hw : 0 < w) (hh : 0 < h) :
    w ≤ p.PackingAreaWidth → h ≤ p.PackingAreaHeight →
      p.PackingAreaWidth * p.PackingAreaHeight < 2147483648 ∧
      ∀ s ∈ p.heightSlices, s.X + w < 2147483648 ∧ s.Y + h < 2147483648 := by
  intro hwW hhH
  obtain ⟨h1, h2, h3⟩ := hsmall
  refine ⟨h3 (by omega) (by omega), fun s hs => ?_⟩
  have := hwf.xlt (by omega) s hs
  have := hlow (by omega) s hs
  omega

/-- The packing area does not change. -/
theorem TryPack_dims (p : CygonRectanglePacker) (w h : Int) (fits : Bool) (pt : Point)
    (p' : CygonRectanglePacker) (ht : TryPack p w h = .ok (fits, pt, p')) :
    p'.PackingAreaWidth = p.PackingAreaWidth ∧ p'.PackingAreaHeight = p.PackingAreaHeight := by
  unfold TryPack at ht
  split at ht
  · injection ht with ht
    injection ht with _ ht
    injection ht with _ ht
    subst ht; exact ⟨rfl, rfl⟩
  · cases hfind : tryFindBestPlacement p w h with
    | error e => rw [hfind] at ht; cases ht
    | ok res =>
      obtain ⟨f, q⟩ := res
      rw [hfind] at ht
      cases f with
      | false =>
        simp only [bind, Except.bind, pure, Except.pure] at ht
        injection ht with ht
        injection ht with _ ht
        injection ht with _ ht
        subst ht; exact ⟨rfl, rfl⟩
      | true =>
        simp only [bind, Except.bind, pure, Except.pure] at ht
        cases hint : integrateRectangle p q.X w (wrap (q.Y + h)) with
        | error e => rw [hint] at ht; cases ht
        | ok l =>
          rw [hint] at ht
          injection ht with ht
          injection ht with _ ht
          injection ht with _ ht
          subst ht; exact ⟨rfl, rfl⟩

/-- A sequence of positive requests on a small surface runs in the program as it runs in
the reference model. -/
theorem packSequence_exact (reqs : List (Int × Int)) :
    ∀ p : CygonRectanglePacker, WellFormed p → BelowTop p →
      SmallSurface p.PackingAreaWidth p.PackingAreaHeight →
      (∀ r ∈ reqs, 0 < r.1 ∧ 0 < r.2) →
      packSequence p reqs = Exact.packSequence p reqs := by
  induction reqs with
  | nil => intro p _ _ _ _; rfl
  | cons req rest ih =>
    intro p hwf hlow hsmall hpos
    obtain ⟨w, h⟩ := req
    have hwh := hpos (w, h) (List.mem_cons_self _ _)
    simp only at hwh
    have hpos2 : ∀ r ∈ rest, 0 < r.1 ∧ 0 < r.2 := fun r hr => hpos r (List.mem_cons_of_mem _ hr)
    unfold packSequence Exact.packSequence
    rw [TryPack_exact p hwf w h hwh.1 hwh.2 (safe_of_small p hwf hlow hsmall w h hwh.1 hwh.2)]
    cases ht : Exact.TryPack p w h with
    | error e => rfl
    | ok res =>
      obtain ⟨fits, pt, p1⟩ := res
      obtain ⟨a1, a2, a3, a4⟩ := Exact.TryPack_belowTop p hwf hlow w h hwh.1 hwh.2 _ _ _ ht
      simp only [bind, Except.bind]
      rw [ih p1 a1 a2 (by rw [a3, a4]; exact hsmall) hpos2]

theorem tryPackAll_exact (rects : List Rectangle) :
    ∀ p : CygonRectanglePacker, WellFormed p → BelowTop p →
      SmallSurface p.PackingAreaWidth p.PackingAreaHeight →
      (∀ r ∈ rects, 0 < r.Width ∧ 0 < r.Height) →
      tryPackAll p rects = Exact.tryPackAll p rects := by
  induction rects with
  | nil => intro p _ _ _ _; rfl
  | cons r rest ih =>
    intro p hwf hlow hsmall hpos
    have hwh := hpos r (List.mem_cons_self _ _)
    have hpos2 : ∀ r ∈ rest, 0 < r.Width ∧ 0 < r.Height :=
      fun r hr => hpos r (List.mem_cons_of_mem _ hr)
    unfold tryPackAll Exact.tryPackAll
    rw [TryPack_exact p hwf _ _ (by omega) (by omega)
      (safe_of_small p hwf hlow hsmall _ _ (by omega) (by omega))]
    cases ht : Exact.TryPack p (r.Width + 1) (r.Height + 1) with
    | error e => rfl
    | ok res =>
      obtain ⟨fits, pt, p1⟩ := res
      obtain ⟨a1, a2, a3, a4⟩ := Exact.TryPack_belowTop p hwf hlow _ _ (by omega) (by omega)
        _ _ _ ht
      simp only [bind, Except.bind]
      rw [ih p1 a1 a2 (by rw [a3, a4]; exact hsmall) hpos2]

theorem packAll_exact (reqs : List (Int × Int)) :
    ∀ p : CygonRectanglePacker, WellFormed p → BelowTop p →
      SmallSurface p.PackingAreaWidth p.PackingAreaHeight →
      (∀ r ∈ reqs, 0 < r.1 ∧ 0 < r.2) →
      packAll p reqs = Exact.packAll p reqs := by
  induction reqs with
  | nil => intro p _ _ _ _; rfl
  | cons req rest ih =>
    intro p hwf hlow hsmall hpos
    obtain ⟨w, h⟩ := req
    have hwh := hpos (w, h) (List.mem_cons_self _ _)
    simp only at hwh
    have hpos2 : ∀ r ∈ rest, 0 < r.1 ∧ 0 < r.2 := fun r hr => hpos r (List.mem_cons_of_mem _ hr)
    unfold packAll Exact.packAll
    rw [Pack_exact p hwf w h hwh.1 hwh.2 (safe_of_small p hwf hlow hsmall w h hwh.1 hwh.2)]
    cases hp : Exact.Pack p w h with
    | error e => rfl
    | ok res =>
      obtain ⟨pt, p1⟩ := res
      have ht : Exact.TryPack p w h = .ok (true, pt, p1) := by
        unfold Exact.Pack at hp
        cases ht : Exact.TryPack p w h with
        | error e => rw [ht] at hp; cases hp
        | ok r =>
          obtain ⟨f, q, p2⟩ := r
          rw [ht] at hp
          cases f with
          | false => cases hp
          | true =>
            simp only [bind, Except.bind, pure, Except.pure] at hp
            injection hp with hp
            injection hp with g1 g2
            rw [g1, g2]
      obtain ⟨a1, a2, a3, a4⟩ := Exact.TryPack_belowTop p hwf hlow w h hwh.1 hwh.2 _ _ _ ht
      simp only [bind, Except.bind]
      rw [ih p1 a1 a2 (by rw [a3, a4]; exact hsmall) hpos2]

/-- The slice of a fresh packer is below the top. -/
theorem BelowTop_create (W H : Int) : BelowTop (CygonRectanglePacker.create W H) := by
  intro hH s hs
  simp only [CygonRectanglePacker.create, Add, List.nil_append, List.mem_singleton] at hs hH
  rw [hs]
  exact hH

/-- The candidate sizes of the size search are small. -/
theorem SmallSurface_candidate (q : Nat) (hq : q ≤ 15) :
    SmallSurface ((2 : Int) ^ q) ((2 : Int) ^ q) := by
  have h1 : (2 : Int) ^ q ≤ 2 ^ 15 := pow_le_pow_right₀ (by norm_num) hq
  have h2 : (0 : Int) < 2 ^ q := by positivity
  refine ⟨by omega, by omega, fun _ _ => ?_⟩
  nlinarith

theorem sizeLoop_exact (rects : List Rectangle)
    (hpos : ∀ r ∈ rects, 0 < r.Width ∧ 0 < r.Height) (powers : List Nat)
    (hq : ∀ q ∈ powers, q ≤ 15) :
    sizeLoop rects powers = Exact.sizeLoop rects powers := by
  induction powers with
  | nil => rfl
  | cons q rest ih =>
    unfold sizeLoop Exact.sizeLoop
    simp only
    rw [tryPackAll_exact rects _ (WellFormed_create _ _) (BelowTop_create _ _)
      (SmallSurface_candidate q (hq q (List.mem_cons_self _ _))) hpos,
      ih (fun q hq2 => hq q (List.mem_cons_of_mem _ hq2))]

theorem determineOptimalTextureSize_exact (measured : List Rectangle) :
    determineOptimalTextureSize measured = Exact.determineOptimalTextureSize measured := by
  unfold determineOptimalTextureSize Exact.determineOptimalTextureSize
  exact sizeLoop_exact _ (kept_positive measured) _ (by decide)

theorem AllFit_exact (size : Int) (hsmall : SmallSurface size size) (reqs : List (Int × Int))
    (hpos : ∀ r ∈ reqs, 0 < r.1 ∧ 0 < r.2) : AllFit size reqs ↔ Exact.AllFit size reqs := by
  unfold AllFit Exact.AllFit
  rw [packSequence_exact reqs _ (WellFormed_create _ _) (BelowTop_create _ _) hsmall hpos]

theorem SomeFails_exact (size : Int) (hsmall : SmallSurface size size)
    (reqs : List (Int × Int)) (hpos : ∀ r ∈ reqs, 0 < r.1 ∧ 0 < r.2) :
    SomeFails size reqs ↔ Exact.SomeFails size reqs := by
  unfold SomeFails Exact.SomeFails
  rw [packSequence_exact reqs _ (WellFormed_create _ _) (BelowTop_create _ _) hsmall hpos]

/-- The candidate sizes are small surfaces. -/
theorem SmallSurface_of_candidate (c : Int) (hc : c ∈ candidateSizes) : SmallSurface c c := by
  simp only [candidateSizes, List.mem_cons, List.mem_singleton, List.not_mem_nil,
    or_false] at hc
  rcases hc with rfl | rfl | rfl | rfl | rfl | rfl <;>
    exact ⟨by norm_num, by norm_num, fun _ _ => by norm_num⟩

/-- A state the program reaches on a small surface is a state of the reference model, with
every slice below the top. -/
theorem Reachable.exact {p : CygonRectanglePacker} (hr : Reachable p) :
    SmallSurface p.PackingAreaWidth p.PackingAreaHeight → Exact.Reachable p ∧ BelowTop p := by
  induction hr with
  | fresh W H => intro _; exact ⟨Exact.Reachable.fresh W H, BelowTop_create W H⟩
  | step hp hw hh ht ih =>
    intro hsmall
    obtain ⟨d1, d2⟩ := TryPack_dims _ _ _ _ _ _ ht
    rw [d1, d2] at hsmall
    obtain ⟨e1, e2⟩ := ih hsmall
    rw [TryPack_exact _ e1.wellFormed _ _ hw hh
      (safe_of_small _ e1.wellFormed e2 hsmall _ _ hw hh)] at ht
    exact ⟨Exact.Reachable.step e1 hw hh ht,
      (Exact.TryPack_belowTop _ e1.wellFormed e2 _ _ hw hh _ _ _ ht).2.1⟩

/-- The state after a sequence of positive requests on a fresh packer is reachable. -/
theorem Reachable.of_sequence (reqs : List (Int × Int)) :
    ∀ (p : CygonRectanglePacker) (results : List (Bool × Rectangle))
      (p' : CygonRectanglePacker), Reachable p → (∀ r ∈ reqs, 0 < r.1 ∧ 0 < r.2) →
      packSequence p reqs = .ok (results, p') → Reachable p' := by
  induction reqs with
  | nil =>
    intro p results p' hr _ hrun
    injection hrun with hrun
    injection hrun with _ hrun
    rw [← hrun]; exact hr
  | cons req rest ih =>
    intro p results p' hr hpos hrun
    obtain ⟨w, h⟩ := req
    have hwh := hpos (w, h) (List.mem_cons_self _ _)
    simp only at hwh
    unfold packSequence at hrun
    cases ht : TryPack p w h with
    | error e => rw [ht] at hrun; cases hrun
    | ok res =>
      obtain ⟨fits, pt, p1⟩ := res
      rw [ht] at hrun
      simp only [bind, Except.bind] at hrun
      cases hrest : packSequence p1 rest with
      | error e => rw [hrest] at hrun; cases hrun
      | ok r2 =>
        obtain ⟨res2, p2⟩ := r2
        rw [hrest] at hrun
        simp only [pure, Except.pure] at hrun
        injection hrun with hrun
        injection hrun with _ hrun
        subst hrun
        exact ih p1 res2 p2 (Reachable.step hr hwh.1 hwh.2 ht)
          (fun r hr2 => hpos r (List.mem_cons_of_mem _ hr2)) hrest

/-! ### The record of evaluated candidates -/

/-- The size search of the program returns the first candidate size at which every request
is accepted, or raises the out-of-space exception when there is none: the candidate sizes
are small, so the trials run as in the reference model. -/
theorem sizeSearch_spec (measured : List Rectangle) :
    (∃ s, determineOptimalTextureSize measured = .ok s ∧ s ∈ candidateSizes ∧
      AllFit s (paddedRequests measured) ∧
      ∀ c ∈ candidateSizes, c < s → SomeFails c (paddedRequests measured)) ∨
    (determineOptimalTextureSize measured = .error Exn.OutOfSpace ∧
      ∀ c ∈ candidateSizes, SomeFails c (paddedRequests measured)) := by
  have hpos := paddedRequests_positive measured
  rw [determineOptimalTextureSize_exact]
  rcases Exact.determineOptimalTextureSize_spec measured with ⟨s, h1, h2, h3, h4⟩ | ⟨h1, h2⟩
  · refine Or.inl ⟨s, h1, h2, ?_, ?_⟩
    · exact (AllFit_exact s (SmallSurface_of_candidate s h2) _ hpos).2 h3
    · intro c hc hlt
      exact (SomeFails_exact c (SmallSurface_of_candidate c hc) _ hpos).2 (h4 c hc hlt)
  · refine Or.inr ⟨h1, ?_⟩
    intro c hc
    exact (SomeFails_exact c (SmallSurface_of_candidate c hc) _ hpos).2 (h2 c hc)

/-- A sequence of calls has one outcome: either every request is accepted or one is
refused. -/
theorem AllFit_excludes_SomeFails (size : Int) (reqs : List (Int × Int))
    (h : AllFit size reqs) : ¬ SomeFails size reqs := by
  obtain ⟨results, p', h1, hall⟩ := h
  rintro ⟨results2, p2, h3, r, hr, hrf⟩
  rw [h1] at h3
  injection h3 with h3
  injection h3 with h3 _
  subst h3
  have := hall r hr
  rw [hrf] at this; cases this

/-- The size search on the first part of the boxes returns a size that is at most the size
it returns on all of them. -/
theorem sizeSearch_of_append (a b : List Rectangle) (s : Int)
    (hs : determineOptimalTextureSize (a ++ b) = .ok s) :
    ∃ t, determineOptimalTextureSize a = .ok t ∧ t ≤ s := by
  rw [determineOptimalTextureSize_exact] at hs ⊢
  exact Exact.determineOptimalTextureSize_of_append a b s hs

/-! ### Requests on a silhouette of one slice -/

/-- A packer whose silhouette is one slice of height `S >= 0` at column 0 is well formed. -/
theorem WellFormed_single (W H S : Int) (hS : 0 ≤ S) : WellFormed ⟨W, H, [⟨0, S⟩]⟩ where
  sorted := List.pairwise_singleton _ _
  nonempty := by simp [Count]
  first := rfl
  xlt := by
    intro hW s hs
    rw [List.mem_singleton.mp hs]
    exact hW
  ynn := by
    intro s hs
    rw [List.mem_singleton.mp hs]
    exact hS

/-- On a surface of area below `2^31` a request that fits above a single slice is accepted
at column 0, on top of the slice. -/
theorem TryPack_single_accept32 (W H S w h : Int) (hw : 0 < w) (hwW : w ≤ W) (hh : 0 < h)
    (hS : 0 ≤ S) (hfit : S + h < H) (hA : W * H < 2147483648) :
    TryPack ⟨W, H, [⟨0, S⟩]⟩ w h =
      .ok (true, ⟨0, S⟩, ⟨W, H, if w < W then [⟨0, S + h⟩, ⟨w, S⟩] else [⟨0, S + h⟩]⟩) := by
  have hWle : W ≤ W * H := by nlinarith
  have hHle : H ≤ W * H := by nlinarith
  rw [TryPack_exact _ (WellFormed_single W H S hS) w h hw hh]
  · exact Exact.TryPack_single_accept W H S w h hw hwW hh hS hfit
  · intro _ _
    refine ⟨hA, fun s hs => ?_⟩
    rw [List.mem_singleton.mp hs]
    simp only
    omega

theorem packSequence_cons32 (p p1 : CygonRectanglePacker) (w h : Int) (fits : Bool)
    (pt : Point) (rest : List (Int × Int)) (ht : TryPack p w h = .ok (fits, pt, p1)) :
    packSequence p ((w, h) :: rest) =
      (packSequence p1 rest >>= fun r => pure ((fits, ⟨pt.X, pt.Y, w, h⟩) :: r.1, r.2)) := by
  simp only [packSequence, ht, bind, Except.bind]

/-- Full-width requests on a silhouette of one slice are stacked, whatever follows them. -/
theorem packSequence_stacked32 (W H : Int) (hW : 0 < W) (hA : W * H < 2147483648)
    (more : List (Int × Int)) (hs : List Int) :
    ∀ S, 0 ≤ S → (∀ h ∈ hs, 0 < h) → S + hs.sum < H →
      packSequence ⟨W, H, [⟨0, S⟩]⟩ (hs.map (fun h => (W, h)) ++ more) =
        (packSequence ⟨W, H, [⟨0, S + hs.sum⟩]⟩ more >>= fun r =>
          pure (stackedResults W S hs ++ r.1, r.2)) := by
  induction hs with
  | nil =>
    intro S _ _ _
    simp only [List.map_nil, List.nil_append, List.sum_nil, Int.add_zero, stackedResults]
    cases packSequence ⟨W, H, [⟨0, S⟩]⟩ more <;> rfl
  | cons h hs ih =>
    intro S hS hpos hsum
    have hh : 0 < h := hpos h (List.mem_cons_self _ _)
    have hpos' : ∀ x ∈ hs, 0 < x := fun x hx => hpos x (List.mem_cons_of_mem _ hx)
    have hnn : 0 ≤ hs.sum := List.sum_nonneg (fun x hx => Int.le_of_lt (hpos' x hx))
    rw [List.sum_cons] at hsum
    have hstep := TryPack_single_accept32 W H S W h hW (Int.le_refl _) hh hS (by omega) hA
    rw [if_neg (by omega)] at hstep
    rw [List.map_cons, List.cons_append, packSequence_cons32 _ _ _ _ _ _ _ hstep,
      ih (S + h) (by omega) hpos' (by omega), List.sum_cons]
    have e : S + h + hs.sum = S + (h + hs.sum) := by omega
    rw [e]
    cases packSequence ⟨W, H, [⟨0, S + (h + hs.sum)⟩]⟩ more <;> rfl

/-- C3. In every packer state, reachable or not, and for every requested width and height:
when `TryPack` returns false, the packer after the call, and with it the list of height
slices, is the packer before the call. -/
theorem C3_failed_TryPack_leaves_silhouette (p : CygonRectanglePacker) (w h : Int)
    (placement : Point) (p' : CygonRectanglePacker)
    (hfail : TryPack p w h = .ok (false, placement, p')) :
    p'.heightSlices = p.heightSlices ∧ p' = p := by
  unfold TryPack at hfail
  split at hfail
  · injection hfail with hfail
    injection hfail with _ hfail
    injection hfail with _ hfail
    subst hfail; exact ⟨rfl, rfl⟩
  · cases hfind : tryFindBestPlacement p w h with
    | error e => rw [hfind] at hfail; cases hfail
    | ok res =>
      obtain ⟨fits, pt⟩ := res
      rw [hfind] at hfail
      cases fits with
      | false =>
        simp only [bind, Except.bind, pure, Except.pure] at hfail
        injection hfail with hfail
        injection hfail with _ hfail
        injection hfail with _ hfail
        subst hfail; exact ⟨rfl, rfl⟩
      | true =>
        simp only [bind, Except.bind, pure, Except.pure] at hfail
        cases hint : integrateRectangle p pt.X w (wrap (pt.Y + h)) with
        | error e => rw [hint] at hfail; cases hfail
        | ok l =>
          rw [hint] at hfail
          injection hfail with hfail
          injection hfail with hfail _
          cases hfail

/-- Witness of C3: after `(5, 6)` on a 10 by 10 surface the request `(5, 5)` is refused. -/
theorem C3_failed_TryPack_leaves_silhouette_witness :
    TryPack ⟨10, 10, [⟨0, 6⟩, ⟨5, 0⟩]⟩ 5 5 = .ok (false, ⟨0, 0⟩, ⟨10, 10, [⟨0, 6⟩, ⟨5, 0⟩]⟩) ∧
    ((⟨10, 10, [⟨0, 6⟩, ⟨5, 0⟩]⟩ : CygonRectanglePacker).heightSlices =
        (⟨10, 10, [⟨0, 6⟩, ⟨5, 0⟩]⟩ : CygonRectanglePacker).heightSlices ∧
      (⟨10, 10, [⟨0, 6⟩, ⟨5, 0⟩]⟩ : CygonRectanglePacker) = ⟨10, 10, [⟨0, 6⟩, ⟨5, 0⟩]⟩) :=
  ⟨rfl, C3_failed_TryPack_leaves_silhouette ⟨10, 10, [⟨0, 6⟩, ⟨5, 0⟩]⟩ 5 5 ⟨0, 0⟩
    ⟨10, 10, [⟨0, 6⟩, ⟨5, 0⟩]⟩ rfl⟩

/-- C4. In every packer state, `TryPack(w, h)` with `w > PackingAreaWidth` or
`h > PackingAreaHeight` returns false with `Point::Zero` and leaves the packer as it was. -/
theorem C4_oversized_request_refused (p : CygonRectanglePacker) (w h : Int)
    (hbig : w > p.PackingAreaWidth ∨ h > p.PackingAreaHeight) :
    TryPack p w h = .ok (false, Point.Zero, p) := by
  unfold TryPack
  rw [if_pos hbig]
  rfl

/-- Witness of C4: `(200, 10)` on a fresh 100 by 100 surface. -/
theorem C4_oversized_request_refused_witness :
    ((200 : Int) > (CygonRectanglePacker.create 100 100).PackingAreaWidth ∨
      (10 : Int) > (CygonRectanglePacker.create 100 100).PackingAreaHeight) ∧
    TryPack (CygonRectanglePacker.create 100 100) 200 10 =
      .ok (false, Point.Zero, CygonRectanglePacker.create 100 100) :=
  ⟨Or.inl (by decide), C4_oversized_request_refused (CygonRectanglePacker.create 100 100) 200 10
    (Or.inl (by decide))⟩

/-- C5, the code at the failing input. On a 10 by 10 surface holding the rectangle `(5, 6)`
at `(0, 0)`, a reachable state, `TryPack(5, 5)` returns false although the breakpoint at
`x = 5` has `5 + 5 <= 10` and a highest column of height 0 under `[5, 10)`, `0 + 5 < 10`. -/
theorem C5_feasible_breakpoint_refused :
    Reachable ⟨10, 10, [⟨0, 6⟩, ⟨5, 0⟩]⟩ ∧
    TryPack ⟨10, 10, [⟨0, 6⟩, ⟨5, 0⟩]⟩ 5 5 = .ok (false, ⟨0, 0⟩, ⟨10, 10, [⟨0, 6⟩, ⟨5, 0⟩]⟩) ∧
    ∃ s ∈ [(⟨0, 6⟩ : Point), ⟨5, 0⟩], s.X + 5 ≤ 10 ∧
      spanHeight [⟨0, 6⟩, ⟨5, 0⟩] s.X 5 + 5 < 10 :=
  ⟨Reachable.step (Reachable.fresh 10 10) (by decide : (0 : Int) < 5) (by decide : (0 : Int) < 6)
      (rfl : TryPack (CygonRectanglePacker.create 10 10) 5 6 =
        .ok (true, ⟨0, 0⟩, ⟨10, 10, [⟨0, 6⟩, ⟨5, 0⟩]⟩)),
    rfl, ⟨5, 0⟩, by decide, by decide, by decide⟩

/-- C6, the code at the failing input. On a 31 by 100 surface holding `(10, 20)` at `(0, 0)`,
`(10, 5)` at `(10, 0)` and `(10, 20)` at `(20, 0)`, a reachable state, `TryPack(10, 1)`
returns `(0, 20)` although the breakpoint at `x = 10` has `10 + 10 <= 31` and a highest
column of height 5 under `[10, 20)`, `5 + 1 < 100`. -/
theorem C6_lower_breakpoint_not_chosen :
    Reachable ⟨31, 100, [⟨0, 20⟩, ⟨10, 5⟩, ⟨20, 20⟩, ⟨30, 0⟩]⟩ ∧
    TryPack ⟨31, 100, [⟨0, 20⟩, ⟨10, 5⟩, ⟨20, 20⟩, ⟨30, 0⟩]⟩ 10 1 =
      .ok (true, ⟨0, 20⟩, ⟨31, 100, [⟨0, 21⟩, ⟨10, 5⟩, ⟨20, 20⟩, ⟨30, 0⟩]⟩) ∧
    ∃ s ∈ [(⟨0, 20⟩ : Point), ⟨10, 5⟩, ⟨20, 20⟩, ⟨30, 0⟩], s.X + 10 ≤ 31 ∧
      spanHeight [⟨0, 20⟩, ⟨10, 5⟩, ⟨20, 20⟩, ⟨30, 0⟩] s.X 10 + 1 < 100 ∧
      spanHeight [⟨0, 20⟩, ⟨10, 5⟩, ⟨20, 20⟩, ⟨30, 0⟩] s.X 10 < 20 :=
  ⟨Reachable.step (Reachable.step (Reachable.step (Reachable.fresh 31 100)
        (by decide : (0 : Int) < 10) (by decide : (0 : Int) < 20)
        (rfl : TryPack (CygonRectanglePacker.create 31 100) 10 20 =
          .ok (true, ⟨0, 0⟩, ⟨31, 100, [⟨0, 20⟩, ⟨10, 0⟩]⟩)))
      (by decide : (0 : Int) < 10) (by decide : (0 : Int) < 5)
      (rfl : TryPack ⟨31, 100, [⟨0, 20⟩, ⟨10, 0⟩]⟩ 10 5 =
        .ok (true, ⟨10, 0⟩, ⟨31, 100, [⟨0, 20⟩, ⟨10, 5⟩, ⟨20, 0⟩]⟩)))
      (by decide : (0 : Int) < 10) (by decide : (0 : Int) < 20)
      (rfl : TryPack ⟨31, 100, [⟨0, 20⟩, ⟨10, 5⟩, ⟨20, 0⟩]⟩ 10 20 =
        .ok (true, ⟨20, 0⟩, ⟨31, 100, [⟨0, 20⟩, ⟨10, 5⟩, ⟨20, 20⟩, ⟨30, 0⟩]⟩)),
    rfl, ⟨10, 5⟩, by decide, by decide, by decide, by decide⟩

/-- C7. In every packer state and for every width and height: when `TryPack` returns true,
`Pack` returns the same placement and leaves the same packer; `Pack` returns a placement only
in that case; and `Pack` raises the out-of-space exception exactly when `TryPack` returns
false. -/
theorem C7_Pack_follows_TryPack (p : CygonRectanglePacker) (w h : Int) :
    (∀ placement p', TryPack p w h = .ok (true, placement, p') ↔
      Pack p w h = .ok (placement, p')) ∧
    (Pack p w h = .error Exn.OutOfSpace ↔
      ∃ placement p', TryPack p w h = .ok (false, placement, p')) := by
  cases ht : TryPack p w h with
  | error e =>
    have hne : e ≠ Exn.OutOfSpace := by
      intro he; subst he; exact TryPack_ne_oos p w h ht
    have hp : Pack p w h = .error e := by unfold Pack; rw [ht]; rfl
    rw [hp]
    refine ⟨fun placement p' => ⟨fun h => (by cases h), fun h => (by cases h)⟩, ?_⟩
    constructor
    · intro h; injection h with h; exact absurd h hne
    · rintro ⟨_, _, h⟩; cases h
  | ok res =>
    obtain ⟨fits, pt, p1⟩ := res
    cases fits with
    | false =>
      have hp : Pack p w h = .error Exn.OutOfSpace := by unfold Pack; rw [ht]; rfl
      rw [hp]
      refine ⟨fun placement p' => ⟨fun h => (by cases h), fun h => (by cases h)⟩, ?_⟩
      exact ⟨fun _ => ⟨pt, p1, rfl⟩, fun _ => rfl⟩
    | true =>
      have hp : Pack p w h = .ok (pt, p1) := by unfold Pack; rw [ht]; rfl
      rw [hp]
      refine ⟨fun placement p' => ⟨fun h => ?_, fun h => ?_⟩, ?_⟩
      · injection h with h
        injection h with _ h
        rw [h]
      · injection h with h
        rw [h]
      · constructor
        · intro h; cases h
        · rintro ⟨_, _, h⟩; cases h

/-- C8. When the size search returns `s`: `s` is one of 64, 128, 256, 512, 1024, 2048; on a
fresh `s` by `s` packer every kept rectangle, one unit wider and higher, is accepted in
sequence order; and on a fresh packer of every smaller candidate size some rectangle of the
sequence is refused. -/
theorem C8_size_search_returns_first_fit (measured : List Rectangle) (s : Int)
    (hs : determineOptimalTextureSize measured = .ok s) :
    s ∈ [64, 128, 256, 512, 1024, 2048] ∧
    AllFit s (paddedRequests measured) ∧
    ∀ c ∈ [64, 128, 256, 512, 1024, 2048], c < s → SomeFails c (paddedRequests measured) := by
  rcases sizeSearch_spec measured with ⟨s', h1, h2, h3, h4⟩ | ⟨h1, -⟩
  · rw [h1] at hs
    injection hs with hs
    subst hs
    exact ⟨h2, h3, h4⟩
  · rw [h1] at hs; cases hs

/-- Witness of C8: one box of 100 by 10 does not fit 64 by 64 and fits 128 by 128. -/
theorem C8_size_search_returns_first_fit_witness :
    determineOptimalTextureSize [⟨0, 0, 100, 10⟩] = .ok 128 ∧
    ((128 : Int) ∈ [64, 128, 256, 512, 1024, 2048] ∧
      AllFit 128 (paddedRequests [⟨0, 0, 100, 10⟩]) ∧
      ∀ c ∈ [64, 128, 256, 512, 1024, 2048], c < 128 →
        SomeFails c (paddedRequests [⟨0, 0, 100, 10⟩])) :=
  ⟨rfl, C8_size_search_returns_first_fit [⟨0, 0, 100, 10⟩] 128 rfl⟩

/-- C9. The size search raises the out-of-space exception exactly when, at each of the six
candidate sizes 64 to 2048, the sequence of `TryPack` calls on a fresh packer of that size
contains a call that returns false; in every other case it returns a size. -/
theorem C9_size_search_out_of_space (measured : List Rectangle) :
    (determineOptimalTextureSize measured = .error Exn.OutOfSpace ↔
      ∀ c ∈ [64, 128, 256, 512, 1024, 2048], SomeFails c (paddedRequests measured)) ∧
    (determineOptimalTextureSize measured = .error Exn.OutOfSpace ∨
      ∃ s, determineOptimalTextureSize measured = .ok s) := by
  rcases sizeSearch_spec measured with ⟨s', h1, h2, h3, h4⟩ | ⟨h1, h2⟩
  · refine ⟨⟨fun h => (by rw [h1] at h; cases h), fun h => ?_⟩, Or.inr ⟨s', h1⟩⟩
    exact absurd (h s' h2) (AllFit_excludes_SomeFails _ _ h3)
  · exact ⟨⟨fun _ => h2, fun _ => h1⟩, Or.inl h1⟩

/-- C10. When the size search returns `s`, the kept rectangles, one unit wider and higher,
have an arrangement inside the `s` by `s` square that is in bounds and free of overlap; so
`s` is at least the smallest candidate size at which such an arrangement exists. -/
theorem C10_returned_size_is_packable (measured : List Rectangle) (s : Int)
    (hs : determineOptimalTextureSize measured = .ok s) :
    Packable s (paddedRequests measured) ∧
    ∀ c ∈ [64, 128, 256, 512, 1024, 2048], Packable c (paddedRequests measured) →
      (∀ c' ∈ [64, 128, 256, 512, 1024, 2048], Packable c' (paddedRequests measured) → c ≤ c') →
      c ≤ s := by
  rcases sizeSearch_spec measured with ⟨s', h1, h2, h3, h4⟩ | ⟨h1, -⟩
  · rw [h1] at hs
    injection hs with hs
    subst hs
    have hp := Exact.AllFit_Packable s' _ (paddedRequests_positive measured)
      ((AllFit_exact s' (SmallSurface_of_candidate s' h2) _
        (paddedRequests_positive measured)).1 h3)
    exact ⟨hp, fun c _ _ hmin => hmin s' h2 hp⟩
  · rw [h1] at hs; cases hs

/-- Witness of C10: one box of 100 by 10, for which the search returns 128. -/
theorem C10_returned_size_is_packable_witness :
    determineOptimalTextureSize [⟨0, 0, 100, 10⟩] = .ok 128 ∧
    (Packable 128 (paddedRequests [⟨0, 0, 100, 10⟩]) ∧
      ∀ c ∈ [64, 128, 256, 512, 1024, 2048], Packable c (paddedRequests [⟨0, 0, 100, 10⟩]) →
        (∀ c' ∈ [64, 128, 256, 512, 1024, 2048],
          Packable c' (paddedRequests [⟨0, 0, 100, 10⟩]) → c ≤ c') →
        c ≤ 128) :=
  ⟨rfl, C10_returned_size_is_packable [⟨0, 0, 100, 10⟩] 128 rfl⟩

/-- C11. When the size search returns `s`, the `Pack` calls of `Process` on a fresh `s` by
`s` packer, with the same padded rectangles in the same order, raise no exception (so no
out-of-space) and give the placements and the final packer of the `TryPack` calls of the
trial. -/
theorem C11_replay_with_Pack_succeeds (measured : List Rectangle) (s : Int)
    (hs : determineOptimalTextureSize measured = .ok s) :
    ∃ results p', packSequence (CygonRectanglePacker.create s s) (paddedRequests measured) =
        .ok (results, p') ∧
      (∀ r ∈ results, r.1 = true) ∧
      packAll (CygonRectanglePacker.create s s) (paddedRequests measured) =
        .ok (results.map (fun r => (⟨r.2.X, r.2.Y⟩ : Point)), p') := by
  rcases sizeSearch_spec measured with ⟨s', h1, h2, h3, -⟩ | ⟨h1, -⟩
  · rw [h1] at hs
    injection hs with hs
    subst hs
    obtain ⟨results, p', hr, hall⟩ := h3
    have hsmall := SmallSurface_of_candidate s' h2
    have hpos := paddedRequests_positive measured
    refine ⟨results, p', hr, hall, ?_⟩
    rw [packSequence_exact _ _ (WellFormed_create s' s') (BelowTop_create s' s') hsmall
      hpos] at hr
    rw [packAll_exact _ _ (WellFormed_create s' s') (BelowTop_create s' s') hsmall hpos]
    exact Exact.packAll_of_all_true _ _ results p' hr hall
  · rw [h1] at hs; cases hs

/-- Witness of C11: two boxes of 30 by 30, for which the search returns 64. -/
theorem C11_replay_with_Pack_succeeds_witness :
    determineOptimalTextureSize [⟨0, 0, 30, 30⟩, ⟨0, 0, 30, 30⟩] = .ok 64 ∧
    ∃ results p', packSequence (CygonRectanglePacker.create 64 64)
        (paddedRequests [⟨0, 0, 30, 30⟩, ⟨0, 0, 30, 30⟩]) = .ok (results, p') ∧
      (∀ r ∈ results, r.1 = true) ∧
      packAll (CygonRectanglePacker.create 64 64)
        (paddedRequests [⟨0, 0, 30, 30⟩, ⟨0, 0, 30, 30⟩]) =
        .ok (results.map (fun r => (⟨r.2.X, r.2.Y⟩ : Point)), p') :=
  ⟨rfl, C11_replay_with_Pack_succeeds [⟨0, 0, 30, 30⟩, ⟨0, 0, 30, 30⟩] 64 rfl⟩

/-- C15, the claim fails. On a fresh 65536 by 65536 packer the first request `(10, 10)` is
refused: the product `PackingAreaWidth * PackingAreaHeight` of line 77 wraps to 0, and no
score is below it. -/
theorem C15_first_request_refused :
    (0 : Int) < 10 ∧ (10 : Int) ≤ 65536 ∧ (10 : Int) < 65536 ∧
    TryPack (CygonRectanglePacker.create 65536 65536) 10 10 =
      .ok (false, ⟨0, 0⟩, CygonRectanglePacker.create 65536 65536) :=
  ⟨by decide, by decide, by decide, rfl⟩

/-- C15 as amended. On a fresh `W` by `H` packer with an area below `2^31` the first
`TryPack(w, h)` with `0 < w <= W` and `0 < h < H` returns true with the placement `(0, 0)`;
the silhouette becomes `(0, h)`, followed by `(w, 0)` when `w < W`. -/
theorem C15_first_request_at_origin (W H w h : Int) (hA : W * H < 2147483648) (hw : 0 < w)
    (hwW : w ≤ W) (hh : 0 < h) (hhH : h < H) :
    TryPack (CygonRectanglePacker.create W H) w h =
      .ok (true, ⟨0, 0⟩, ⟨W, H, if w < W then [⟨0, h⟩, ⟨w, 0⟩] else [⟨0, h⟩]⟩) := by
  have := TryPack_single_accept32 W H 0 w h hw hwW hh (Int.le_refl _) (by omega) hA
  rw [Int.zero_add] at this
  exact this

/-- Witness of C15 as amended: `(10, 10)` on a fresh 100 by 100 surface. -/
theorem C15_first_request_at_origin_witness :
    (100 : Int) * 100 < 2147483648 ∧
    (0 : Int) < 10 ∧ (10 : Int) ≤ 100 ∧ (0 : Int) < 10 ∧ (10 : Int) < 100 ∧
    TryPack (CygonRectanglePacker.create 100 100) 10 10 =
      .ok (true, ⟨0, 0⟩, ⟨100, 100,
        if (10 : Int) < 100 then [⟨0, 10⟩, ⟨10, 0⟩] else [⟨0, 10⟩]⟩) :=
  ⟨by decide, by decide, by decide, by decide, by decide,
    C15_first_request_at_origin 100 100 10 10 (by decide) (by decide) (by decide) (by decide)
      (by decide)⟩

/-- C16, the claim fails. On a fresh 65536 by 65536 packer the full-width request
`(65536, 10)` is refused, although `10 < 65536`: the product of line 77 wraps to 0. -/
theorem C16_full_width_request_refused :
    (0 : Int) < 65536 ∧ (∀ h ∈ [(10 : Int)], 0 < h) ∧ [(10 : Int)].sum < 65536 ∧
    packSequence (CygonRectanglePacker.create 65536 65536)
        ([(10 : Int)].map (fun h => ((65536 : Int), h))) =
      .ok ([(false, ⟨0, 0, 65536, 10⟩)], CygonRectanglePacker.create 65536 65536) ∧
    stackedResults 65536 0 [10] = [(true, ⟨0, 0, 65536, 10⟩)] :=
  ⟨by decide, by decide, by decide, rfl, rfl⟩

/-- C16 as amended. On a fresh `W` by `H` packer with `W > 0` and an area below `2^31`,
full-width requests `(W, h_1)`, `(W, h_2)`, ... with positive heights and
`h_1 + ... + h_n < H` are all accepted, the i-th at `(0, h_1 + ... + h_(i-1))`, and leave the
single slice `(0, h_1 + ... + h_n)`; the calls that follow them run on that silhouette. -/
theorem C16_full_width_requests_stacked (W H : Int) (hs : List Int) (more : List (Int × Int))
    (hW : 0 < W) (hA : W * H < 2147483648) (hpos : ∀ h ∈ hs, 0 < h) (hsum : hs.sum < H) :
    packSequence (CygonRectanglePacker.create W H) (hs.map (fun h => (W, h))) =
      .ok (stackedResults W 0 hs, ⟨W, H, [⟨0, hs.sum⟩]⟩) ∧
    (∀ i : Nat, i < hs.length → (stackedResults W 0 hs)[i]? =
      some (true, ⟨0, (hs.take i).sum, W, hs.getD i 0⟩)) ∧
    packSequence (CygonRectanglePacker.create W H) (hs.map (fun h => (W, h)) ++ more) =
      (packSequence ⟨W, H, [⟨0, hs.sum⟩]⟩ more >>= fun r =>
        pure (stackedResults W 0 hs ++ r.1, r.2)) := by
  have hgen := fun m => packSequence_stacked32 W H hW hA m hs 0 (Int.le_refl _) hpos (by omega)
  simp only [Int.zero_add] at hgen
  refine ⟨?_, ?_, hgen more⟩
  · have := hgen []
    rw [List.append_nil] at this
    rw [show CygonRectanglePacker.create W H = ⟨W, H, [⟨0, 0⟩]⟩ from rfl, this]
    simp [packSequence, bind, Except.bind, pure, Except.pure]
  · intro i hi
    have := stackedResults_getElem? W hs 0 i hi
    rw [Int.zero_add] at this
    exact this

/-- Witness of C16 as amended: `(100, 10)` twice on a 100 by 100 surface. -/
theorem C16_full_width_requests_stacked_witness :
    (0 : Int) < 100 ∧ (100 : Int) * 100 < 2147483648 ∧ (∀ h ∈ [(10 : Int), 10], 0 < h) ∧
    [(10 : Int), 10].sum < 100 ∧
    (packSequence (CygonRectanglePacker.create 100 100)
        ([(10 : Int), 10].map (fun h => ((100 : Int), h))) =
      .ok (stackedResults 100 0 [10, 10], ⟨100, 100, [⟨0, [(10 : Int), 10].sum⟩]⟩) ∧
    (∀ i : Nat, i < [(10 : Int), 10].length → (stackedResults 100 0 [10, 10])[i]? =
      some (true, ⟨0, ([(10 : Int), 10].take i).sum, 100, [(10 : Int), 10].getD i 0⟩)) ∧
    packSequence (CygonRectanglePacker.create 100 100)
        ([(10 : Int), 10].map (fun h => ((100 : Int), h)) ++ []) =
      (packSequence ⟨100, 100, [⟨0, [(10 : Int), 10].sum⟩]⟩ [] >>= fun r =>
        pure (stackedResults 100 0 [10, 10] ++ r.1, r.2))) :=
  ⟨by decide, by decide, by decide, by decide,
    C16_full_width_requests_stacked 100 100 [10, 10] [] (by decide) (by decide) (by decide)
      (by decide)⟩

/-- C17, the claim fails, in two ways. On a fresh 65536 by 65536 packer the request
`(40000, 10)` is refused although `0 + 10 < 65536`: the product of line 77 wraps to 0. And
on a fresh 1 by 2147483647 packer the second request `(1, 2000000000)` is accepted at
`(0, 2000000000)` although `2000000000 + 2000000000` is above the height: the test of
line 102 wraps. -/
theorem C17_column_breaks_on_overflow :
    (40000 : Int) ≤ 65536 ∧ (65536 : Int) < 2 * 40000 ∧ (∀ h ∈ [(10 : Int)], 0 < h) ∧
    packSequence (CygonRectanglePacker.create 65536 65536)
        ([(10 : Int)].map (fun h => ((40000 : Int), h))) =
      .ok ([(false, ⟨0, 0, 40000, 10⟩)], CygonRectanglePacker.create 65536 65536) ∧
    columnResults 65536 40000 0 [10] = [(true, ⟨0, 0, 40000, 10⟩)] ∧
    (1 : Int) ≤ 1 ∧ (1 : Int) < 2 * 1 ∧ (∀ h ∈ [(2000000000 : Int), 2000000000], 0 < h) ∧
    packSequence (CygonRectanglePacker.create 1 2147483647)
        ([(2000000000 : Int), 2000000000].map (fun h => ((1 : Int), h))) =
      .ok ([(true, ⟨0, 0, 1, 2000000000⟩), (true, ⟨0, 2000000000, 1, 2000000000⟩)],
        ⟨1, 2147483647, [⟨0, -294967296⟩]⟩) ∧
    columnResults 2147483647 1 0 [2000000000, 2000000000] =
      [(true, ⟨0, 0, 1, 2000000000⟩), (false, ⟨0, 0, 1, 2000000000⟩)] :=
  ⟨by decide, by decide, by decide, rfl, rfl, by decide, by decide, by decide, rfl, rfl⟩

/-- C17 as amended. On a fresh `W` by `H` packer with no side above `2^30` and an area below
`2^31`, requests of one width `w` with `w <= W < 2 * w` and positive heights behave as one
column: with `S` the sum of the heights accepted so far, the request `(w, h)` is accepted at
`(0, S)` when `S + h < H` and refused otherwise. -/
theorem C17_one_column_of_wide_requests (W H w : Int) (hsmall : SmallSurface W H)
    (hs : List Int) (hwW : w ≤ W) (hW2 : W < 2 * w) (hpos : ∀ h ∈ hs, 0 < h) :
    ∃ p', packSequence (CygonRectanglePacker.create W H) (hs.map (fun h => (w, h))) =
      .ok (columnResults H w 0 hs, p') := by
  rw [packSequence_exact _ _ (WellFormed_create W H) (BelowTop_create W H) hsmall]
  · exact Exact.packSequence_column W H w hwW hW2 hs 0 [⟨0, 0⟩] (Int.le_refl _) hpos
      (Or.inl ⟨rfl, Or.inr rfl⟩)
  · intro r hr
    obtain ⟨x, hx, rfl⟩ := List.mem_map.mp hr
    exact ⟨by simp only; omega, hpos x hx⟩

/-- Witness of C17 as amended: `(60, 10)`, `(60, 10)`, `(60, 15)` on a 100 by 30 surface;
the third is refused. -/
theorem C17_one_column_of_wide_requests_witness :
    SmallSurface 100 30 ∧
    (60 : Int) ≤ 100 ∧ (100 : Int) < 2 * 60 ∧ (∀ h ∈ [(10 : Int), 10, 15], 0 < h) ∧
    columnResults 30 60 0 [10, 10, 15] =
      [(true, ⟨0, 0, 60, 10⟩), (true, ⟨0, 10, 60, 10⟩), (false, ⟨0, 0, 60, 15⟩)] ∧
    ∃ p', packSequence (CygonRectanglePacker.create 100 30)
        ([(10 : Int), 10, 15].map (fun h => ((60 : Int), h))) =
      .ok (columnResults 30 60 0 [10, 10, 15], p') :=
  ⟨by unfold SmallSurface; decide, by decide, by decide, by decide, by decide,
    C17_one_column_of_wide_requests 100 30 60 (by unfold SmallSurface; decide) [10, 10, 15]
      (by decide) (by decide) (by decide)⟩

/-- C18. The size search over five boxes of 20 by 20 returns 64. -/
theorem C18_five_boxes_of_20_fit_64 :
    determineOptimalTextureSize
      [⟨0, 0, 20, 20⟩, ⟨0, 0, 20, 20⟩, ⟨0, 0, 20, 20⟩, ⟨0, 0, 20, 20⟩, ⟨0, 0, 20, 20⟩] =
      .ok 64 :=
  rfl

/-- C19, the code at the failing input. On a 31 by 100 surface holding `(10, 50)` at
`(0, 0)`, `(10, 5)` at `(10, 0)` and `(10, 20)` at `(20, 0)`, a reachable state,
`TryPack(10, 1)` returns `(10, 20)` although the highest column under `[10, 20)` has
height 5. -/
theorem C19_placed_above_the_silhouette :
    Reachable ⟨31, 100, [⟨0, 50⟩, ⟨10, 5⟩, ⟨20, 20⟩, ⟨30, 0⟩]⟩ ∧
    TryPack ⟨31, 100, [⟨0, 50⟩, ⟨10, 5⟩, ⟨20, 20⟩, ⟨30, 0⟩]⟩ 10 1 =
      .ok (true, ⟨10, 20⟩, ⟨31, 100, [⟨0, 50⟩, ⟨10, 21⟩, ⟨20, 20⟩, ⟨30, 0⟩]⟩) ∧
    spanHeight [⟨0, 50⟩, ⟨10, 5⟩, ⟨20, 20⟩, ⟨30, 0⟩] 10 10 = 5 :=
  ⟨Reachable.step (Reachable.step (Reachable.step (Reachable.fresh 31 100)
        (by decide : (0 : Int) < 10) (by decide : (0 : Int) < 50)
        (rfl : TryPack (CygonRectanglePacker.create 31 100) 10 50 =
          .ok (true, ⟨0, 0⟩, ⟨31, 100, [⟨0, 50⟩, ⟨10, 0⟩]⟩)))
      (by decide : (0 : Int) < 10) (by decide : (0 : Int) < 5)
      (rfl : TryPack ⟨31, 100, [⟨0, 50⟩, ⟨10, 0⟩]⟩ 10 5 =
        .ok (true, ⟨10, 0⟩, ⟨31, 100, [⟨0, 50⟩, ⟨10, 5⟩, ⟨20, 0⟩]⟩)))
      (by decide : (0 : Int) < 10) (by decide : (0 : Int) < 20)
      (rfl : TryPack ⟨31, 100, [⟨0, 50⟩, ⟨10, 5⟩, ⟨20, 0⟩]⟩ 10 20 =
        .ok (true, ⟨20, 0⟩, ⟨31, 100, [⟨0, 50⟩, ⟨10, 5⟩, ⟨20, 20⟩, ⟨30, 0⟩]⟩)),
    rfl, by decide⟩

/-- C22. On a silhouette with strictly increasing slice starts, the first of them 0 and all
of them below the surface width, which is a 32-bit `int`, for `left >= 0`, `width > 0` and
`left + width` within the surface width, `integrateRectangle(left, width, bottom)` returns
and afterwards the silhouette height is `bottom` at every column of `[left, left + width)`,
wherever `left` and `left + width` fall among the slice starts. -/
theorem C22_integrated_columns_at_bottom (p : CygonRectanglePacker)
    (hint : p.PackingAreaWidth ≤ 2147483647)
    (hs : SortedX p.heightSlices) (hne : 0 < Count p.heightSlices)
    (hfirst : (nth p.heightSlices 0).X = 0)
    (hx : ∀ s ∈ p.heightSlices, s.X < p.PackingAreaWidth)
    (left width bottom : Int) (hl : 0 ≤ left) (hw : 0 < width)
    (hlw : left + width ≤ p.PackingAreaWidth) :
    ∃ slices, integrateRectangle p left width bottom = .ok slices ∧
      ∀ c, left ≤ c → c < left + width → heightAt slices c = bottom := by
  have hX : ∀ s ∈ p.heightSlices, 0 ≤ s.X ∧ s.X < 2147483648 := by
    intro s hs1
    obtain ⟨j, hj0, hj1, rfl⟩ := (mem_iff_nth _ _).1 hs1
    have := hs.nth_le (i := 0) (j := j) (le_refl 0) hj0 hj1
    have := hx _ hs1
    omega
  rw [integrateRectangle_exact p left width bottom hl (le_of_lt hw) (by omega) hX]
  obtain ⟨i, k, hi0, hik, hk0, hk, ha, hd, hb, hc, heq⟩ :=
    Exact.integrateRectangle_closed p hs hne hfirst left width bottom hl hw
  refine ⟨_, heq, ?_⟩
  intro c hc1 hc2
  rw [closed_heights p.PackingAreaWidth p.heightSlices i k left width bottom hw hi0 hik hk0
    hk ha hd hb hc c (by omega), if_pos ⟨hc1, hc2⟩]

/-- Witness of C22: the silhouette `(0,3), (4,1)` of a 10 by 10 surface and the rectangle
over the columns `[2, 6)` with top edge 7; neither end is a slice start. -/
theorem C22_integrated_columns_at_bottom_witness :
    SortedX [⟨0, 3⟩, ⟨4, 1⟩] ∧
    ∃ slices, integrateRectangle ⟨10, 10, [⟨0, 3⟩, ⟨4, 1⟩]⟩ 2 4 7 = .ok slices ∧
      ∀ c, 2 ≤ c → c < 2 + 4 → heightAt slices c = 7 :=
  ⟨by simp [SortedX],
    C22_integrated_columns_at_bottom ⟨10, 10, [⟨0, 3⟩, ⟨4, 1⟩]⟩ (by decide)
      (by simp [SortedX]) (by decide) (by decide) (by decide) 2 4 7 (by decide) (by decide)
      (by decide)⟩

/-- C23. Under the conditions of C22, `integrateRectangle(left, width, bottom)` returns and
leaves the silhouette height as it was at every column of `[0, surfaceWidth)` outside
`[left, left + width)`; at the right edge `left + width`, when it is inside the surface, the
height after the call is the height before the call. -/
theorem C23_columns_outside_unchanged (p : CygonRectanglePacker)
    (hint : p.PackingAreaWidth ≤ 2147483647)
    (hs : SortedX p.heightSlices) (hne : 0 < Count p.heightSlices)
    (hfirst : (nth p.heightSlices 0).X = 0)
    (hx : ∀ s ∈ p.heightSlices, s.X < p.PackingAreaWidth)
    (left width bottom : Int) (hl : 0 ≤ left) (hw : 0 < width)
    (hlw : left + width ≤ p.PackingAreaWidth) :
    ∃ slices, integrateRectangle p left width bottom = .ok slices ∧
      (∀ c, 0 ≤ c → c < p.PackingAreaWidth → ¬ (left ≤ c ∧ c < left + width) →
        heightAt slices c = heightAt p.heightSlices c) ∧
      (left + width < p.PackingAreaWidth →
        heightAt slices (left + width) = heightAt p.heightSlices (left + width)) := by
  have hX : ∀ s ∈ p.heightSlices, 0 ≤ s.X ∧ s.X < 2147483648 := by
    intro s hs1
    obtain ⟨j, hj0, hj1, rfl⟩ := (mem_iff_nth _ _).1 hs1
    have := hs.nth_le (i := 0) (j := j) (le_refl 0) hj0 hj1
    have := hx _ hs1
    omega
  rw [integrateRectangle_exact p left width bottom hl (le_of_lt hw) (by omega) hX]
  obtain ⟨i, k, hi0, hik, hk0, hk, ha, hd, hb, hc, heq⟩ :=
    Exact.integrateRectangle_closed p hs hne hfirst left width bottom hl hw
  have key := closed_heights p.PackingAreaWidth p.heightSlices i k left width bottom hw hi0
    hik hk0 hk ha hd hb hc
  refine ⟨_, heq, ?_, ?_⟩
  · intro c _ hc2 hout
    rw [key c hc2, if_neg hout]
  · intro hr
    have hout : ¬ (left ≤ left + width ∧ left + width < left + width) := by omega
    rw [key _ hr, if_neg hout]

/-- Witness of C23: the silhouette `(0,3), (8,1)` of a 10 by 10 surface and the rectangle
over the columns `[2, 6)` with top edge 7: its right edge lies inside the first span, which
has no breakpoint between 2 and 6, and the height there stays 3. -/
theorem C23_columns_outside_unchanged_witness :
    SortedX [⟨0, 3⟩, ⟨8, 1⟩] ∧
    integrateRectangle ⟨10, 10, [⟨0, 3⟩, ⟨8, 1⟩]⟩ 2 4 7 =
      .ok [⟨0, 3⟩, ⟨2, 7⟩, ⟨6, 3⟩, ⟨8, 1⟩] ∧
    ∃ slices, integrateRectangle ⟨10, 10, [⟨0, 3⟩, ⟨8, 1⟩]⟩ 2 4 7 = .ok slices ∧
      (∀ c, 0 ≤ c → c < 10 → ¬ (2 ≤ c ∧ c < 2 + 4) →
        heightAt slices c = heightAt [⟨0, 3⟩, ⟨8, 1⟩] c) ∧
      ((2 : Int) + 4 < 10 → heightAt slices (2 + 4) = heightAt [⟨0, 3⟩, ⟨8, 1⟩] (2 + 4)) :=
  ⟨by simp [SortedX], rfl,
    C23_columns_outside_unchanged ⟨10, 10, [⟨0, 3⟩, ⟨8, 1⟩]⟩ (by decide)
      (by simp [SortedX]) (by decide) (by decide) (by decide) 2 4 7 (by decide) (by decide)
      (by decide)⟩

/-- C28, the code at the failing input. For a font whose only glyph has a bitmap of 63 by
10, the size search returns 64, the glyph is packed as 64 by 11 at `(0, 0)`, and
`Process` copies the bitmap to the region `[1, 64) x [1, 11)` of a texture of 63 by 63:
the region ends one column beyond the texture. -/
theorem C28_glyph_copied_past_the_texture :
    determineOptimalTextureSize [⟨0, 0, 63, 10⟩] = .ok 64 ∧
    Pack (CygonRectanglePacker.create 64 64) (63 + 1) (10 + 1) =
      .ok (⟨0, 0⟩, ⟨64, 64, [⟨0, 11⟩]⟩) ∧
    Process [⟨0, 0, 63, 10⟩] = .ok (63, [⟨1, 1, 63, 10⟩]) ∧
    ¬ Rectangle.InBounds 63 63 ⟨1, 1, 63, 10⟩ :=
  ⟨rfl, rfl, rfl, by simp [Rectangle.InBounds]⟩

/-- C29. On every silhouette with strictly increasing slice starts and at least one slice,
and for every rectangle size, the best-placement search returns: its loop ends by its own
condition. The loop runs at most once per breakpoint, its first iteration starts with
`leftSliceIndex = 0`, and every later iteration starts with a `leftSliceIndex` one above
and a `rightSliceIndex` not below those of the iteration before. -/
theorem C29_search_terminates (p : CygonRectanglePacker) (hs : SortedX p.heightSlices)
    (hne : 0 < Count p.heightSlices) (w h : Int) :
    (∃ r, tryFindBestPlacement p w h = .ok r) ∧
    ∃ record, searchIndices p w h = .ok record ∧
      (record.length : Int) ≤ Count p.heightSlices ∧
      (∀ a ∈ record.head?, a.1 = 0) ∧
      record.Chain' (fun a b : Int × Int => b.1 = a.1 + 1 ∧ a.2 ≤ b.2) :=
  searchIndices_spec p hs hne w h

/-- Witness of C29: the search for a 10 by 1 rectangle on a silhouette of four slices runs
three iterations, with the indices `(0, 1)`, `(1, 3)` and `(2, 4)`. -/
theorem C29_search_terminates_witness :
    SortedX [⟨0, 50⟩, ⟨10, 5⟩, ⟨20, 20⟩, ⟨30, 0⟩] ∧
    searchIndices ⟨31, 100, [⟨0, 50⟩, ⟨10, 5⟩, ⟨20, 20⟩, ⟨30, 0⟩]⟩ 10 1 =
      .ok [(0, 1), (1, 3), (2, 4)] ∧
    ((∃ r, tryFindBestPlacement ⟨31, 100, [⟨0, 50⟩, ⟨10, 5⟩, ⟨20, 20⟩, ⟨30, 0⟩]⟩ 10 1 =
        .ok r) ∧
      ∃ record, searchIndices ⟨31, 100, [⟨0, 50⟩, ⟨10, 5⟩, ⟨20, 20⟩, ⟨30, 0⟩]⟩ 10 1 =
          .ok record ∧
        (record.length : Int) ≤ Count [(⟨0, 50⟩ : Point), ⟨10, 5⟩, ⟨20, 20⟩, ⟨30, 0⟩] ∧
        (∀ a ∈ record.head?, a.1 = 0) ∧
        record.Chain' (fun a b : Int × Int => b.1 = a.1 + 1 ∧ a.2 ≤ b.2)) :=
  ⟨by simp [SortedX], rfl,
    C29_search_terminates ⟨31, 100, [⟨0, 50⟩, ⟨10, 5⟩, ⟨20, 20⟩, ⟨30, 0⟩]⟩
      (by simp [SortedX]) (by decide) 10 1⟩

/-- C30. When the size search returns `s` on a sequence of character boxes, it returns on
every prefix of the sequence a size that is at most `s`; on the empty sequence it
returns 64. -/
theorem C30_size_search_on_leading_part (R P : List Rectangle) (s : Int)
    (hs : determineOptimalTextureSize R = .ok s) (hP : P <+: R) :
    (∃ t, determineOptimalTextureSize P = .ok t ∧ t ≤ s) ∧
    determineOptimalTextureSize [] = .ok 64 := by
  obtain ⟨Q, rfl⟩ := hP
  exact ⟨sizeSearch_of_append P Q s hs, rfl⟩

/-- Witness of C30: four boxes of 40 by 40 need a texture of 128, the first of them alone
fits 64. -/
theorem C30_size_search_on_leading_part_witness :
    determineOptimalTextureSize
      [⟨0, 0, 40, 40⟩, ⟨0, 0, 40, 40⟩, ⟨0, 0, 40, 40⟩, ⟨0, 0, 40, 40⟩] = .ok 128 ∧
    determineOptimalTextureSize [⟨0, 0, 40, 40⟩] = .ok 64 ∧
    [(⟨0, 0, 40, 40⟩ : Rectangle)] <+:
      [⟨0, 0, 40, 40⟩, ⟨0, 0, 40, 40⟩, ⟨0, 0, 40, 40⟩, ⟨0, 0, 40, 40⟩] ∧
    ((∃ t, determineOptimalTextureSize [⟨0, 0, 40, 40⟩] = .ok t ∧ t ≤ 128) ∧
      determineOptimalTextureSize [] = .ok 64) :=
  ⟨rfl, rfl, ⟨[⟨0, 0, 40, 40⟩, ⟨0, 0, 40, 40⟩, ⟨0, 0, 40, 40⟩], rfl⟩,
    C30_size_search_on_leading_part
      [⟨0, 0, 40, 40⟩, ⟨0, 0, 40, 40⟩, ⟨0, 0, 40, 40⟩, ⟨0, 0, 40, 40⟩] [⟨0, 0, 40, 40⟩] 128
      rfl ⟨[⟨0, 0, 40, 40⟩, ⟨0, 0, 40, 40⟩, ⟨0, 0, 40, 40⟩], rfl⟩⟩

end Nuclex
